import Mathlib

/-! The timer queue of yatq.

A shallow embedding of `include/yatq/timer_queue.h` (class `yatq::TimerQueue`)
together with the binary-heap algorithms of `<algorithm>` it calls, of
`include/yatq/thread_pool.h` (class `yatq::ThreadPool`) and of
`include/yatq/internal/promise_utils.h`, and proofs about the embedded
operations.

Conventions of the embedding

* `uid_t` is `unsigned int`: uids are natural numbers and `_next_uid++` is
  computed modulo `2 ^ 32`.
* `Clock::time_point` is an integer tick count.
* `_jobs` (a `std::unordered_map`) is an association list; its iteration order
  is never observed by the code.
* `_heap` (a `std::vector<HeapEntry>`) is a list, index `0` first.
* A `boost::promise` is identified by a number: the number of promises that
  `enqueue` created before it. The matching future carries the same number.
* Operations whose C++ text indexes a vector out of bounds return `none`.
* Effects that leave the object (a promise destroyed before it was fulfilled,
  a call of the executor, a `notify_one`) are appended to a trace.
-/

namespace Yatq

/-! ## Data model -/

/-- Number of values of `uid_t = unsigned int`. -/
def UID_MOD : Nat := 2 ^ 32

/-- The struct `HeapEntry` of `TimerQueue`: `{uid, deadline}`. -/
structure HeapEntry where
  uid : Nat
  deadline : Int
deriving DecidableEq, Repr

/-- A value-initialised `HeapEntry`, as `std::vector<HeapEntry> heap(n)` creates. -/
instance : Inhabited HeapEntry := ⟨⟨0, 0⟩⟩

/-- The struct `MapEntry` of `TimerQueue`: the job (an opaque tag, the queue only
moves it) and the write end of the caller's result channel. -/
structure MapEntry where
  job : Nat
  promise : Nat
deriving DecidableEq, Repr

/-- The struct `TimerHandle` returned by `enqueue`; `result` is the future of the
promise with the same number. -/
structure TimerHandle where
  uid : Nat
  deadline : Int
  result : Nat
deriving DecidableEq, Repr

/-- Effects of the queue that are visible outside of it, one constructor per
place of the source that produces the effect. -/
inductive Event where
  /-- `enqueue`, line 166: `insert` found the key present; the pair holding the
  job and the promise is destroyed, which breaks the promise. -/
  | dropped (uid : Nat) (promise : Nat)
  /-- `cancel`, line 201: `_jobs.erase(i)` destroys the entry, which breaks the
  promise. -/
  | cancelled (uid : Nat) (promise : Nat)
  /-- `clear`, line 228: `_jobs.clear()` destroys the entry, which breaks the
  promise. -/
  | cleared (uid : Nat) (promise : Nat)
  /-- `demux`, lines 313 to 331: the job is passed to `_executor->execute` and the
  promise is moved into the continuation of the executor's future. -/
  | executed (uid : Nat) (job : Nat) (promise : Nat)
  /-- A call of `_cond.notify_one()`. -/
  | notified
deriving DecidableEq, Repr

/-- The fields of `TimerQueue` that the lock protects, plus two history
variables: `handles`, every handle `enqueue` has returned (oldest first), and
`log`, the trace of effects (oldest first). -/
structure TimerQueue where
  running : Bool
  next_uid : Nat
  jobs : List (Nat × MapEntry)
  heap : List HeapEntry
  handles : List TimerHandle
  log : List Event
deriving DecidableEq, Repr

/-! ## The heap algorithms of the standard library

`std::push_heap`, `std::pop_heap` and `std::make_heap` are not part of the
repository; they are embedded after their libstdc++ text (`bits/stl_heap.h`):
a hole is moved through the array and the saved value is stored at the end.
The loops carry their iteration bound as a structural argument. -/

/-- The comparator `TimerQueue::heap_cmp`: `lhs.deadline > rhs.deadline`. -/
def heap_cmp (lhs rhs : HeapEntry) : Bool := decide (lhs.deadline > rhs.deadline)

/-- Element access `first[i]`. -/
def nth (h : List HeapEntry) (i : Nat) : HeapEntry := h.getD i default

/-- The loop of `std::__push_heap(first, holeIndex, topIndex, value, comp)`:
`while (holeIndex > topIndex && comp(first + parent, value))` move the parent
into the hole; then store `value` in the hole. The first argument bounds the
number of iterations; `holeIndex` is enough. -/
def push_heap_loop : Nat → List HeapEntry → Nat → Nat → HeapEntry → List HeapEntry
  | 0, h, holeIndex, _, value => h.set holeIndex value
  | n + 1, h, holeIndex, topIndex, value =>
    let parent := (holeIndex - 1) / 2
    if holeIndex > topIndex ∧ heap_cmp (nth h parent) value = true then
      push_heap_loop n (h.set holeIndex (nth h parent)) parent topIndex value
    else h.set holeIndex value

/-- The function `std::__push_heap`, with the iteration bound supplied. -/
def push_heap_at (h : List HeapEntry) (holeIndex topIndex : Nat) (value : HeapEntry) :
    List HeapEntry :=
  push_heap_loop holeIndex h holeIndex topIndex value

/-- The function `std::push_heap(first, last, comp)`: the last element is the
value pushed. -/
def push_heap (h : List HeapEntry) : List HeapEntry :=
  push_heap_at h (h.length - 1) 0 (nth h (h.length - 1))

/-- The first loop of `std::__adjust_heap(first, holeIndex, len, value, comp)`:
`while (secondChild < (len - 1) / 2)` move the child that `comp` does not put
first into the hole. Returns the array and the final hole. -/
def adjust_heap_loop : Nat → List HeapEntry → Nat → Nat → List HeapEntry × Nat
  | 0, h, holeIndex, _ => (h, holeIndex)
  | n + 1, h, holeIndex, len =>
    if holeIndex < (len - 1) / 2 then
      let secondChild := 2 * (holeIndex + 1)
      let secondChild :=
        if heap_cmp (nth h secondChild) (nth h (secondChild - 1)) = true then secondChild - 1
        else secondChild
      adjust_heap_loop n (h.set holeIndex (nth h secondChild)) secondChild len
    else (h, holeIndex)

/-- The function `std::__adjust_heap(first, holeIndex, len, value, comp)`, called with
`1 ≤ len` only: the loop, then the case of a last node with a single child, then
`std::__push_heap` from the hole up to the start index. -/
def adjust_heap (h : List HeapEntry) (holeIndex len : Nat) (value : HeapEntry) :
    List HeapEntry :=
  let topIndex := holeIndex
  let r := adjust_heap_loop len h holeIndex len
  let h1 := r.1
  let secondChild := r.2
  if len % 2 = 0 ∧ secondChild = (len - 2) / 2 then
    let secondChild := 2 * (secondChild + 1)
    push_heap_at (h1.set r.2 (nth h1 (secondChild - 1))) (secondChild - 1) topIndex value
  else
    push_heap_at h1 secondChild topIndex value

/-- The function `std::pop_heap(first, last, comp)`: with more than one element, the last
element is saved, the first is stored in its place, and the saved value is
sifted into the range without its last position. -/
def pop_heap (h : List HeapEntry) : List HeapEntry :=
  if h.length > 1 then
    let last := h.length - 1
    let value := nth h last
    adjust_heap (h.set last (nth h 0)) 0 last value
  else h

/-- The loop of `std::make_heap`: `__adjust_heap` at `parent`, then at
`parent - 1`, down to `0`. -/
def make_heap_loop : Nat → List HeapEntry → List HeapEntry
  | 0, h => adjust_heap h 0 h.length (nth h 0)
  | parent + 1, h =>
    make_heap_loop parent (adjust_heap h (parent + 1) h.length (nth h (parent + 1)))

/-- The function `std::make_heap(first, last, comp)`. -/
def make_heap (h : List HeapEntry) : List HeapEntry :=
  if h.length < 2 then h else make_heap_loop ((h.length - 2) / 2) h

/-- The binary min-heap property under `heap_cmp` (what `std::is_heap` tests):
no element is put before its parent, i.e. the deadline at `(i - 1) / 2` is at
most the deadline at `i`. -/
def is_heap (h : List HeapEntry) : Prop :=
  ∀ i, 0 < i → i < h.length → (nth h ((i - 1) / 2)).deadline ≤ (nth h i).deadline

/-! ## The job table -/

/-- The call `_jobs.find(uid)`: the entry stored under `uid`, if any. -/
def jobs_find (jobs : List (Nat × MapEntry)) (uid : Nat) : Option (Nat × MapEntry) :=
  jobs.find? (fun p => p.1 == uid)

/-- The call `_jobs.contains(uid)`. -/
def jobs_contains (jobs : List (Nat × MapEntry)) (uid : Nat) : Bool :=
  jobs.any (fun p => p.1 == uid)

/-- The calls `_jobs.erase(i)` and `_jobs.extract(i)` for the iterator `i` that
`_jobs.find(uid)` returned: the keys of a `std::unordered_map` are pairwise
distinct, so what is removed is what is stored under `uid`. -/
def jobs_erase (jobs : List (Nat × MapEntry)) (uid : Nat) : List (Nat × MapEntry) :=
  jobs.filter (fun p => p.1 != uid)

/-- The call `_jobs.insert(std::make_pair(uid, entry))`: nothing is inserted when the key
is present. -/
def jobs_insert (jobs : List (Nat × MapEntry)) (uid : Nat) (entry : MapEntry) :
    List (Nat × MapEntry) :=
  if jobs_contains jobs uid then jobs else jobs ++ [(uid, entry)]

/-! ## Public operations of `TimerQueue` -/

namespace TimerQueue

/-- The constructor `TimerQueue(Executor*)`: `_running(false), _next_uid(0)`,
empty containers. -/
def create : TimerQueue :=
  { running := false, next_uid := 0, jobs := [], heap := [], handles := [], log := [] }

/-- Was `notify_one` called, written as the list of trace entries it adds. -/
def notify_if (b : Bool) : List Event := if b then [Event.notified] else []

/-- The member `TimerQueue::enqueue(deadline, job)`, lines 146 to 182. The promise created at
line 152 gets the number of handles returned so far. `is_first` is line 169;
`_heap` is not empty there because of the `push_back` just before. -/
def enqueue (q : TimerQueue) (deadline : Int) (job : Nat) : TimerHandle × TimerQueue :=
  let promise := q.handles.length
  let uid := q.next_uid
  let next_uid := (q.next_uid + 1) % UID_MOD
  let present := jobs_contains q.jobs uid
  let jobs := jobs_insert q.jobs uid { job := job, promise := promise }
  let heap := push_heap (q.heap ++ [{ uid := uid, deadline := deadline }])
  let is_first := decide ((nth heap 0).uid = uid)
  let handle : TimerHandle := { uid := uid, deadline := deadline, result := promise }
  (handle,
   { q with
     next_uid := next_uid, jobs := jobs, heap := heap,
     handles := q.handles ++ [handle],
     log := q.log ++ (if present then [Event.dropped uid promise] else [])
              ++ notify_if is_first })

/-- The member `TimerQueue::cancel(uid)`, lines 189 to 213. `none`: line 203 reads
`_heap[0]` of an empty vector. -/
def cancel (q : TimerQueue) (uid : Nat) : Option (Bool × TimerQueue) :=
  match jobs_find q.jobs uid with
  | some i =>
    match q.heap with
    | [] => none
    | root :: _ =>
      let was_first := decide (root.uid = uid)
      some (true,
        { q with
          jobs := jobs_erase q.jobs uid,
          log := q.log ++ [Event.cancelled uid i.2.promise] ++ notify_if was_first })
  | none => some (false, q)

/-- The member `TimerQueue::clear()`, lines 218 to 237. -/
def clear (q : TimerQueue) : TimerQueue :=
  let total_jobs := q.jobs.length
  { q with
    jobs := [], heap := [],
    log := q.log ++ q.jobs.map (fun p => Event.cleared p.1 p.2.promise)
             ++ notify_if (decide (total_jobs > 0)) }

/-- The member `TimerQueue::purge()`, lines 242 to 270. The new vector has `total_jobs`
value-initialised entries; the entries of `_heap` whose uid is in `_jobs` are
written to it from the front. `none`: there are more of them than `total_jobs`
and line 258 writes past the end of the vector. -/
def purge (q : TimerQueue) : Option TimerQueue :=
  let total_jobs := q.jobs.length
  let total_timers := q.heap.length
  if total_timers > total_jobs then
    let kept := q.heap.filter (fun heap_entry => jobs_contains q.jobs heap_entry.uid)
    if kept.length > total_jobs then none
    else
      let heap := kept ++ List.replicate (total_jobs - kept.length) default
      some { q with heap := make_heap heap }
  else some q

/-- The member `TimerQueue::in_queue(uid)`, lines 276 to 279. -/
def in_queue (q : TimerQueue) (uid : Nat) : Bool := jobs_contains q.jobs uid

end TimerQueue

/-! ## The dispatcher thread `TimerQueue::demux` -/

/-- Where the dispatcher thread is. The thread holds `_lock` at `loop_head` and
`inner`; it does not hold it at the other places. -/
inductive Pc where
  /-- No thread runs `demux`: before `start()`, or after `demux` returned. -/
  | off
  /-- Line 295, before the test of `while (_running)`. -/
  | loop_head
  /-- Line 297, before the test of `while (!_heap.empty())`, with the value of the
  local `deadline_expired`. -/
  | inner (deadline_expired : Bool)
  /-- Lines 318 to 323: the lock is released around `_executor->execute`. -/
  | executing
  /-- Line 340: blocked in `_cond.wait_until(guard, deadline, pred)`; `current_uid`
  is the capture of the predicate. -/
  | timed_wait (current_uid : Nat) (deadline : Int)
  /-- Line 358: blocked in `_cond.wait(guard, pred)`. -/
  | cond_wait
deriving DecidableEq, Repr

/-- The queue object together with its dispatcher thread. -/
structure World where
  q : TimerQueue
  pc : Pc
deriving DecidableEq, Repr

/-- Does the dispatcher thread hold `_lock`. -/
def Pc.holds_lock : Pc → Bool
  | Pc.loop_head => true
  | Pc.inner _ => true
  | _ => false

/-- The predicate of the timed wait, line 344:
`!_jobs.contains(current_uid) || (_heap[0].uid != current_uid) || !_running`.
`none`: `_heap[0]` is read of an empty vector. -/
def wait_until_pred (q : TimerQueue) (current_uid : Nat) : Option Bool :=
  if !jobs_contains q.jobs current_uid then some true
  else
    match q.heap with
    | [] => none
    | root :: _ => some (decide (root.uid ≠ current_uid) || !q.running)

/-- The predicate of the untimed wait, line 358: `!_heap.empty() || !_running`. -/
def wait_pred (q : TimerQueue) : Bool := !q.heap.isEmpty || !q.running

/-- Lines 348 to 355, after `wait_until` returned `notified`. -/
def after_wait_until (q : TimerQueue) (notified : Bool) : World :=
  if !q.running then { q := q, pc := Pc.off }
  else if !notified then { q := q, pc := Pc.inner true }
  else { q := q, pc := Pc.inner false }

/-- The call of `std::pop_heap` followed by `_heap.pop_back()`, lines 302-303 and
314-315. -/
def pop_root (h : List HeapEntry) : List HeapEntry := (pop_heap h).dropLast

/-- One step of the dispatcher thread while it runs (it is not blocked in a
wait). `now` is what `Clock::now()` returns if this step samples the clock.

* `loop_head`: the test of `while (_running)`.
* `inner`: one iteration of `while (!_heap.empty())`, up to the next time the
  thread is at line 297, releases the lock, blocks or returns.
* `executing`: the lock is taken again, line 323, and the promise is chained.

`none`: the thread is not at such a place, or the step indexes out of bounds. -/
def demux_step (w : World) (now : Int) : Option World :=
  let q := w.q
  match w.pc with
  | Pc.loop_head =>
    if q.running then some { q := q, pc := Pc.inner false }
    else some { q := q, pc := Pc.off }
  | Pc.inner deadline_expired =>
    match q.heap with
    | [] =>
      -- leaves the inner loop; `_cond.wait(guard, pred)` tests `pred` first
      if wait_pred q then some { q := q, pc := Pc.loop_head }
      else some { q := q, pc := Pc.cond_wait }
    | root :: _ =>
      let current_uid := root.uid
      match jobs_find q.jobs current_uid with
      | none =>
        some { q := { q with heap := pop_root q.heap }, pc := Pc.inner false }
      | some i =>
        let deadline_expired :=
          if !deadline_expired then decide (root.deadline ≤ now) else deadline_expired
        if deadline_expired then
          some { q := { q with
                        jobs := jobs_erase q.jobs current_uid,
                        heap := pop_root q.heap,
                        log := q.log ++ [Event.executed current_uid i.2.job i.2.promise] },
                 pc := Pc.executing }
        else
          -- `wait_until(guard, deadline, pred)` tests `pred` first
          match wait_until_pred q current_uid with
          | none => none
          | some true => some (after_wait_until q true)
          | some false => some { q := q, pc := Pc.timed_wait current_uid root.deadline }
  | Pc.executing => some { q := q, pc := Pc.inner false }
  | _ => none

/-- The dispatcher thread wakes up in one of its two waits and takes the lock
again: by a notification or spuriously (`timed_out = false`), or because the
timed wait reached its time point (`timed_out = true`). The waits are
`while (!pred()) { if (wait_until(...) == timeout) return pred(); } return true;`
and `while (!pred()) wait();`. `none`: the thread is not waiting, or the predicate
indexes out of bounds. -/
def demux_wake (w : World) (timed_out : Bool) : Option World :=
  let q := w.q
  match w.pc with
  | Pc.timed_wait current_uid _ =>
    match wait_until_pred q current_uid with
    | none => none
    | some true => some (after_wait_until q true)
    | some false =>
      if timed_out then some (after_wait_until q false) else some w
  | Pc.cond_wait =>
    if wait_pred q then some { q := q, pc := Pc.loop_head } else some w
  | _ => none

/-! ## Interleavings -/

/-- What can happen next to a queue: a call of a public member function from
some thread, or a step of the dispatcher thread. -/
inductive Op where
  | start
  /-- The part of `stop()` before `join()`: `_running = false; notify_one()`. -/
  | stop
  | enqueue (deadline : Int) (job : Nat)
  | cancel (uid : Nat)
  | clear
  | purge
  | in_queue (uid : Nat)
  | demux (now : Int)
  | wake (timed_out : Bool)
deriving DecidableEq, Repr

/-- One transition. The member functions that take `_lock` run only while the
dispatcher thread does not hold it. `start()` creates the thread when `_running`
is false, which is supported only when no thread runs `demux`. `stop()` writes
`_running` without taking the lock. `none`: the transition cannot happen in
this state, or it indexes out of bounds. -/
def step (w : World) : Op → Option World
  | Op.start =>
    if w.q.running then some w
    else if w.pc = Pc.off then some { q := { w.q with running := true }, pc := Pc.loop_head }
    else none
  | Op.stop =>
    if w.q.running then
      some { w with q := { w.q with running := false, log := w.q.log ++ [Event.notified] } }
    else some w
  | Op.enqueue deadline job =>
    if w.pc.holds_lock then none
    else some { w with q := (w.q.enqueue deadline job).2 }
  | Op.cancel uid =>
    if w.pc.holds_lock then none
    else (w.q.cancel uid).map (fun r => { w with q := r.2 })
  | Op.clear =>
    if w.pc.holds_lock then none else some { w with q := w.q.clear }
  | Op.purge =>
    if w.pc.holds_lock then none
    else w.q.purge.map (fun q => { w with q := q })
  | Op.in_queue _ =>
    if w.pc.holds_lock then none else some w
  | Op.demux now => demux_step w now
  | Op.wake timed_out => demux_wake w timed_out

/-- A finite sequence of transitions, oldest first. -/
def run : List Op → World → Option World
  | [], w => some w
  | op :: ops, w => (step w op).bind (run ops)

/-- A freshly constructed `TimerQueue`; no dispatcher thread yet. -/
def init : World := { q := TimerQueue.create, pc := Pc.off }

/-- The states a queue can be in. -/
def Reachable (w : World) : Prop := ∃ ops, run ops init = some w

/-- Number of `enqueue` calls in a sequence. -/
def enqueue_count (ops : List Op) : Nat :=
  (ops.filter (fun op => match op with | Op.enqueue _ _ => true | _ => false)).length

/-! ## Predicates used in the proofs -/

/-- Node `k` lies in the subtree of node `t` of the implicit binary tree (children
of `k` are `2 * k + 1` and `2 * k + 2`). -/
inductive Desc (t : Nat) : Nat → Prop where
  | refl : Desc t t
  | left {k : Nat} : Desc t k → Desc t (2 * k + 1)
  | right {k : Nat} : Desc t k → Desc t (2 * k + 2)

/-- The heap property on the first `len` positions, for the nodes whose parent is
`top` or later. -/
def HeapFrom (a : List HeapEntry) (top len : Nat) : Prop :=
  ∀ j, 0 < j → j < len → top ≤ (j - 1) / 2 →
    (nth a ((j - 1) / 2)).deadline ≤ (nth a j).deadline

/-- The loop invariant of the heap algorithms: the heap property holds except at
the hole `k`, and the parent of the hole is in order with the children of the
hole. -/
def HoleInv (a : List HeapEntry) (top len k : Nat) : Prop :=
  (∀ j, 0 < j → j < len → top ≤ (j - 1) / 2 → j ≠ k → (j - 1) / 2 ≠ k →
    (nth a ((j - 1) / 2)).deadline ≤ (nth a j).deadline) ∧
  (top < k → ∀ c, 0 < c → c < len → (c - 1) / 2 = k →
    (nth a ((k - 1) / 2)).deadline ≤ (nth a c).deadline)

/-- The promise that the queue lets go of in an event: the promise of a destroyed
entry is broken on the spot; the promise of an executed job is not resolved by
the event, it is moved into the continuation of the executor's future (see
`channel` for what the caller's future holds). -/
def Event.releases : Event → Option Nat
  | Event.dropped _ p => some p
  | Event.cancelled _ p => some p
  | Event.cleared _ p => some p
  | Event.executed _ _ p => some p
  | Event.notified => none

/-- The promises the queue has let go of in a trace, oldest first. -/
def released_ids (log : List Event) : List Nat := log.filterMap Event.releases

/-- The uid recorded in an event is the uid of the enqueue that created the
promise. -/
def Event.uid_ok : Event → Prop
  | Event.dropped u p => u = p % UID_MOD
  | Event.cancelled u p => u = p % UID_MOD
  | Event.cleared u p => u = p % UID_MOD
  | Event.executed u _ p => u = p % UID_MOD
  | Event.notified => True

/-- Is the event the one of an `insert` that found the key present. -/
def Event.is_dropped : Event → Bool
  | Event.dropped _ _ => true
  | _ => false

/-- The invariant of the queue object. -/
structure Inv (q : TimerQueue) : Prop where
  next_uid_eq : q.next_uid = q.handles.length % UID_MOD
  handles_result : q.handles.map TimerHandle.result = List.range q.handles.length
  handles_uid : ∀ h ∈ q.handles, h.uid = h.result % UID_MOD
  keys_nodup : (q.jobs.map Prod.fst).Nodup
  jobs_promise : ∀ p ∈ q.jobs, p.2.promise < q.handles.length ∧ p.2.promise % UID_MOD = p.1
  log_nodup : (released_ids q.log).Nodup
  log_lt : ∀ p ∈ released_ids q.log, p < q.handles.length
  log_jobs : ∀ p ∈ q.jobs, p.2.promise ∉ released_ids q.log
  complete : ∀ i, i < q.handles.length →
    i ∈ q.jobs.map (fun p => p.2.promise) ∨ i ∈ released_ids q.log
  log_uid : ∀ ev ∈ q.log, ev.uid_ok
  heap_handles : ∀ e ∈ q.heap, ∃ h ∈ q.handles, h.uid = e.uid ∧ h.deadline = e.deadline
  keys_heap : ∀ p ∈ q.jobs, p.1 ∈ q.heap.map HeapEntry.uid
  heap_ok : is_heap q.heap
  uids_nodup : q.handles.length ≤ UID_MOD → (q.heap.map HeapEntry.uid).Nodup
  no_dropped : q.handles.length ≤ UID_MOD → ∀ ev ∈ q.log, ev.is_dropped = false

/-! ## Concrete runs used to exercise the theorems -/

/-- Two timers are enqueued, the first is cancelled and the heap is purged. -/
def demo_ops : List Op := [Op.enqueue 10 7, Op.enqueue 5 8, Op.cancel 0, Op.purge]

/-- The state after `demo_ops`. -/
def demo_world : World :=
  { q := { running := false, next_uid := 2,
           jobs := [(1, { job := 8, promise := 1 })],
           heap := [{ uid := 1, deadline := 5 }],
           handles := [{ uid := 0, deadline := 10, result := 0 },
                       { uid := 1, deadline := 5, result := 1 }],
           log := [Event.notified, Event.notified, Event.cancelled 0 0] },
    pc := Pc.off }

/-- The queue is started, the dispatcher goes to sleep on the empty heap, two
timers are enqueued, the dispatcher starts a timed wait on the earlier one,
that one is cancelled and the dispatcher wakes up. -/
def tombstone_ops : List Op :=
  [Op.start, Op.demux 0, Op.demux 0, Op.enqueue 10 7, Op.enqueue 5 8, Op.wake false,
   Op.demux 0, Op.demux 0, Op.cancel 1, Op.wake false]

/-- The state after `tombstone_ops`: the root of the heap is a cancelled timer. -/
def tombstone_world : World :=
  { q := { running := true, next_uid := 2,
           jobs := [(0, { job := 7, promise := 0 })],
           heap := [{ uid := 1, deadline := 5 }, { uid := 0, deadline := 10 }],
           handles := [{ uid := 0, deadline := 10, result := 0 },
                       { uid := 1, deadline := 5, result := 1 }],
           log := [Event.notified, Event.notified, Event.cancelled 1 1, Event.notified] },
    pc := Pc.inner false }

/-- The state one dispatcher step after `tombstone_world`. -/
def tombstone_next : World :=
  { q := { running := true, next_uid := 2,
           jobs := [(0, { job := 7, promise := 0 })],
           heap := [{ uid := 0, deadline := 10 }],
           handles := [{ uid := 0, deadline := 10, result := 0 },
                       { uid := 1, deadline := 5, result := 1 }],
           log := [Event.notified, Event.notified, Event.cancelled 1 1, Event.notified] },
    pc := Pc.inner false }

/-- A timer is enqueued and the queue is cleared. -/
def clear_ops : List Op := [Op.enqueue 0 0, Op.clear]

/-- The state after `clear_ops`. -/
def clear_world : World :=
  { q := { running := false, next_uid := 1, jobs := [], heap := [],
           handles := [{ uid := 0, deadline := 0, result := 0 }],
           log := [Event.notified, Event.cleared 0 0, Event.notified] },
    pc := Pc.off }

/-- The state after `pending_ops`. -/
def pending_world : World :=
  { q := { running := false, next_uid := 1,
           jobs := [(0, { job := 0, promise := 0 })],
           heap := [{ uid := 0, deadline := 0 }],
           handles := [{ uid := 0, deadline := 0, result := 0 }],
           log := [Event.notified] },
    pc := Pc.off }

/-- Two timers are enqueued and both are cancelled. -/
def cancel_all_ops : List Op := [Op.enqueue 10 7, Op.enqueue 5 8, Op.cancel 0, Op.cancel 1]

/-- The state after `cancel_all_ops`: two cancelled timers in the heap. -/
def cancel_all_world : World :=
  { q := { running := false, next_uid := 2, jobs := [],
           heap := [{ uid := 1, deadline := 5 }, { uid := 0, deadline := 10 }],
           handles := [{ uid := 0, deadline := 10, result := 0 },
                       { uid := 1, deadline := 5, result := 1 }],
           log := [Event.notified, Event.notified, Event.cancelled 0 0,
                   Event.cancelled 1 1, Event.notified] },
    pc := Pc.off }

/-- A run of `n` short-lived timers, one after the other: a timer is enqueued, cancelled
and purged before the next one is enqueued. `a` is the number of `enqueue`
calls made before, so the uid to cancel is `a` modulo `2 ^ 32`. -/
def churn : Nat → Nat → List Op
  | _, 0 => []
  | a, n + 1 => [Op.enqueue 0 0, Op.cancel (a % UID_MOD), Op.purge] ++ churn (a + 1) n

/-- One timer stays in the queue while `2 ^ 32 - 1` short-lived timers come and
go. -/
def long_lived_ops : List Op := [Op.enqueue 0 0] ++ churn 1 (UID_MOD - 1)

/-! ## Stopping the queue -/

/-- The transitions that belong to a call of `stop()`: the write of the flag
with the notification, and the steps the dispatcher thread takes until it
returns and `join()` ends. -/
def stop_phase : Op → Bool
  | Op.stop => true
  | Op.demux _ => true
  | Op.wake _ => true
  | _ => false

/-- Two timers whose deadline has passed are in the queue; the dispatcher fires
the first; `stop()` clears the flag while the lock is released around the call
of the executor; the dispatcher takes the lock again. -/
def backed_up_ops : List Op :=
  [Op.start, Op.demux 0, Op.demux 0, Op.enqueue 0 7, Op.enqueue 0 8, Op.wake false,
   Op.demux 10, Op.demux 10, Op.stop, Op.demux 10]

/-- The state after `backed_up_ops`: the flag is false, the dispatcher is in its
inner loop and the root of the heap is in the job table with a deadline that
has passed. -/
def backed_up_world : World :=
  { q := { running := false, next_uid := 2,
           jobs := [(1, { job := 8, promise := 1 })],
           heap := [{ uid := 1, deadline := 0 }],
           handles := [{ uid := 0, deadline := 0, result := 0 },
                       { uid := 1, deadline := 0, result := 1 }],
           log := [Event.notified, Event.executed 0 7 0, Event.notified] },
    pc := Pc.inner false }

/-- The state one dispatcher step after `backed_up_world`, at clock value `10`. -/
def backed_up_next : World :=
  { q := { running := false, next_uid := 2, jobs := [], heap := [],
           handles := [{ uid := 0, deadline := 0, result := 0 },
                       { uid := 1, deadline := 0, result := 1 }],
           log := [Event.notified, Event.executed 0 7 0, Event.notified,
                   Event.executed 1 8 1] },
    pc := Pc.executing }

/-- The queue is started, a timer far in the future is enqueued and the
dispatcher starts its timed wait on it. -/
def waiting_ops : List Op :=
  [Op.start, Op.demux 0, Op.demux 0, Op.enqueue 1000 7, Op.wake false, Op.demux 0, Op.demux 0]

/-- The state after `waiting_ops`. -/
def waiting_world : World :=
  { q := { running := true, next_uid := 1,
           jobs := [(0, { job := 7, promise := 0 })],
           heap := [{ uid := 0, deadline := 1000 }],
           handles := [{ uid := 0, deadline := 1000, result := 0 }],
           log := [Event.notified] },
    pc := Pc.timed_wait 0 1000 }

/-- The state after `waiting_ops` and a complete `stop()`: the flag was cleared,
the dispatcher woke up and returned. -/
def stopped_world : World :=
  { q := { running := false, next_uid := 1,
           jobs := [(0, { job := 7, promise := 0 })],
           heap := [{ uid := 0, deadline := 1000 }],
           handles := [{ uid := 0, deadline := 1000, result := 0 }],
           log := [Event.notified, Event.notified] },
    pc := Pc.off }

/-! ## The helpers of `internal/promise_utils.h`

A promise and its future share a state that is empty until a value or an
exception is stored in it. An exception that leaves a function is the error of
an `Except`. -/

/-- An exception: one raised by a job (identified by a number), the one that
`set_value` and `set_exception` raise on a promise that holds a result, or the
one that the destructor of a promise stores when the promise holds no
result. -/
inductive Exn where
  | raised (e : Nat)
  | promise_already_satisfied
  | broken_promise
deriving DecidableEq, Repr

/-- What a call of a job produces, and what `future.get()` produces on a ready
future: a value is returned or an exception is raised. -/
inductive Outcome (α : Type) where
  | value (v : α)
  | error (e : Exn)
deriving DecidableEq, Repr

/-- The state shared by a promise and its future. -/
abbrev SharedState (α : Type) := Option (Outcome α)

/-- The call `promise.set_value(v)`. -/
def set_value {α : Type} (promise : SharedState α) (v : α) : Except Exn (SharedState α) :=
  match promise with
  | none => Except.ok (some (Outcome.value v))
  | some _ => Except.error Exn.promise_already_satisfied

/-- The call `promise.set_exception(e)`. -/
def set_exception {α : Type} (promise : SharedState α) (e : Exn) :
    Except Exn (SharedState α) :=
  match promise with
  | none => Except.ok (some (Outcome.error e))
  | some _ => Except.error Exn.promise_already_satisfied

/-- The function `run_and_set_value` for a result type that is not `void`, lines
10 to 18: `try { promise.set_value(job()); }
catch (...) { promise.set_exception(boost::current_exception()); }`.
The result is the state of the promise afterwards, or the exception that
leaves the function. -/
def run_and_set_value {α : Type} (job : Unit → Outcome α) (promise : SharedState α) :
    Except Exn (SharedState α) :=
  let attempt : Except Exn (SharedState α) :=
    match job () with
    | Outcome.value v => set_value promise v
    | Outcome.error e => Except.error e
  match attempt with
  | Except.ok s => Except.ok s
  | Except.error e => set_exception promise e

/-- The function `run_and_set_value` for the result type `void`, lines 20 to 29:
`try { job(); promise.set_value(); }
catch (...) { promise.set_exception(boost::current_exception()); }`. -/
def run_and_set_value_void (job : Unit → Outcome Unit) (promise : SharedState Unit) :
    Except Exn (SharedState Unit) :=
  let attempt : Except Exn (SharedState Unit) :=
    match job () with
    | Outcome.value _ => set_value promise ()
    | Outcome.error e => Except.error e
  match attempt with
  | Except.ok s => Except.ok s
  | Except.error e => set_exception promise e

/-- The function `get_and_set_value` for a result type that is not `void`, lines
31 to 39: `try { promise.set_value(future.get()); }
catch (...) { promise.set_exception(boost::current_exception()); }`. The future
is ready: the function runs as its continuation. -/
def get_and_set_value {α : Type} (future : Outcome α) (promise : SharedState α) :
    Except Exn (SharedState α) :=
  let attempt : Except Exn (SharedState α) :=
    match future with
    | Outcome.value v => set_value promise v
    | Outcome.error e => Except.error e
  match attempt with
  | Except.ok s => Except.ok s
  | Except.error e => set_exception promise e

/-- The function `get_and_set_value` for the result type `void`, lines 41 to 50:
`try { future.get(); promise.set_value(); }
catch (...) { promise.set_exception(boost::current_exception()); }`. -/
def get_and_set_value_void (future : Outcome Unit) (promise : SharedState Unit) :
    Except Exn (SharedState Unit) :=
  let attempt : Except Exn (SharedState Unit) :=
    match future with
    | Outcome.value _ => set_value promise ()
    | Outcome.error e => Except.error e
  match attempt with
  | Except.ok s => Except.ok s
  | Except.error e => set_exception promise e

/-! ## The worker pool `ThreadPool` -/

/-- The struct `QueueEntry` of `ThreadPool`: the job (an opaque tag) and the
promise of the future that `execute` returned. -/
structure QueueEntry where
  job : Nat
  promise : Nat
deriving DecidableEq, Repr

/-- The fields of `ThreadPool` (`pool` is the number of threads in `_pool`), plus
two history variables: `submitted`, every entry `execute` has pushed, and `ran`,
every entry a worker has taken from the queue and run, both oldest first. -/
structure ThreadPool where
  running : Bool
  queue : List QueueEntry
  pool : Nat
  submitted : List QueueEntry
  ran : List QueueEntry
deriving DecidableEq, Repr

namespace ThreadPool

/-- The constructor `ThreadPool()`: `_running(false)`, empty containers. -/
def create : ThreadPool :=
  { running := false, queue := [], pool := 0, submitted := [], ran := [] }

/-- The member `ThreadPool::start(num_threads)`, lines 66 to 75. -/
def start (p : ThreadPool) (num_threads : Nat) : ThreadPool :=
  if !p.running then { p with running := true, pool := p.pool + num_threads } else p

/-- The member `ThreadPool::stop()`, lines 77 to 91: the flag is cleared, the
threads are joined and `_pool` is cleared. `_queue` is not touched. -/
def stop (p : ThreadPool) : ThreadPool :=
  if p.running then { p with running := false, pool := 0 } else p

/-- The member `ThreadPool::execute(job)`, lines 103 to 121: the entry is pushed at
the back of `_queue`. The promise gets the number of entries pushed so far; the
future returned carries the same number. -/
def execute (p : ThreadPool) (job : Nat) : Nat × ThreadPool :=
  let promise := p.submitted.length
  let entry : QueueEntry := { job := job, promise := promise }
  (promise, { p with queue := p.queue ++ [entry], submitted := p.submitted ++ [entry] })

/-- One turn of a worker thread in `thread_routine`, lines 132 to 150: with the
flag set and the queue not empty, the front entry is taken from the queue and
its job is run. `none`: there is no worker thread, or the thread stays blocked
in its wait. -/
def worker_step (p : ThreadPool) : Option ThreadPool :=
  if p.running ∧ 0 < p.pool then
    match p.queue with
    | [] => none
    | queue_entry :: rest => some { p with queue := rest, ran := p.ran ++ [queue_entry] }
  else none

end ThreadPool

/-- What can happen next to a pool. -/
inductive PoolOp where
  | start (num_threads : Nat)
  | stop
  | execute (job : Nat)
  | worker
deriving DecidableEq, Repr

/-- One transition of a pool. -/
def pool_step (p : ThreadPool) : PoolOp → Option ThreadPool
  | PoolOp.start n => some (p.start n)
  | PoolOp.stop => some p.stop
  | PoolOp.execute job => some (p.execute job).2
  | PoolOp.worker => p.worker_step

/-- A finite sequence of transitions of a pool, oldest first. -/
def pool_run : List PoolOp → ThreadPool → Option ThreadPool
  | [], p => some p
  | op :: ops, p => (pool_step p op).bind (pool_run ops)

/-- Three jobs are submitted to a pool of two threads and two of them are taken
by workers. -/
def pool_ops : List PoolOp :=
  [PoolOp.start 2, PoolOp.execute 7, PoolOp.execute 8, PoolOp.worker, PoolOp.execute 9,
   PoolOp.worker]

/-- The state after `pool_ops`. -/
def pool_world : ThreadPool :=
  { running := true, queue := [{ job := 9, promise := 2 }], pool := 2,
    submitted := [{ job := 7, promise := 0 }, { job := 8, promise := 1 },
                  { job := 9, promise := 2 }],
    ran := [{ job := 7, promise := 0 }, { job := 8, promise := 1 }] }

/-- A job is submitted and the pool is stopped before a worker takes it; then the
pool is started again and a worker takes a turn. -/
def restart_ops : List PoolOp :=
  [PoolOp.start 1, PoolOp.execute 7, PoolOp.stop, PoolOp.start 1, PoolOp.worker]

/-! ## Runs used for the order and the time of dispatch -/

/-- A timer with deadline `d` stays in the queue while `2 ^ 32 - 1` short-lived timers
come and go. -/
def long_lived_at (d : Int) : List Op := [Op.enqueue d 0] ++ churn 1 (UID_MOD - 1)

/-- After the timer with deadline `1000` and the short-lived ones, a job is
enqueued for time `5` and one for time `500`; then the dispatcher is started
and enters its loop. -/
def alias_ops : List Op :=
  long_lived_at 1000 ++ [Op.enqueue 5 1, Op.enqueue 500 2, Op.start, Op.demux 0]

/-- After the timer with deadline `1000` and the short-lived ones, the dispatcher
is started and blocks in its timed wait; then a job is enqueued for time `5`. -/
def alias_wait_ops : List Op :=
  long_lived_at 1000 ++ [Op.start, Op.demux 0, Op.demux 0, Op.enqueue 5 1]

/-- Is the operation a call of `start()` or `stop()`. These are the calls that do
not take the lock. -/
def is_flag : Op → Bool
  | Op.start => true
  | Op.stop => true
  | _ => false

/-- A timer for time `500` is enqueued before one for time `50`; then the
dispatcher is started and enters its loop. -/
def edf_ops : List Op := [Op.enqueue 500 1, Op.enqueue 50 2, Op.start, Op.demux 0]

/-- The state after `edf_ops`. -/
def edf_world : World :=
  { q := { running := true, next_uid := 2,
           jobs := [(0, { job := 1, promise := 0 }), (1, { job := 2, promise := 1 })],
           heap := [{ uid := 1, deadline := 50 }, { uid := 0, deadline := 500 }],
           handles := [{ uid := 0, deadline := 500, result := 0 },
                       { uid := 1, deadline := 50, result := 1 }],
           log := [Event.notified, Event.notified] },
    pc := Pc.inner false }

/-- The state after `edf_ops` and a step of the dispatcher at time `50`. -/
def edf_next : World :=
  { q := { running := true, next_uid := 2,
           jobs := [(0, { job := 1, promise := 0 })],
           heap := [{ uid := 0, deadline := 500 }],
           handles := [{ uid := 0, deadline := 500, result := 0 },
                       { uid := 1, deadline := 50, result := 1 }],
           log := [Event.notified, Event.notified, Event.executed 1 2 1] },
    pc := Pc.executing }

/-- The state after `waiting_ops` and the time-out of the wait. -/
def timed_out_world : World := { waiting_world with pc := Pc.inner true }

/-- The state after `waiting_ops`, the time-out of the wait and a step of the
dispatcher. -/
def timed_out_next : World :=
  { q := { running := true, next_uid := 1, jobs := [], heap := [],
           handles := [{ uid := 0, deadline := 1000, result := 0 }],
           log := [Event.notified, Event.executed 0 7 0] },
    pc := Pc.executing }

/-! ## The caller's result channel

The promise created by `enqueue` is stored in the job table. The queue lets go
of it in one of two ways: the entry is destroyed (`cancel`, `clear`, an
`insert` that does nothing), which runs the destructor of the promise; or the
dispatcher moves it into the continuation that it attaches to the executor's
future, lines 326 to 331. -/

/-- Six timers are enqueued and the third and the fourth are cancelled. -/
def rich_ops : List Op :=
  [Op.enqueue 1 10, Op.enqueue 50 11, Op.enqueue 2 12, Op.enqueue 60 13, Op.enqueue 70 14,
   Op.enqueue 3 15, Op.cancel 2, Op.cancel 3]

/-- The queue after `rich_ops`: the heap has six entries, two of them
tombstones; the root is live. -/
def rich_queue : TimerQueue :=
  { running := false, next_uid := 6,
    jobs := [(0, { job := 10, promise := 0 }), (1, { job := 11, promise := 1 }),
             (4, { job := 14, promise := 4 }), (5, { job := 15, promise := 5 })],
    heap := [{ uid := 0, deadline := 1 }, { uid := 1, deadline := 50 },
             { uid := 2, deadline := 2 }, { uid := 3, deadline := 60 },
             { uid := 4, deadline := 70 }, { uid := 5, deadline := 3 }],
    handles := [{ uid := 0, deadline := 1, result := 0 }, { uid := 1, deadline := 50, result := 1 },
                { uid := 2, deadline := 2, result := 2 }, { uid := 3, deadline := 60, result := 3 },
                { uid := 4, deadline := 70, result := 4 }, { uid := 5, deadline := 3, result := 5 }],
    log := [Event.notified, Event.cancelled 2 2, Event.cancelled 3 3] }

/-- The state after `rich_ops`. -/
def rich_world : World := { q := rich_queue, pc := Pc.off }

/-- The heap that `purge` builds from the heap of `rich_queue`. -/
def rich_purged : List HeapEntry :=
  [{ uid := 0, deadline := 1 }, { uid := 5, deadline := 3 }, { uid := 4, deadline := 70 },
   { uid := 1, deadline := 50 }]

/-- The state after `rich_ops`, `start()` and the first step of the dispatcher. -/
def rich_inner : World := { q := { rich_queue with running := true }, pc := Pc.inner false }

/-- The state after one more step of the dispatcher at time `0`: it waits for the
root. -/
def rich_wait : World := { q := { rich_queue with running := true }, pc := Pc.timed_wait 0 1 }

/-! ## The heap algorithms meet their contract

For `push_heap`, `pop_heap` and `make_heap`: the result has the heap property
and holds the same entries. One invariant, `HoleInv`, serves both loops. -/

theorem nth_set (h : List HeapEntry) (i j : Nat) (v : HeapEntry) :
    nth (h.set i v) j = if i = j ∧ i < h.length then v else nth h j := by
  unfold nth
  rw [List.getD_eq_getElem?_getD, List.getD_eq_getElem?_getD, List.getElem?_set]
  by_cases hij : i = j
  · subst hij
    by_cases hl : i < h.length
    · simp [hl]
    · simp only [hl, if_false, and_false, if_true]
      rw [List.getElem?_eq_none (by omega)]
  · simp [hij]

theorem nth_set_eq (h : List HeapEntry) (i : Nat) (v : HeapEntry) (hi : i < h.length) :
    nth (h.set i v) i = v := by
  rw [nth_set]; simp [hi]

theorem nth_set_ne (h : List HeapEntry) (i j : Nat) (v : HeapEntry) (hij : i ≠ j) :
    nth (h.set i v) j = nth h j := by
  rw [nth_set]; simp [hij]

theorem Desc.le {t k : Nat} (h : Desc t k) : t ≤ k := by
  induction h with
  | refl => exact Nat.le_refl _
  | left _ ih => omega
  | right _ ih => omega

theorem Desc.parent {t k : Nat} (h : Desc t k) (hne : t < k) : Desc t ((k - 1) / 2) := by
  cases h with
  | refl => omega
  | left h' =>
    rename_i m
    have : (2 * m + 1 - 1) / 2 = m := by omega
    rw [this]; exact h'
  | right h' =>
    rename_i m
    have : (2 * m + 2 - 1) / 2 = m := by omega
    rw [this]; exact h'

theorem desc_zero (k : Nat) : Desc 0 k := by
  induction k using Nat.strong_induction_on with
  | _ k ih =>
    rcases Nat.eq_zero_or_pos k with h0 | hpos
    · subst h0; exact Desc.refl
    · rcases Nat.even_or_odd k with he | ho
      · obtain ⟨m, hm⟩ := he
        have hk : k = 2 * (m - 1) + 2 := by omega
        rw [hk]; exact Desc.right (ih (m - 1) (by omega))
      · obtain ⟨m, hm⟩ := ho
        rw [hm]; exact Desc.left (ih m (by omega))

theorem place_heap (a : List HeapEntry) (top len k : Nat) (v : HeapEntry)
    (hinv : HoleInv a top len k) (hk : k < len) (hlen : len ≤ a.length)
    (hch : ∀ c, 0 < c → c < len → (c - 1) / 2 = k → v.deadline ≤ (nth a c).deadline)
    (hpar : top < k → (nth a ((k - 1) / 2)).deadline ≤ v.deadline) :
    HeapFrom (a.set k v) top len := by
  intro j hj0 hjl htop
  by_cases hjk : j = k
  · subst hjk
    have hp : (j - 1) / 2 ≠ j := by omega
    rw [nth_set_eq _ _ _ (by omega), nth_set_ne _ _ _ _ (Ne.symm hp)]
    exact hpar (by omega)
  · by_cases hpk : (j - 1) / 2 = k
    · rw [hpk, nth_set_eq _ _ _ (by omega), nth_set_ne _ _ _ _ (Ne.symm hjk)]
      exact hch j hj0 hjl hpk
    · rw [nth_set_ne _ _ _ _ (Ne.symm hpk), nth_set_ne _ _ _ _ (Ne.symm hjk)]
      exact hinv.1 j hj0 hjl htop hjk hpk

theorem heap_cmp_iff (x y : HeapEntry) : heap_cmp x y = true ↔ y.deadline < x.deadline := by
  simp [heap_cmp]

theorem push_heap_loop_heap (top len : Nat) (v : HeapEntry) :
    ∀ (n : Nat) (a : List HeapEntry) (k : Nat),
      HoleInv a top len k → Desc top k → k < len → len ≤ a.length → k ≤ n →
      (∀ c, 0 < c → c < len → (c - 1) / 2 = k → v.deadline ≤ (nth a c).deadline) →
      HeapFrom (push_heap_loop n a k top v) top len := by
  intro n
  induction n with
  | zero =>
    intro a k hinv hd hk hlen hn hch
    have hk0 : k = 0 := by omega
    have ht := hd.le
    simp only [push_heap_loop]
    exact place_heap a top len k v hinv hk hlen hch (by omega)
  | succ n ih =>
    intro a k hinv hd hk hlen hn hch
    simp only [push_heap_loop]
    split
    · rename_i hc
      obtain ⟨hgt, hcmp⟩ := hc
      rw [heap_cmp_iff] at hcmp
      have hpk : (k - 1) / 2 < k := by omega
      apply ih
      · -- HoleInv for the new hole
        constructor
        · intro j hj0 hjl htop hjne hpne
          by_cases hpj : (j - 1) / 2 = k
          · have hjk : j ≠ k := by omega
            rw [hpj, nth_set_eq _ _ _ (by omega), nth_set_ne _ _ _ _ (Ne.symm hjk)]
            exact hinv.2 hgt j hj0 hjl hpj
          · have hjk : j ≠ k := by
              intro h; subst h; exact hpne rfl
            rw [nth_set_ne _ _ _ _ (Ne.symm hpj), nth_set_ne _ _ _ _ (Ne.symm hjk)]
            exact hinv.1 j hj0 hjl htop hjk hpj
        · intro hgt2 c hc0 hcl hcp
          have hpp : ((k - 1) / 2 - 1) / 2 ≠ k := by omega
          have hdp := (hd.parent hgt).parent hgt2
          have h1 : (nth a (((k - 1) / 2 - 1) / 2)).deadline ≤ (nth a ((k - 1) / 2)).deadline :=
            hinv.1 ((k - 1) / 2) (by omega) (by omega) hdp.le (by omega) hpp
          rw [nth_set_ne _ _ _ _ (Ne.symm hpp)]
          by_cases hck : c = k
          · subst hck
            rw [nth_set_eq _ _ _ (by omega)]
            exact h1
          · rw [nth_set_ne _ _ _ _ (Ne.symm hck)]
            have h2 := hinv.1 c hc0 hcl (by rw [hcp]; exact (hd.parent hgt).le) hck (by omega)
            rw [hcp] at h2
            exact le_trans h1 h2
      · exact hd.parent hgt
      · omega
      · rw [List.length_set]; exact hlen
      · omega
      · intro c hc0 hcl hcp
        by_cases hck : c = k
        · subst hck
          rw [nth_set_eq _ _ _ (by omega)]
          exact le_of_lt hcmp
        · rw [nth_set_ne _ _ _ _ (Ne.symm hck)]
          have h2 := hinv.1 c hc0 hcl (by rw [hcp]; exact (hd.parent hgt).le) hck (by omega)
          rw [hcp] at h2
          exact le_trans (le_of_lt hcmp) h2
    · rename_i hc
      apply place_heap a top len k v hinv hk hlen hch
      intro hgt
      by_contra hcon
      apply hc
      refine ⟨hgt, ?_⟩
      rw [heap_cmp_iff]
      exact lt_of_not_le hcon

theorem push_heap_loop_length (top : Nat) (v : HeapEntry) :
    ∀ (n : Nat) (a : List HeapEntry) (k : Nat),
      (push_heap_loop n a k top v).length = a.length := by
  intro n
  induction n with
  | zero => intro a k; simp [push_heap_loop]
  | succ n ih =>
    intro a k
    simp only [push_heap_loop]
    split
    · rw [ih]; simp
    · simp

theorem adjust_heap_loop_length (len : Nat) :
    ∀ (n : Nat) (a : List HeapEntry) (k : Nat),
      (adjust_heap_loop n a k len).1.length = a.length := by
  intro n
  induction n with
  | zero => intro a k; simp [adjust_heap_loop]
  | succ n ih =>
    intro a k
    simp only [adjust_heap_loop]
    split
    · rw [ih]; simp
    · rfl

theorem adjust_heap_length (h : List HeapEntry) (k len : Nat) (v : HeapEntry) :
    (adjust_heap h k len v).length = h.length := by
  simp only [adjust_heap, push_heap_at]
  split
  · rw [push_heap_loop_length, List.length_set, adjust_heap_loop_length]
  · rw [push_heap_loop_length, adjust_heap_loop_length]

/-- Swapping through a hole: the entry at `j` is already copied to `i`. -/
theorem nth_cons_set_perm :
    ∀ (xs : List HeapEntry) (j : Nat) (v : HeapEntry), j < xs.length →
      List.Perm (nth xs j :: xs.set j v) (v :: xs) := by
  intro xs
  induction xs with
  | nil => intro j v hj; simp at hj
  | cons x xs ih =>
    intro j v hj
    cases j with
    | zero => exact List.Perm.swap _ _ _
    | succ j =>
      have hj' : j < xs.length := by simpa using hj
      have h1 : nth (x :: xs) (j + 1) = nth xs j := by simp [nth]
      rw [h1, List.set_cons_succ]
      exact ((List.Perm.swap x (nth xs j) _).trans ((ih j v hj').cons x)).trans
        (List.Perm.swap v x xs)

theorem set_move_perm :
    ∀ (a : List HeapEntry) (i j : Nat) (v : HeapEntry), i ≠ j → i < a.length → j < a.length →
      List.Perm ((a.set i (nth a j)).set j v) (a.set i v) := by
  intro a
  induction a with
  | nil => intro i j v _ hi; simp at hi
  | cons x xs ih =>
    intro i j v hij hi hj
    cases i with
    | zero =>
      cases j with
      | zero => exact absurd rfl hij
      | succ j =>
        have hj' : j < xs.length := by simpa using hj
        have h1 : nth (x :: xs) (j + 1) = nth xs j := by simp [nth]
        rw [h1]
        simp only [List.set_cons_zero, List.set_cons_succ]
        exact nth_cons_set_perm xs j v hj'
    | succ i =>
      have hi' : i < xs.length := by simpa using hi
      cases j with
      | zero =>
        have h1 : nth (x :: xs) 0 = x := by simp [nth]
        rw [h1]
        simp only [List.set_cons_zero, List.set_cons_succ]
        have hA := nth_cons_set_perm xs i x hi'
        have hB := nth_cons_set_perm xs i v hi'
        -- nth :: v :: set x ~ v :: x :: xs ~ x :: v :: xs ~ nth :: x :: set v
        have h2 : List.Perm (nth xs i :: v :: xs.set i x) (nth xs i :: x :: xs.set i v) :=
          ((List.Perm.swap v (nth xs i) _).trans (hA.cons v)).trans
            ((List.Perm.swap x v xs).trans ((hB.symm.cons x).trans (List.Perm.swap _ _ _)))
        exact (List.perm_cons _).1 h2
      | succ j =>
        have hj' : j < xs.length := by simpa using hj
        have h1 : nth (x :: xs) (j + 1) = nth xs j := by simp [nth]
        rw [h1]
        simp only [List.set_cons_succ]
        exact (ih i j v (by omega) hi' hj').cons x

theorem push_heap_loop_perm (top : Nat) (v : HeapEntry) :
    ∀ (n : Nat) (a : List HeapEntry) (k : Nat), k < a.length →
      List.Perm (push_heap_loop n a k top v) (a.set k v) := by
  intro n
  induction n with
  | zero => intro a k _; exact List.Perm.refl _
  | succ n ih =>
    intro a k hk
    simp only [push_heap_loop]
    split
    · rename_i hc
      have hpk : (k - 1) / 2 < k := by omega
      refine (ih _ _ (by rw [List.length_set]; omega)).trans ?_
      exact set_move_perm a k ((k - 1) / 2) v (by omega) hk (by omega)
    · exact List.Perm.refl _

/-- Positions above the hole are not written by `__push_heap`. -/
theorem push_heap_loop_nth (top : Nat) (v : HeapEntry) :
    ∀ (n : Nat) (a : List HeapEntry) (k j : Nat), k < j →
      nth (push_heap_loop n a k top v) j = nth a j := by
  intro n
  induction n with
  | zero => intro a k j hkj; simp only [push_heap_loop]; exact nth_set_ne _ _ _ _ (by omega)
  | succ n ih =>
    intro a k j hkj
    simp only [push_heap_loop]
    split
    · rw [ih _ _ _ (by omega)]
      exact nth_set_ne _ _ _ _ (by omega)
    · exact nth_set_ne _ _ _ _ (by omega)

/-- What the first loop of `__adjust_heap` establishes. -/
theorem adjust_heap_loop_spec (top len : Nat) (v : HeapEntry) :
    ∀ (n : Nat) (a : List HeapEntry) (k : Nat),
      HoleInv a top len k → Desc top k → k < len → len ≤ a.length →
      HoleInv (adjust_heap_loop n a k len).1 top len (adjust_heap_loop n a k len).2 ∧
      Desc top (adjust_heap_loop n a k len).2 ∧
      (adjust_heap_loop n a k len).2 < len ∧
      (len ≤ n + k → ¬ (adjust_heap_loop n a k len).2 < (len - 1) / 2) ∧
      List.Perm ((adjust_heap_loop n a k len).1.set (adjust_heap_loop n a k len).2 v)
        (a.set k v) ∧
      (∀ j, len ≤ j → nth (adjust_heap_loop n a k len).1 j = nth a j) := by
  intro n
  induction n with
  | zero =>
    intro a k hinv hd hk hlen
    simp only [adjust_heap_loop]
    exact ⟨hinv, hd, hk, fun h => by omega, List.Perm.refl _, fun _ _ => trivial⟩
  | succ n ih =>
    intro a k hinv hd hk hlen
    simp only [adjust_heap_loop]
    split
    · rename_i hlt
      -- the chosen child
      have key : ∀ sc, (sc = 2 * (k + 1) ∨ sc = 2 * (k + 1) - 1) →
          (∀ c, 0 < c → c < len → (c - 1) / 2 = k → (nth a sc).deadline ≤ (nth a c).deadline) →
          HoleInv (a.set k (nth a sc)) top len sc ∧ Desc top sc ∧ sc < len ∧ k < sc := by
        intro sc hsc hmin
        have hscl : sc < len := by omega
        have hksc : k < sc := by omega
        have hpsc : (sc - 1) / 2 = k := by omega
        refine ⟨⟨?_, ?_⟩, ?_, hscl, hksc⟩
        · intro j hj0 hjl htop hjne hpne
          by_cases hjk : j = k
          · subst hjk
            have hp : (j - 1) / 2 ≠ j := by omega
            rw [nth_set_eq _ _ _ (by omega), nth_set_ne _ _ _ _ (Ne.symm hp)]
            exact hinv.2 (by omega) sc (by omega) hscl hpsc
          · by_cases hpj : (j - 1) / 2 = k
            · rw [hpj, nth_set_eq _ _ _ (by omega), nth_set_ne _ _ _ _ (Ne.symm hjk)]
              exact hmin j hj0 hjl hpj
            · rw [nth_set_ne _ _ _ _ (Ne.symm hpj), nth_set_ne _ _ _ _ (Ne.symm hjk)]
              exact hinv.1 j hj0 hjl htop hjk hpj
        · intro _ c hc0 hcl hcp
          rw [hpsc, nth_set_eq _ _ _ (by omega)]
          have hck : c ≠ k := by omega
          rw [nth_set_ne _ _ _ _ (Ne.symm hck)]
          have := hinv.1 c hc0 hcl (by rw [hcp]; exact le_trans hd.le (by omega)) hck (by omega)
          rw [hcp] at this
          exact this
        · rcases hsc with h | h
          · have : sc = 2 * k + 2 := by omega
            rw [this]; exact Desc.right hd
          · have : sc = 2 * k + 1 := by omega
            rw [this]; exact Desc.left hd
      have children : ∀ c, 0 < c → c < len → (c - 1) / 2 = k →
          c = 2 * (k + 1) ∨ c = 2 * (k + 1) - 1 := by
        intro c hc0 hcl hcp; omega
      split
      · rename_i hcmp
        rw [heap_cmp_iff] at hcmp
        obtain ⟨h1, h2, h3, h4⟩ := key (2 * (k + 1) - 1) (Or.inr rfl) (by
          intro c hc0 hcl hcp
          rcases children c hc0 hcl hcp with h | h
          · rw [h]; exact le_of_lt hcmp
          · rw [h])
        obtain ⟨i1, i2, i3, i4, i5, i6⟩ := ih _ _ h1 h2 h3 (by rw [List.length_set]; exact hlen)
        refine ⟨i1, i2, i3, fun h => i4 (by omega), ?_, ?_⟩
        · exact i5.trans (set_move_perm a k _ v (by omega) (by omega) (by omega))
        · intro j hj
          rw [i6 j hj]
          exact nth_set_ne _ _ _ _ (by omega)
      · rename_i hcmp
        rw [heap_cmp_iff] at hcmp
        obtain ⟨h1, h2, h3, h4⟩ := key (2 * (k + 1)) (Or.inl rfl) (by
          intro c hc0 hcl hcp
          rcases children c hc0 hcl hcp with h | h
          · rw [h]
          · rw [h]; exact not_lt.1 hcmp)
        obtain ⟨i1, i2, i3, i4, i5, i6⟩ := ih _ _ h1 h2 h3 (by rw [List.length_set]; exact hlen)
        refine ⟨i1, i2, i3, fun h => i4 (by omega), ?_, ?_⟩
        · exact i5.trans (set_move_perm a k _ v (by omega) (by omega) (by omega))
        · intro j hj
          rw [i6 j hj]
          exact nth_set_ne _ _ _ _ (by omega)
    · rename_i hlt
      exact ⟨hinv, hd, hk, fun _ => hlt, List.Perm.refl _, fun _ _ => rfl⟩

theorem hole_down (a : List HeapEntry) (top len k sc : Nat)
    (hinv : HoleInv a top len k) (hd : Desc top k) (hlen : len ≤ a.length)
    (hsc : sc = 2 * (k + 1) ∨ sc = 2 * (k + 1) - 1) (hscl : sc < len)
    (hmin : ∀ c, 0 < c → c < len → (c - 1) / 2 = k →
      (nth a sc).deadline ≤ (nth a c).deadline) :
    HoleInv (a.set k (nth a sc)) top len sc ∧ Desc top sc := by
  have hksc : k < sc := by omega
  have hpsc : (sc - 1) / 2 = k := by omega
  refine ⟨⟨?_, ?_⟩, ?_⟩
  · intro j hj0 hjl htop hjne hpne
    by_cases hjk : j = k
    · subst hjk
      have hp : (j - 1) / 2 ≠ j := by omega
      rw [nth_set_eq _ _ _ (by omega), nth_set_ne _ _ _ _ (Ne.symm hp)]
      exact hinv.2 (by omega) sc (by omega) hscl hpsc
    · by_cases hpj : (j - 1) / 2 = k
      · rw [hpj, nth_set_eq _ _ _ (by omega), nth_set_ne _ _ _ _ (Ne.symm hjk)]
        exact hmin j hj0 hjl hpj
      · rw [nth_set_ne _ _ _ _ (Ne.symm hpj), nth_set_ne _ _ _ _ (Ne.symm hjk)]
        exact hinv.1 j hj0 hjl htop hjk hpj
  · intro _ c hc0 hcl hcp
    rw [hpsc, nth_set_eq _ _ _ (by omega)]
    have hck : c ≠ k := by omega
    rw [nth_set_ne _ _ _ _ (Ne.symm hck)]
    have := hinv.1 c hc0 hcl (by rw [hcp]; exact le_trans hd.le (by omega)) hck (by omega)
    rw [hcp] at this
    exact this
  · rcases hsc with h | h
    · have : sc = 2 * k + 2 := by omega
      rw [this]; exact Desc.right hd
    · have : sc = 2 * k + 1 := by omega
      rw [this]; exact Desc.left hd

/-- Contract of `__adjust_heap` on a range that is a heap below `top`. -/
theorem adjust_heap_spec (h : List HeapEntry) (top len : Nat) (v : HeapEntry)
    (hinv : HoleInv h top len top) (htop : top < len) (hlen : len ≤ h.length) :
    HeapFrom (adjust_heap h top len v) top len ∧
    List.Perm (adjust_heap h top len v) (h.set top v) ∧
    (∀ j, len ≤ j → nth (adjust_heap h top len v) j = nth h j) := by
  obtain ⟨i1, i2, i3, i4, i5, i6⟩ :=
    adjust_heap_loop_spec top len v len h top hinv Desc.refl htop hlen
  have i4 := i4 (by omega)
  have hl1 : (adjust_heap_loop len h top len).1.length = h.length :=
    adjust_heap_loop_length len len h top
  simp only [adjust_heap, push_heap_at]
  generalize (adjust_heap_loop len h top len).1 = a at i1 i5 i6 hl1
  generalize (adjust_heap_loop len h top len).2 = k at i1 i2 i3 i4 i5
  split
  · rename_i hc
    obtain ⟨hev, hkk⟩ := hc
    have hsc : 2 * (k + 1) - 1 < len := by omega
    obtain ⟨j1, j2⟩ := hole_down a top len k (2 * (k + 1) - 1) i1 i2 (by omega)
      (Or.inr rfl) hsc (by
        intro c hc0 hcl hcp
        have : c = 2 * (k + 1) - 1 := by omega
        rw [this])
    refine ⟨?_, ?_, ?_⟩
    · apply push_heap_loop_heap top len v _ _ _ j1 j2 hsc
        (by rw [List.length_set]; omega) (Nat.le_refl _)
      intro c hc0 hcl hcp
      omega
    · refine (push_heap_loop_perm top v _ _ _ (by rw [List.length_set]; omega)).trans ?_
      exact (set_move_perm a k _ v (by omega) (by omega) (by omega)).trans i5
    · intro j hj
      rw [push_heap_loop_nth top v _ _ _ _ (by omega), nth_set_ne _ _ _ _ (by omega)]
      exact i6 j hj
  · rename_i hc
    refine ⟨?_, ?_, ?_⟩
    · apply push_heap_loop_heap top len v _ _ _ i1 i2 i3 (by omega) (Nat.le_refl _)
      intro c hc0 hcl hcp
      exfalso
      apply hc
      omega
    · exact (push_heap_loop_perm top v _ _ _ (by omega)).trans i5
    · intro j hj
      rw [push_heap_loop_nth top v _ _ _ _ (by omega)]
      exact i6 j hj

theorem is_heap_iff (h : List HeapEntry) : is_heap h ↔ HeapFrom h 0 h.length := by
  unfold is_heap HeapFrom
  constructor
  · intro H j hj0 hjl _; exact H j hj0 hjl
  · intro H j hj0 hjl; exact H j hj0 hjl (Nat.zero_le _)

theorem nth_append_left (a b : List HeapEntry) (j : Nat) (hj : j < a.length) :
    nth (a ++ b) j = nth a j := by
  unfold nth
  exact List.getD_append a b default j hj

theorem nth_append_length (a : List HeapEntry) (e : HeapEntry) :
    nth (a ++ [e]) a.length = e := by
  unfold nth
  rw [List.getD_eq_getElem?_getD]
  simp

/-- Contract of `std::push_heap`: if all but the last element form a heap, the
result is a heap holding the same elements. -/
theorem push_heap_spec (h : List HeapEntry) (e : HeapEntry) (hh : is_heap h) :
    is_heap (push_heap (h ++ [e])) ∧ List.Perm (push_heap (h ++ [e])) (h ++ [e]) := by
  have hlen : (h ++ [e]).length = h.length + 1 := by simp
  simp only [push_heap, push_heap_at, hlen, Nat.add_sub_cancel, nth_append_length]
  have hinv : HoleInv (h ++ [e]) 0 (h.length + 1) h.length := by
    constructor
    · intro j hj0 hjl _ hjne hpne
      rw [nth_append_left _ _ _ (by omega), nth_append_left _ _ _ (by omega)]
      exact hh j hj0 (by omega)
    · intro _ c hc0 hcl hcp
      omega
  constructor
  · rw [is_heap_iff, push_heap_loop_length, hlen]
    apply push_heap_loop_heap 0 (h.length + 1) e _ _ _ hinv (desc_zero _) (by omega)
      (by omega) (Nat.le_refl _)
    intro c hc0 hcl hcp
    omega
  · refine (push_heap_loop_perm 0 e _ _ _ (by omega)).trans ?_
    have : (h ++ [e]).set h.length e = h ++ [e] := by
      rw [List.set_append_right _ _ (Nat.le_refl _)]
      simp
    rw [this]

theorem make_heap_loop_spec :
    ∀ (p : Nat) (h : List HeapEntry), p < h.length → HeapFrom h (p + 1) h.length →
      HeapFrom (make_heap_loop p h) 0 h.length ∧ List.Perm (make_heap_loop p h) h := by
  intro p
  induction p with
  | zero =>
    intro h hp hh
    simp only [make_heap_loop]
    have hinv : HoleInv h 0 h.length 0 := by
      constructor
      · intro j hj0 hjl _ _ hpne
        exact hh j hj0 hjl (by omega)
      · intro h0; omega
    obtain ⟨a1, a2, _⟩ := adjust_heap_spec h 0 h.length (nth h 0) hinv hp (Nat.le_refl _)
    refine ⟨a1, a2.trans ?_⟩
    have : h.set 0 (nth h 0) = h := by
      cases h with
      | nil => rfl
      | cons x xs => simp [nth]
    rw [this]
  | succ p ih =>
    intro h hp hh
    simp only [make_heap_loop]
    have hinv : HoleInv h (p + 1) h.length (p + 1) := by
      constructor
      · intro j hj0 hjl htop _ hpne
        exact hh j hj0 hjl (by omega)
      · intro h0; omega
    obtain ⟨a1, a2, _⟩ :=
      adjust_heap_spec h (p + 1) h.length (nth h (p + 1)) hinv hp (Nat.le_refl _)
    have hl := adjust_heap_length h (p + 1) h.length (nth h (p + 1))
    have hself : h.set (p + 1) (nth h (p + 1)) = h := by
      apply List.ext_getElem?
      intro i
      rw [List.getElem?_set]
      by_cases hi : p + 1 = i
      · subst hi
        simp only [hp, if_true]
        unfold nth
        rw [List.getD_eq_getElem _ _ hp, List.getElem?_eq_getElem hp]
      · simp [hi]
    rw [hself] at a2
    obtain ⟨b1, b2⟩ := ih _ (by rw [hl]; omega) (by rw [hl]; exact a1)
    rw [hl] at b1
    exact ⟨b1, b2.trans a2⟩

/-- Contract of `std::make_heap`. -/
theorem make_heap_spec (h : List HeapEntry) :
    is_heap (make_heap h) ∧ List.Perm (make_heap h) h := by
  unfold make_heap
  split
  · rename_i hlt
    refine ⟨?_, List.Perm.refl _⟩
    intro i hi0 hil
    omega
  · rename_i hlt
    obtain ⟨b1, b2⟩ := make_heap_loop_spec ((h.length - 2) / 2) h (by omega) (by
      intro j hj0 hjl htop
      omega)
    refine ⟨?_, b2⟩
    rw [is_heap_iff, b2.length_eq]
    exact b1

theorem nth_dropLast (h : List HeapEntry) (j : Nat) (hj : j < h.length - 1) :
    nth h.dropLast j = nth h j := by
  unfold nth
  rw [List.getD_eq_getElem?_getD, List.getD_eq_getElem?_getD, List.dropLast_eq_take,
    List.getElem?_take_of_lt hj]

/-- Contract of `pop_heap` followed by `pop_back`: the root is removed and the
rest is a heap again. -/
theorem pop_root_spec (r : HeapEntry) (t : List HeapEntry) (hh : is_heap (r :: t)) :
    is_heap (pop_root (r :: t)) ∧ List.Perm (pop_root (r :: t)) t := by
  unfold pop_root pop_heap
  split
  · rename_i hgt
    have hlen : (r :: t).length = t.length + 1 := by simp
    have ht : t ≠ [] := by
      intro h; subst h; simp at hgt
    have hn0 : nth (r :: t) 0 = r := by simp [nth]
    simp only [hlen, Nat.add_sub_cancel, hn0]
    have hinv : HoleInv ((r :: t).set t.length r) 0 t.length 0 := by
      constructor
      · intro j hj0 hjl _ _ hpne
        rw [nth_set_ne _ _ _ _ (by omega), nth_set_ne _ _ _ _ (by omega)]
        exact hh j hj0 (by omega)
      · intro h0; omega
    have htl : 0 < t.length := List.length_pos.2 ht
    obtain ⟨a1, a2, a3⟩ := adjust_heap_spec ((r :: t).set t.length r) 0 t.length
      (nth (r :: t) t.length) hinv htl (by rw [List.length_set]; omega)
    have hl := adjust_heap_length ((r :: t).set t.length r) 0 t.length (nth (r :: t) t.length)
    rw [List.length_set, hlen] at hl
    generalize adjust_heap ((r :: t).set t.length r) 0 t.length (nth (r :: t) t.length) = res
      at a1 a2 a3 hl
    constructor
    · intro i hi0 hil
      rw [List.length_dropLast, hl] at hil
      rw [nth_dropLast _ _ (by omega), nth_dropLast _ _ (by omega)]
      exact a1 i hi0 (by omega) (Nat.zero_le _)
    · -- the last position still holds the old root
      have hlast : nth res t.length = r := by
        rw [a3 _ (Nat.le_refl _), nth_set_eq _ _ _ (by omega)]
      have hne : res ≠ [] := by
        intro h; subst h; simp at hl
      have hres : res = res.dropLast ++ [r] := by
        have h1 := (List.dropLast_append_getLast hne).symm
        have h2 : res.getLast hne = r := by
          rw [List.getLast_eq_getElem]
          have : res.length - 1 = t.length := by omega
          simp only [this]
          rw [← hlast]
          unfold nth
          rw [List.getD_eq_getElem _ _ (by omega)]
        rw [h2] at h1
        exact h1
      -- the array before sifting, with the saved value at the root
      have hset : List.Perm (((r :: t).set t.length r).set 0 (nth (r :: t) t.length))
          (t ++ [r]) := by
        obtain ⟨t', x, hx⟩ : ∃ t' x, t = t' ++ [x] :=
          ⟨t.dropLast, t.getLast ht, (List.dropLast_append_getLast ht).symm⟩
        subst hx
        have e1 : nth (r :: (t' ++ [x])) (t' ++ [x]).length = x := by
          have : r :: (t' ++ [x]) = (r :: t') ++ [x] := rfl
          rw [this]
          have : (t' ++ [x]).length = (r :: t').length := by simp
          rw [this, nth_append_length]
        rw [e1]
        have e2 : (r :: (t' ++ [x])).set (t' ++ [x]).length r = r :: (t' ++ [r]) := by
          have : r :: (t' ++ [x]) = (r :: t') ++ [x] := rfl
          rw [this]
          have : (t' ++ [x]).length = (r :: t').length := by simp
          rw [this, List.set_append_right _ _ (Nat.le_refl _)]
          simp
        rw [e2, List.set_cons_zero]
        -- x :: (t' ++ [r]) ~ (t' ++ [x]) ++ [r]
        have : x :: (t' ++ [r]) = (x :: t') ++ [r] := rfl
        rw [this]
        exact List.Perm.append_right _ (List.perm_append_singleton x t').symm
      have h3 : List.Perm (res.dropLast ++ [r]) (t ++ [r]) := by
        rw [← hres]; exact a2.trans hset
      exact (List.perm_append_right_iff _).1 h3
  · rename_i hgt
    have ht : t = [] := by
      cases t with
      | nil => rfl
      | cons x xs => simp at hgt
    subst ht
    refine ⟨?_, ?_⟩
    · intro i hi0 hil
      simp at hil
    · simp

/-! ## The invariant holds in every reachable state -/

theorem uid_mod_eq : UID_MOD = 4294967296 := by decide

theorem jobs_contains_iff (jobs : List (Nat × MapEntry)) (u : Nat) :
    jobs_contains jobs u = true ↔ u ∈ jobs.map Prod.fst := by
  unfold jobs_contains
  rw [List.any_eq_true, List.mem_map]
  constructor
  · rintro ⟨p, hp, h⟩
    exact ⟨p, hp, by simpa using h⟩
  · rintro ⟨p, hp, h⟩
    exact ⟨p, hp, by simpa using h⟩

theorem jobs_contains_false_iff (jobs : List (Nat × MapEntry)) (u : Nat) :
    jobs_contains jobs u = false ↔ u ∉ jobs.map Prod.fst := by
  rw [← jobs_contains_iff]; simp

theorem jobs_find_some {jobs : List (Nat × MapEntry)} {u : Nat} {i : Nat × MapEntry}
    (h : jobs_find jobs u = some i) : i ∈ jobs ∧ i.1 = u := by
  unfold jobs_find at h
  refine ⟨List.mem_of_find?_eq_some h, ?_⟩
  have := List.find?_some h
  simpa using this

theorem jobs_find_none {jobs : List (Nat × MapEntry)} {u : Nat}
    (h : jobs_find jobs u = none) : u ∉ jobs.map Prod.fst := by
  unfold jobs_find at h
  rw [List.find?_eq_none] at h
  intro hmem
  rw [List.mem_map] at hmem
  obtain ⟨p, hp, hpu⟩ := hmem
  exact h p hp (by simpa using hpu)

theorem jobs_find_isSome (jobs : List (Nat × MapEntry)) (u : Nat) :
    (jobs_find jobs u).isSome = jobs_contains jobs u := by
  unfold jobs_find jobs_contains
  rw [Bool.eq_iff_iff, List.find?_isSome, List.any_eq_true]

theorem mem_jobs_erase {jobs : List (Nat × MapEntry)} {u : Nat} {p : Nat × MapEntry} :
    p ∈ jobs_erase jobs u ↔ p ∈ jobs ∧ p.1 ≠ u := by
  unfold jobs_erase
  rw [List.mem_filter]
  simp

theorem jobs_erase_contains (jobs : List (Nat × MapEntry)) (u : Nat) :
    jobs_contains (jobs_erase jobs u) u = false := by
  rw [jobs_contains_false_iff, List.mem_map]
  rintro ⟨p, hp, hpu⟩
  exact (mem_jobs_erase.1 hp).2 hpu

theorem released_ids_append (a b : List Event) :
    released_ids (a ++ b) = released_ids a ++ released_ids b := by
  unfold released_ids
  exact List.filterMap_append _ _ _

theorem released_ids_notify_if (b : Bool) : released_ids (TimerQueue.notify_if b) = [] := by
  cases b <;> rfl

theorem mem_notify_if {b : Bool} {ev : Event} (h : ev ∈ TimerQueue.notify_if b) :
    ev = Event.notified := by
  cases b
  · simp [TimerQueue.notify_if] at h
  · simpa [TimerQueue.notify_if] using h

/-- Two entries of the job table with the same key are the same entry. -/
theorem Inv.entry_unique {q : TimerQueue} (inv : Inv q) {p p' : Nat × MapEntry}
    (hp : p ∈ q.jobs) (hp' : p' ∈ q.jobs) (h : p.1 = p'.1) : p = p' :=
  List.inj_on_of_nodup_map inv.keys_nodup hp hp' h

theorem Inv.promises_nodup {q : TimerQueue} (inv : Inv q) :
    (q.jobs.map (fun p => p.2.promise)).Nodup := by
  have h1 : q.jobs.map Prod.fst = (q.jobs.map (fun p => p.2.promise)).map (fun n => n % UID_MOD) := by
    rw [List.map_map]
    apply List.map_congr_left
    intro p hp
    exact (inv.jobs_promise p hp).2.symm
  have h2 := inv.keys_nodup
  rw [h1] at h2
  exact List.Nodup.of_map _ h2

/-- With at most `2 ^ 32` handles, a handle is determined by its uid. -/
theorem Inv.handle_unique {q : TimerQueue} (inv : Inv q) (hn : q.handles.length ≤ UID_MOD)
    {h h' : TimerHandle} (hh : h ∈ q.handles) (hh' : h' ∈ q.handles) (hu : h.uid = h'.uid) :
    h = h' := by
  have hnd : (q.handles.map TimerHandle.result).Nodup := by
    rw [inv.handles_result]; exact List.nodup_range _
  apply List.inj_on_of_nodup_map hnd hh hh'
  have r1 : h.result < q.handles.length := by
    have : h.result ∈ q.handles.map TimerHandle.result := List.mem_map_of_mem _ hh
    rw [inv.handles_result, List.mem_range] at this
    exact this
  have r2 : h'.result < q.handles.length := by
    have : h'.result ∈ q.handles.map TimerHandle.result := List.mem_map_of_mem _ hh'
    rw [inv.handles_result, List.mem_range] at this
    exact this
  have e1 := inv.handles_uid h hh
  have e2 := inv.handles_uid h' hh'
  rw [Nat.mod_eq_of_lt (by omega)] at e1 e2
  omega

theorem Inv.handle_result_lt {q : TimerQueue} (inv : Inv q) {h : TimerHandle}
    (hh : h ∈ q.handles) : h.result < q.handles.length := by
  have : h.result ∈ q.handles.map TimerHandle.result := List.mem_map_of_mem _ hh
  rw [inv.handles_result, List.mem_range] at this
  exact this

theorem inv_create : Inv TimerQueue.create := by
  refine ⟨rfl, rfl, ?_, ?_, ?_, ?_, ?_, ?_, ?_, ?_, ?_, ?_, ?_, ?_, ?_⟩ <;>
    simp [TimerQueue.create, released_ids, is_heap]

/-- Changing `_running` or appending notifications does not touch the invariant. -/
theorem inv_frame (q q' : TimerQueue) (inv : Inv q) (b : Bool)
    (h1 : q'.next_uid = q.next_uid) (h2 : q'.jobs = q.jobs) (h3 : q'.heap = q.heap)
    (h4 : q'.handles = q.handles) (h5 : q'.log = q.log ++ TimerQueue.notify_if b) : Inv q' := by
  have hr : released_ids q'.log = released_ids q.log := by
    rw [h5, released_ids_append, released_ids_notify_if, List.append_nil]
  constructor
  · rw [h1, h4]; exact inv.next_uid_eq
  · rw [h4]; exact inv.handles_result
  · rw [h4]; exact inv.handles_uid
  · rw [h2]; exact inv.keys_nodup
  · rw [h2, h4]; exact inv.jobs_promise
  · rw [hr]; exact inv.log_nodup
  · rw [hr, h4]; exact inv.log_lt
  · rw [hr, h2]; exact inv.log_jobs
  · rw [hr, h2, h4]; exact inv.complete
  · rw [h5]
    intro ev hev
    rcases List.mem_append.1 hev with h | h
    · exact inv.log_uid ev h
    · rw [mem_notify_if h]; trivial
  · rw [h3, h4]; exact inv.heap_handles
  · rw [h2, h3]; exact inv.keys_heap
  · rw [h3]; exact inv.heap_ok
  · rw [h3, h4]; exact inv.uids_nodup
  · rw [h4, h5]
    intro hn ev hev
    rcases List.mem_append.1 hev with h | h
    · exact inv.no_dropped hn ev h
    · rw [mem_notify_if h]; rfl

/-- The heap is replaced by a rearranged part of itself that still covers the
job table. -/
theorem inv_heap (q q' : TimerQueue) (inv : Inv q) (l : List HeapEntry)
    (h1 : q'.next_uid = q.next_uid) (h2 : q'.jobs = q.jobs)
    (h4 : q'.handles = q.handles) (h5 : q'.log = q.log)
    (hperm : List.Perm q'.heap l) (hsub : List.Sublist l q.heap)
    (hheap : is_heap q'.heap)
    (hkeys : ∀ p ∈ q.jobs, p.1 ∈ q'.heap.map HeapEntry.uid) : Inv q' := by
  constructor
  · rw [h1, h4]; exact inv.next_uid_eq
  · rw [h4]; exact inv.handles_result
  · rw [h4]; exact inv.handles_uid
  · rw [h2]; exact inv.keys_nodup
  · rw [h2, h4]; exact inv.jobs_promise
  · rw [h5]; exact inv.log_nodup
  · rw [h5, h4]; exact inv.log_lt
  · rw [h5, h2]; exact inv.log_jobs
  · rw [h5, h2, h4]; exact inv.complete
  · rw [h5]; exact inv.log_uid
  · rw [h4]
    intro e he
    exact inv.heap_handles e (hsub.subset (hperm.subset he))
  · rw [h2]; exact hkeys
  · exact hheap
  · rw [h4]
    intro hn
    have := inv.uids_nodup hn
    exact ((hperm.map HeapEntry.uid).nodup_iff).2 ((hsub.map HeapEntry.uid).nodup this)
  · rw [h4, h5]; exact inv.no_dropped

/-- The entry found under `u` leaves the job table and an event records how its
promise leaves the queue. -/
theorem inv_erase (q q' : TimerQueue) (inv : Inv q) (u : Nat) (i : Nat × MapEntry) (ev : Event)
    (hfind : jobs_find q.jobs u = some i) (hres : ev.releases = some i.2.promise)
    (hok : ev.uid_ok) (hnd : ev.is_dropped = false)
    (h1 : q'.next_uid = q.next_uid) (h2 : q'.jobs = jobs_erase q.jobs u)
    (h3 : q'.heap = q.heap) (h4 : q'.handles = q.handles) (h5 : q'.log = q.log ++ [ev])
    (hkeys : ∀ p ∈ q'.jobs, p.1 ∈ q'.heap.map HeapEntry.uid) : Inv q' := by
  obtain ⟨hi, hiu⟩ := jobs_find_some hfind
  have hr : released_ids q'.log = released_ids q.log ++ [i.2.promise] := by
    rw [h5, released_ids_append]
    simp [released_ids, hres]
  constructor
  · rw [h1, h4]; exact inv.next_uid_eq
  · rw [h4]; exact inv.handles_result
  · rw [h4]; exact inv.handles_uid
  · rw [h2]
    exact ((List.filter_sublist _).map Prod.fst).nodup inv.keys_nodup
  · rw [h2, h4]
    intro p hp
    exact inv.jobs_promise p (mem_jobs_erase.1 hp).1
  · rw [hr]
    apply List.Nodup.append inv.log_nodup (List.nodup_singleton _)
    intro x hx hx'
    rw [List.mem_singleton] at hx'
    subst hx'
    exact inv.log_jobs i hi hx
  · rw [hr, h4]
    intro p hp
    rcases List.mem_append.1 hp with h | h
    · exact inv.log_lt p h
    · rw [List.mem_singleton] at h
      rw [h]; exact (inv.jobs_promise i hi).1
  · rw [hr, h2]
    intro p hp hmem
    obtain ⟨hpj, hpu⟩ := mem_jobs_erase.1 hp
    rcases List.mem_append.1 hmem with h | h
    · exact inv.log_jobs p hpj h
    · rw [List.mem_singleton] at h
      apply hpu
      rw [← (inv.jobs_promise p hpj).2, h, (inv.jobs_promise i hi).2, hiu]
  · rw [hr, h2, h4]
    intro n hn
    rcases inv.complete n hn with h | h
    · rw [List.mem_map] at h
      obtain ⟨p, hp, hpn⟩ := h
      by_cases hpu : p.1 = u
      · right
        have : p = i := inv.entry_unique hp hi (by rw [hpu, hiu])
        subst this
        rw [← hpn]
        simp
      · left
        rw [List.mem_map]
        exact ⟨p, mem_jobs_erase.2 ⟨hp, hpu⟩, hpn⟩
    · right
      exact List.mem_append_left _ h
  · rw [h5]
    intro e he
    rcases List.mem_append.1 he with h | h
    · exact inv.log_uid e h
    · rw [List.mem_singleton] at h
      rw [h]; exact hok
  · rw [h3, h4]; exact inv.heap_handles
  · exact hkeys
  · rw [h3]; exact inv.heap_ok
  · rw [h3, h4]; exact inv.uids_nodup
  · rw [h4, h5]
    intro hn e he
    rcases List.mem_append.1 he with h | h
    · exact inv.no_dropped hn e h
    · rw [List.mem_singleton] at h
      rw [h]; exact hnd

theorem inv_clear {q : TimerQueue} (inv : Inv q) : Inv q.clear := by
  have hr : released_ids q.clear.log =
      released_ids q.log ++ q.jobs.map (fun p => p.2.promise) := by
    simp only [TimerQueue.clear, released_ids_append, released_ids_notify_if, List.append_nil]
    congr 1
    unfold released_ids
    rw [List.filterMap_map]
    rw [← List.filterMap_eq_map]
    rfl
  constructor
  · exact inv.next_uid_eq
  · exact inv.handles_result
  · exact inv.handles_uid
  · simp [TimerQueue.clear]
  · simp [TimerQueue.clear]
  · rw [hr]
    apply List.Nodup.append inv.log_nodup inv.promises_nodup
    intro x hx hx'
    rw [List.mem_map] at hx'
    obtain ⟨p, hp, hpx⟩ := hx'
    subst hpx
    exact inv.log_jobs p hp hx
  · rw [hr]
    intro p hp
    rcases List.mem_append.1 hp with h | h
    · exact inv.log_lt p h
    · rw [List.mem_map] at h
      obtain ⟨e, he, hep⟩ := h
      subst hep
      exact (inv.jobs_promise e he).1
  · simp [TimerQueue.clear]
  · rw [hr]
    intro n hn
    right
    rcases inv.complete n hn with h | h
    · exact List.mem_append_right _ h
    · exact List.mem_append_left _ h
  · intro ev hev
    simp only [TimerQueue.clear] at hev
    rcases List.mem_append.1 hev with h | h
    · rcases List.mem_append.1 h with h | h
      · exact inv.log_uid ev h
      · rw [List.mem_map] at h
        obtain ⟨e, he, hev⟩ := h
        subst hev
        exact (inv.jobs_promise e he).2.symm
    · rw [mem_notify_if h]; trivial
  · simp [TimerQueue.clear]
  · simp [TimerQueue.clear]
  · simp [TimerQueue.clear, is_heap]
  · simp [TimerQueue.clear]
  · intro hn ev hev
    simp only [TimerQueue.clear] at hev
    rcases List.mem_append.1 hev with h | h
    · rcases List.mem_append.1 h with h | h
      · exact inv.no_dropped hn ev h
      · rw [List.mem_map] at h
        obtain ⟨e, he, hev⟩ := h
        subst hev
        rfl
    · rw [mem_notify_if h]; rfl

theorem inv_enqueue {q : TimerQueue} (inv : Inv q) (d : Int) (job : Nat) :
    Inv (q.enqueue d job).2 := by
  have hM := uid_mod_eq
  obtain ⟨hheap, hperm⟩ := push_heap_spec q.heap ⟨q.next_uid, d⟩ inv.heap_ok
  have hcases : (jobs_contains q.jobs q.next_uid = true ∧
        jobs_insert q.jobs q.next_uid ⟨job, q.handles.length⟩ = q.jobs) ∨
      (jobs_contains q.jobs q.next_uid = false ∧
        jobs_insert q.jobs q.next_uid ⟨job, q.handles.length⟩ =
          q.jobs ++ [(q.next_uid, ⟨job, q.handles.length⟩)]) := by
    unfold jobs_insert
    cases hc : jobs_contains q.jobs q.next_uid
    · right; simp
    · left; simp
  have hr : released_ids (q.enqueue d job).2.log =
      released_ids q.log ++
        (if jobs_contains q.jobs q.next_uid then [q.handles.length] else []) := by
    simp only [TimerQueue.enqueue, released_ids_append, released_ids_notify_if, List.append_nil]
    congr 1
    split <;> rfl
  have hfresh : q.handles.length ∉ released_ids q.log := by
    intro h
    have := inv.log_lt _ h
    omega
  have hmemj : ∀ p ∈ (q.enqueue d job).2.jobs,
      p ∈ q.jobs ∨ (jobs_contains q.jobs q.next_uid = false ∧
        p = (q.next_uid, ⟨job, q.handles.length⟩)) := by
    intro p hp
    simp only [TimerQueue.enqueue] at hp
    rcases hcases with ⟨_, h⟩ | ⟨hc, h⟩
    · rw [h] at hp; exact Or.inl hp
    · rw [h] at hp
      rcases List.mem_append.1 hp with h' | h'
      · exact Or.inl h'
      · exact Or.inr ⟨hc, List.mem_singleton.1 h'⟩
  have hsubj : ∀ p ∈ q.jobs, p ∈ (q.enqueue d job).2.jobs := by
    intro p hp
    simp only [TimerQueue.enqueue]
    rcases hcases with ⟨_, h⟩ | ⟨_, h⟩
    · rw [h]; exact hp
    · rw [h]; exact List.mem_append_left _ hp
  have hlen : (q.enqueue d job).2.handles.length = q.handles.length + 1 := by
    simp [TimerQueue.enqueue]
  constructor
  · rw [hlen]
    simp only [TimerQueue.enqueue]
    rw [inv.next_uid_eq, hM]
    omega
  · rw [hlen, List.range_succ]
    simp only [TimerQueue.enqueue, List.map_append, List.map_cons, List.map_nil]
    rw [inv.handles_result]
  · intro h hh
    simp only [TimerQueue.enqueue] at hh
    rcases List.mem_append.1 hh with h' | h'
    · exact inv.handles_uid h h'
    · rw [List.mem_singleton] at h'
      subst h'
      exact inv.next_uid_eq
  · simp only [TimerQueue.enqueue]
    rcases hcases with ⟨_, h⟩ | ⟨hc, h⟩
    · rw [h]; exact inv.keys_nodup
    · rw [h, List.map_append]
      apply List.Nodup.append inv.keys_nodup (by simp)
      intro x hx hx'
      simp only [List.map_cons, List.map_nil, List.mem_singleton] at hx'
      subst hx'
      exact (jobs_contains_false_iff _ _).1 hc hx
  · intro p hp
    rw [hlen]
    rcases hmemj p hp with h | ⟨_, h⟩
    · have := inv.jobs_promise p h
      exact ⟨by omega, this.2⟩
    · subst h
      exact ⟨by simp, inv.next_uid_eq.symm⟩
  · rw [hr]
    apply List.Nodup.append inv.log_nodup
    · split <;> simp
    · intro x hx hx'
      split at hx'
      · rw [List.mem_singleton] at hx'
        subst hx'
        exact hfresh hx
      · simp at hx'
  · rw [hr, hlen]
    intro p hp
    rcases List.mem_append.1 hp with h | h
    · have := inv.log_lt p h
      omega
    · split at h
      · rw [List.mem_singleton] at h; omega
      · simp at h
  · rw [hr]
    intro p hp hmem
    rcases hmemj p hp with h | ⟨hc, h⟩
    · rcases List.mem_append.1 hmem with h' | h'
      · exact inv.log_jobs p h h'
      · split at h'
        · rw [List.mem_singleton] at h'
          have := (inv.jobs_promise p h).1
          omega
        · simp at h'
    · subst h
      rcases List.mem_append.1 hmem with h' | h'
      · exact hfresh h'
      · rw [hc] at h'
        simp at h'
  · rw [hr, hlen]
    intro n hn
    by_cases hnl : n < q.handles.length
    · rcases inv.complete n hnl with h | h
      · left
        rw [List.mem_map] at h ⊢
        obtain ⟨p, hp, hpn⟩ := h
        exact ⟨p, hsubj p hp, hpn⟩
      · right
        exact List.mem_append_left _ h
    · have hn' : n = q.handles.length := by omega
      subst hn'
      rcases hcases with ⟨hc, h⟩ | ⟨hc, h⟩
      · right
        rw [hc]
        simp
      · left
        simp only [TimerQueue.enqueue]
        rw [h]
        simp
  · intro ev hev
    simp only [TimerQueue.enqueue] at hev
    rcases List.mem_append.1 hev with h | h
    · rcases List.mem_append.1 h with h | h
      · exact inv.log_uid ev h
      · split at h
        · rw [List.mem_singleton] at h
          subst h
          exact inv.next_uid_eq
        · simp at h
    · rw [mem_notify_if h]; trivial
  · intro e he
    simp only [TimerQueue.enqueue] at he ⊢
    rcases List.mem_append.1 (hperm.subset he) with h | h
    · obtain ⟨hd, hhd, h1, h2⟩ := inv.heap_handles e h
      exact ⟨hd, List.mem_append_left _ hhd, h1, h2⟩
    · rw [List.mem_singleton] at h
      subst h
      exact ⟨⟨q.next_uid, d, q.handles.length⟩, by simp, rfl, rfl⟩
  · intro p hp
    have hm : ∀ u, u ∈ (q.heap ++ [(⟨q.next_uid, d⟩ : HeapEntry)]).map HeapEntry.uid →
        u ∈ (q.enqueue d job).2.heap.map HeapEntry.uid := by
      intro u hu
      exact (hperm.map HeapEntry.uid).symm.subset hu
    apply hm
    rw [List.map_append]
    rcases hmemj p hp with h | ⟨_, h⟩
    · exact List.mem_append_left _ (inv.keys_heap p h)
    · subst h
      simp
  · exact hheap
  · rw [hlen]
    intro hn
    have hnd := inv.uids_nodup (by omega)
    have : List.Perm ((q.enqueue d job).2.heap.map HeapEntry.uid)
        ((q.heap ++ [(⟨q.next_uid, d⟩ : HeapEntry)]).map HeapEntry.uid) := hperm.map HeapEntry.uid
    rw [this.nodup_iff, List.map_append]
    apply List.Nodup.append hnd (by simp)
    intro x hx hx'
    simp only [List.map_cons, List.map_nil, List.mem_singleton] at hx'
    subst hx'
    rw [List.mem_map] at hx
    obtain ⟨e, he, heu⟩ := hx
    obtain ⟨hd, hhd, h1, _⟩ := inv.heap_handles e he
    have h3 := inv.handles_uid hd hhd
    have h4 := inv.handle_result_lt hhd
    have h5 := inv.next_uid_eq
    rw [hM] at h3 h5 hn
    omega
  · rw [hlen]
    intro hn ev hev
    simp only [TimerQueue.enqueue] at hev
    rcases List.mem_append.1 hev with h | h
    · rcases List.mem_append.1 h with h | h
      · exact inv.no_dropped (by omega) ev h
      · exfalso
        split at h
        · rename_i hc
          rw [jobs_contains_iff, List.mem_map] at hc
          obtain ⟨p, hp, hpu⟩ := hc
          have h3 := inv.jobs_promise p hp
          have h5 := inv.next_uid_eq
          rw [hM] at h3 h5 hn
          omega
        · simp at h
    · rw [mem_notify_if h]; rfl

/-- The entries `purge` keeps are at least as many as the jobs. -/
theorem Inv.kept_length {q : TimerQueue} (inv : Inv q) :
    q.jobs.length ≤ (q.heap.filter (fun e => jobs_contains q.jobs e.uid)).length := by
  have hsub : q.jobs.map Prod.fst ⊆
      (q.heap.filter (fun e => jobs_contains q.jobs e.uid)).map HeapEntry.uid := by
    intro u hu
    obtain ⟨p, hp, hpu⟩ := List.mem_map.1 hu
    have := inv.keys_heap p hp
    obtain ⟨e, he, heu⟩ := List.mem_map.1 this
    rw [List.mem_map]
    refine ⟨e, List.mem_filter.2 ⟨he, ?_⟩, by rw [heu, hpu]⟩
    show jobs_contains q.jobs e.uid = true
    rw [jobs_contains_iff, heu]
    exact List.mem_map_of_mem _ hp
  have := (inv.keys_nodup.subperm hsub).length_le
  simpa using this

/-- With at most `2 ^ 32` handles, the entries `purge` keeps are as many as the
jobs. -/
theorem Inv.kept_length_eq {q : TimerQueue} (inv : Inv q) (hn : q.handles.length ≤ UID_MOD) :
    (q.heap.filter (fun e => jobs_contains q.jobs e.uid)).length = q.jobs.length := by
  apply Nat.le_antisymm _ inv.kept_length
  have hnd : ((q.heap.filter (fun e => jobs_contains q.jobs e.uid)).map HeapEntry.uid).Nodup :=
    ((List.filter_sublist _).map HeapEntry.uid).nodup (inv.uids_nodup hn)
  have hsub : (q.heap.filter (fun e => jobs_contains q.jobs e.uid)).map HeapEntry.uid ⊆
      q.jobs.map Prod.fst := by
    intro u hu
    obtain ⟨e, he, heu⟩ := List.mem_map.1 hu
    have := (List.mem_filter.1 he).2
    rw [jobs_contains_iff, heu] at this
    exact this
  have := (hnd.subperm hsub).length_le
  simpa using this

theorem inv_purge {q q' : TimerQueue} (inv : Inv q) (h : q.purge = some q') : Inv q' := by
  unfold TimerQueue.purge at h
  simp only at h
  split at h
  · split at h
    · simp at h
    · rename_i hgt hle
      have hk := inv.kept_length
      have hz : q.jobs.length - (q.heap.filter (fun e => jobs_contains q.jobs e.uid)).length = 0 := by
        omega
      rw [hz, List.replicate_zero, List.append_nil] at h
      injection h with h
      subst h
      obtain ⟨m1, m2⟩ := make_heap_spec (q.heap.filter (fun e => jobs_contains q.jobs e.uid))
      refine inv_heap q _ inv _ rfl rfl rfl rfl m2 (List.filter_sublist _) m1 ?_
      intro p hp
      obtain ⟨e, he, heu⟩ := List.mem_map.1 (inv.keys_heap p hp)
      apply (m2.map HeapEntry.uid).symm.subset
      rw [List.mem_map]
      refine ⟨e, List.mem_filter.2 ⟨he, ?_⟩, heu⟩
      show jobs_contains q.jobs e.uid = true
      rw [jobs_contains_iff, heu]
      exact List.mem_map_of_mem _ hp
  · injection h with h
    subst h
    exact inv

theorem inv_cancel {q : TimerQueue} (inv : Inv q) (u : Nat) (r : Bool × TimerQueue)
    (h : q.cancel u = some r) : Inv r.2 := by
  unfold TimerQueue.cancel at h
  split at h
  · rename_i i hfind
    split at h
    · simp at h
    · rename_i root t hheap
      injection h with h
      subst h
      obtain ⟨hi, hiu⟩ := jobs_find_some hfind
      have inv1 : Inv { q with jobs := jobs_erase q.jobs u,
                               log := q.log ++ [Event.cancelled u i.2.promise] } := by
        refine inv_erase q _ inv u i (Event.cancelled u i.2.promise) hfind rfl ?_ rfl rfl rfl rfl
          rfl rfl ?_
        · show u = i.2.promise % UID_MOD
          rw [(inv.jobs_promise i hi).2, hiu]
        · intro p hp
          exact inv.keys_heap p (mem_jobs_erase.1 hp).1
      exact inv_frame _ _ inv1 (decide (root.uid = u)) rfl rfl rfl rfl rfl
  · injection h with h
    subst h
    exact inv

theorem after_wait_until_q (q : TimerQueue) (b : Bool) : (after_wait_until q b).q = q := by
  unfold after_wait_until
  split
  · rfl
  · split <;> rfl

/-- The dispatcher removes a root whose uid is not in the job table. -/
theorem inv_pop_tombstone (q : TimerQueue) (inv : Inv q) (root : HeapEntry) (t : List HeapEntry)
    (hheap : q.heap = root :: t) (hfind : jobs_find q.jobs root.uid = none) :
    Inv { q with heap := pop_root q.heap } := by
  have hh : is_heap (root :: t) := by rw [← hheap]; exact inv.heap_ok
  obtain ⟨s1, s2⟩ := pop_root_spec root t hh
  rw [← hheap] at s1 s2
  refine inv_heap q _ inv t rfl rfl rfl rfl s2 (by rw [hheap]; exact List.sublist_cons_self _ _)
    s1 ?_
  intro p hp
  have h1 := inv.keys_heap p hp
  apply (s2.map HeapEntry.uid).symm.subset
  rw [hheap, List.map_cons, List.mem_cons] at h1
  rcases h1 with h1 | h1
  · exfalso
    apply jobs_find_none hfind
    rw [← h1]
    exact List.mem_map_of_mem _ hp
  · exact h1

/-- The dispatcher fires the root. -/
theorem inv_fire (q : TimerQueue) (inv : Inv q) (root : HeapEntry) (t : List HeapEntry)
    (i : Nat × MapEntry)
    (hheap : q.heap = root :: t) (hfind : jobs_find q.jobs root.uid = some i) :
    Inv { q with jobs := jobs_erase q.jobs root.uid,
                 heap := pop_root q.heap,
                 log := q.log ++ [Event.executed root.uid i.2.job i.2.promise] } := by
  obtain ⟨hi, hiu⟩ := jobs_find_some hfind
  have inv1 : Inv { q with jobs := jobs_erase q.jobs root.uid,
                           log := q.log ++ [Event.executed root.uid i.2.job i.2.promise] } := by
    refine inv_erase q _ inv root.uid i (Event.executed root.uid i.2.job i.2.promise) hfind rfl
      ?_ rfl rfl rfl rfl rfl rfl ?_
    · show root.uid = i.2.promise % UID_MOD
      rw [(inv.jobs_promise i hi).2, hiu]
    · intro p hp
      exact inv.keys_heap p (mem_jobs_erase.1 hp).1
  have hh : is_heap (root :: t) := by rw [← hheap]; exact inv.heap_ok
  obtain ⟨s1, s2⟩ := pop_root_spec root t hh
  rw [← hheap] at s1 s2
  refine inv_heap _ _ inv1 t rfl rfl rfl rfl s2
    (by show List.Sublist t q.heap; rw [hheap]; exact List.sublist_cons_self _ _) s1 ?_
  intro p hp
  have hp' : p ∈ jobs_erase q.jobs root.uid := hp
  obtain ⟨hpj, hpu⟩ := mem_jobs_erase.1 hp'
  have h1 := inv.keys_heap p hpj
  apply (s2.map HeapEntry.uid).symm.subset
  rw [hheap, List.map_cons, List.mem_cons] at h1
  rcases h1 with h1 | h1
  · exact absurd h1 hpu
  · exact h1

theorem inv_demux_step {w w' : World} (inv : Inv w.q) (now : Int)
    (h : demux_step w now = some w') : Inv w'.q := by
  unfold demux_step at h
  simp only at h
  split at h
  · split at h <;> (injection h with h; subst h; exact inv)
  · rename_i de hpc
    split at h
    · split at h <;> (injection h with h; subst h; exact inv)
    · rename_i root t hheap
      split at h
      · rename_i hfind
        injection h with h
        subst h
        exact inv_pop_tombstone w.q inv root t hheap hfind
      · rename_i i hfind
        generalize (if (!de) = true then decide (root.deadline ≤ now) else de) = b at h
        cases b
        · simp only [Bool.false_eq_true, if_false] at h
          split at h
          · simp at h
          · injection h with h
            subst h
            rw [after_wait_until_q]
            exact inv
          · injection h with h
            subst h
            exact inv
        · simp only [if_true] at h
          injection h with h
          subst h
          exact inv_fire w.q inv root t i hheap hfind
  · injection h with h
    subst h
    exact inv
  · simp at h

theorem inv_demux_wake {w w' : World} (inv : Inv w.q) (timed_out : Bool)
    (h : demux_wake w timed_out = some w') : Inv w'.q := by
  unfold demux_wake at h
  simp only at h
  split at h
  · split at h
    · simp at h
    · injection h with h
      subst h
      rw [after_wait_until_q]
      exact inv
    · split at h
      · injection h with h
        subst h
        rw [after_wait_until_q]
        exact inv
      · injection h with h
        subst h
        exact inv
  · split at h <;> (injection h with h; subst h; exact inv)
  · simp at h

theorem inv_step {w w' : World} (inv : Inv w.q) (op : Op) (h : step w op = some w') :
    Inv w'.q := by
  cases op with
  | start =>
    simp only [step] at h
    split at h
    · injection h with h; subst h; exact inv
    · split at h
      · injection h with h
        subst h
        exact inv_frame w.q _ inv false rfl rfl rfl rfl (by simp [TimerQueue.notify_if])
      · simp at h
  | stop =>
    simp only [step] at h
    split at h
    · injection h with h
      subst h
      exact inv_frame w.q _ inv true rfl rfl rfl rfl rfl
    · injection h with h; subst h; exact inv
  | enqueue d job =>
    simp only [step] at h
    split at h
    · simp at h
    · injection h with h
      subst h
      exact inv_enqueue inv d job
  | cancel u =>
    simp only [step] at h
    split at h
    · simp at h
    · rw [Option.map_eq_some'] at h
      obtain ⟨r, hr, h⟩ := h
      subst h
      exact inv_cancel inv u r hr
  | clear =>
    simp only [step] at h
    split at h
    · simp at h
    · injection h with h
      subst h
      exact inv_clear inv
  | purge =>
    simp only [step] at h
    split at h
    · simp at h
    · rw [Option.map_eq_some'] at h
      obtain ⟨r, hr, h⟩ := h
      subst h
      exact inv_purge inv hr
  | in_queue u =>
    simp only [step] at h
    split at h
    · simp at h
    · injection h with h; subst h; exact inv
  | demux now => exact inv_demux_step inv now h
  | wake t => exact inv_demux_wake inv t h

theorem inv_run : ∀ (ops : List Op) (w w' : World), Inv w.q → run ops w = some w' → Inv w'.q := by
  intro ops
  induction ops with
  | nil =>
    intro w w' inv h
    simp only [run] at h
    injection h with h
    subst h
    exact inv
  | cons op ops ih =>
    intro w w' inv h
    simp only [run] at h
    rw [Option.bind_eq_some] at h
    obtain ⟨w1, h1, h2⟩ := h
    exact ih w1 w' (inv_step inv op h1) h2

theorem inv_reachable {w : World} (h : Reachable w) : Inv w.q := by
  obtain ⟨ops, h⟩ := h
  exact inv_run ops init w inv_create h

theorem run_append (ops1 ops2 : List Op) (w : World) :
    run (ops1 ++ ops2) w = (run ops1 w).bind (run ops2) := by
  induction ops1 generalizing w with
  | nil => simp [run]
  | cons op ops ih =>
    simp only [List.cons_append, run]
    cases h : step w op with
    | none => simp
    | some w1 => simp [ih]

/-! ## What a step does to the handles and the trace -/

/-- What a step of the dispatcher does to the queue object: nothing, or the
removal of a root that is not in the job table, or the firing of the root. -/
theorem demux_step_cases {w w' : World} {now : Int} (h : demux_step w now = some w') :
    w'.q = w.q ∨
    (∃ root t, w.q.heap = root :: t ∧ jobs_find w.q.jobs root.uid = none ∧
      w'.q = { w.q with heap := pop_root w.q.heap }) ∨
    (∃ root t i, w.q.heap = root :: t ∧ jobs_find w.q.jobs root.uid = some i ∧
      w'.q = { w.q with jobs := jobs_erase w.q.jobs root.uid,
                        heap := pop_root w.q.heap,
                        log := w.q.log ++ [Event.executed root.uid i.2.job i.2.promise] }) := by
  unfold demux_step at h
  simp only at h
  split at h
  · split at h <;> (injection h with h; subst h; exact Or.inl rfl)
  · rename_i de hpc
    split at h
    · split at h <;> (injection h with h; subst h; exact Or.inl rfl)
    · rename_i root t hheap
      split at h
      · rename_i hfind
        injection h with h
        subst h
        exact Or.inr (Or.inl ⟨root, t, hheap, hfind, rfl⟩)
      · rename_i i hfind
        generalize (if (!de) = true then decide (root.deadline ≤ now) else de) = b at h
        cases b
        · simp only [Bool.false_eq_true, if_false] at h
          split at h
          · simp at h
          · injection h with h
            subst h
            exact Or.inl (after_wait_until_q _ _)
          · injection h with h
            subst h
            exact Or.inl rfl
        · simp only [if_true] at h
          injection h with h
          subst h
          exact Or.inr (Or.inr ⟨root, t, i, hheap, hfind, rfl⟩)
  · injection h with h
    subst h
    exact Or.inl rfl
  · simp at h

theorem demux_wake_q {w w' : World} {timed_out : Bool} (h : demux_wake w timed_out = some w') :
    w'.q = w.q := by
  unfold demux_wake at h
  simp only at h
  split at h
  · split at h
    · simp at h
    · injection h with h
      subst h
      exact after_wait_until_q _ _
    · split at h
      · injection h with h
        subst h
        exact after_wait_until_q _ _
      · injection h with h
        subst h
        rfl
  · split at h <;> (injection h with h; subst h; rfl)
  · simp at h

theorem cancel_handles {q : TimerQueue} {u : Nat} {r : Bool × TimerQueue}
    (h : q.cancel u = some r) : r.2.handles = q.handles ∧ ∃ l, r.2.log = q.log ++ l := by
  unfold TimerQueue.cancel at h
  split at h
  · split at h
    · simp at h
    · injection h with h
      subst h
      exact ⟨rfl, _, List.append_assoc _ _ _⟩
  · injection h with h
    subst h
    exact ⟨rfl, [], (List.append_nil _).symm⟩

theorem purge_frame {q q' : TimerQueue} (h : q.purge = some q') :
    q'.handles = q.handles ∧ q'.log = q.log ∧ q'.jobs = q.jobs ∧ q'.next_uid = q.next_uid ∧
    q'.running = q.running := by
  unfold TimerQueue.purge at h
  simp only at h
  split at h
  · split at h
    · simp at h
    · injection h with h
      subst h
      exact ⟨rfl, rfl, rfl, rfl, rfl⟩
  · injection h with h
    subst h
    exact ⟨rfl, rfl, rfl, rfl, rfl⟩

/-- Handles are only added, by `enqueue`, and the trace only grows. -/
theorem step_history {w w' : World} {op : Op} (h : step w op = some w') :
    (w'.q.handles.length = w.q.handles.length + enqueue_count [op]) ∧
    (∃ l, w'.q.handles = w.q.handles ++ l) ∧ (∃ l, w'.q.log = w.q.log ++ l) := by
  cases op with
  | start =>
    simp only [step] at h
    split at h
    · injection h with h; subst h; exact ⟨rfl, ⟨[], by simp⟩, ⟨[], by simp⟩⟩
    · split at h
      · injection h with h; subst h; exact ⟨rfl, ⟨[], by simp⟩, ⟨[], by simp⟩⟩
      · simp at h
  | stop =>
    simp only [step] at h
    split at h
    · injection h with h; subst h; exact ⟨rfl, ⟨[], by simp⟩, ⟨_, rfl⟩⟩
    · injection h with h; subst h; exact ⟨rfl, ⟨[], by simp⟩, ⟨[], by simp⟩⟩
  | enqueue d job =>
    simp only [step] at h
    split at h
    · simp at h
    · injection h with h
      subst h
      refine ⟨by simp [TimerQueue.enqueue, enqueue_count], ⟨_, rfl⟩, ?_⟩
      simp only [TimerQueue.enqueue]
      exact ⟨_, List.append_assoc _ _ _⟩
  | cancel u =>
    simp only [step] at h
    split at h
    · simp at h
    · rw [Option.map_eq_some'] at h
      obtain ⟨r, hr, h⟩ := h
      subst h
      obtain ⟨c1, c2⟩ := cancel_handles hr
      exact ⟨by simp [c1, enqueue_count], ⟨[], by simp [c1]⟩, c2⟩
  | clear =>
    simp only [step] at h
    split at h
    · simp at h
    · injection h with h
      subst h
      exact ⟨rfl, ⟨[], by simp [TimerQueue.clear]⟩, ⟨_, List.append_assoc _ _ _⟩⟩
  | purge =>
    simp only [step] at h
    split at h
    · simp at h
    · rw [Option.map_eq_some'] at h
      obtain ⟨r, hr, h⟩ := h
      subst h
      obtain ⟨c1, c2, _⟩ := purge_frame hr
      exact ⟨by simp [c1, enqueue_count], ⟨[], by simp [c1]⟩, ⟨[], by simp [c2]⟩⟩
  | in_queue u =>
    simp only [step] at h
    split at h
    · simp at h
    · injection h with h; subst h; exact ⟨rfl, ⟨[], by simp⟩, ⟨[], by simp⟩⟩
  | demux now =>
    rcases demux_step_cases h with h1 | ⟨root, t, _, _, h1⟩ | ⟨root, t, i, _, _, h1⟩
    · rw [h1]; exact ⟨rfl, ⟨[], by simp⟩, ⟨[], by simp⟩⟩
    · rw [h1]; exact ⟨rfl, ⟨[], by simp⟩, ⟨[], by simp⟩⟩
    · rw [h1]; exact ⟨rfl, ⟨[], by simp⟩, ⟨_, rfl⟩⟩
  | wake t =>
    rw [demux_wake_q h]; exact ⟨rfl, ⟨[], by simp⟩, ⟨[], by simp⟩⟩

theorem enqueue_count_cons (op : Op) (ops : List Op) :
    enqueue_count (op :: ops) = enqueue_count [op] + enqueue_count ops := by
  unfold enqueue_count
  rw [← List.length_append, ← List.filter_append]
  rfl

theorem run_history : ∀ (ops : List Op) (w w' : World), run ops w = some w' →
    (w'.q.handles.length = w.q.handles.length + enqueue_count ops) ∧
    (∃ l, w'.q.handles = w.q.handles ++ l) ∧ (∃ l, w'.q.log = w.q.log ++ l) := by
  intro ops
  induction ops with
  | nil =>
    intro w w' h
    simp only [run] at h
    injection h with h
    subst h
    exact ⟨rfl, ⟨[], by simp⟩, ⟨[], by simp⟩⟩
  | cons op ops ih =>
    intro w w' h
    simp only [run] at h
    rw [Option.bind_eq_some] at h
    obtain ⟨w1, h1, h2⟩ := h
    obtain ⟨a1, ⟨l1, a2⟩, ⟨l2, a3⟩⟩ := step_history h1
    obtain ⟨b1, ⟨m1, b2⟩, ⟨m2, b3⟩⟩ := ih w1 w' h2
    refine ⟨?_, ⟨l1 ++ m1, ?_⟩, ⟨l2 ++ m2, ?_⟩⟩
    · rw [b1, a1, enqueue_count_cons op ops]; omega
    · rw [b2, a2, List.append_assoc]
    · rw [b3, a3, List.append_assoc]

theorem run_handles_length {ops : List Op} {w : World} (h : run ops init = some w) :
    w.q.handles.length = enqueue_count ops := by
  have := (run_history ops init w h).1
  simpa [init, TimerQueue.create] using this

/-! ## Lemmas about single operations -/

/-- In a list without two entries of the same uid, the entries with the uid of a
member are that member alone. -/
theorem filter_uid_eq_singleton :
    ∀ (l : List HeapEntry), (l.map HeapEntry.uid).Nodup → ∀ e ∈ l,
      l.filter (fun x => decide (x.uid = e.uid)) = [e] := by
  intro l
  induction l with
  | nil => intro _ e he; simp at he
  | cons x xs ih =>
    intro hnd e he
    rw [List.map_cons, List.nodup_cons] at hnd
    rcases List.mem_cons.1 he with h | h
    · subst h
      rw [List.filter_cons_of_pos (by simp)]
      congr 1
      rw [List.filter_eq_nil_iff]
      intro y hy hyu
      apply hnd.1
      rw [List.mem_map]
      exact ⟨y, hy, by simpa using hyu⟩
    · have hne : x.uid ≠ e.uid := by
        intro hx
        apply hnd.1
        rw [hx]
        exact List.mem_map_of_mem _ h
      rw [List.filter_cons_of_neg (by simpa using hne)]
      exact ih hnd.2 e h

theorem Inv.jobs_le_heap {q : TimerQueue} (inv : Inv q) : q.jobs.length ≤ q.heap.length := by
  have hsub : q.jobs.map Prod.fst ⊆ q.heap.map HeapEntry.uid := by
    intro u hu
    obtain ⟨p, hp, hpu⟩ := List.mem_map.1 hu
    rw [← hpu]
    exact inv.keys_heap p hp
  have := (inv.keys_nodup.subperm hsub).length_le
  simpa using this

theorem jobs_find_fst {jobs : List (Nat × MapEntry)} {u : Nat} {i : Nat × MapEntry}
    (h : jobs_find jobs u = some i) : i = (u, i.2) := by
  have := (jobs_find_some h).2
  cases i
  simp only at this
  subst this
  rfl

/-- What `cancel` does in a state where its read of `_heap[0]` is in bounds. -/
theorem cancel_spec (q : TimerQueue) (uid : Nat)
    (hne : q.in_queue uid = true → q.heap ≠ []) :
    ∃ q', q.cancel uid = some (q.in_queue uid, q') ∧
      q'.jobs = jobs_erase q.jobs uid ∧
      (∀ p, p ∈ q'.jobs ↔ (p ∈ q.jobs ∧ p.1 ≠ uid)) ∧
      (q.in_queue uid = true →
        ∃ entry b, jobs_find q.jobs uid = some (uid, entry) ∧
          q'.log = q.log ++ [Event.cancelled uid entry.promise] ++ TimerQueue.notify_if b) ∧
      (q.in_queue uid = false → q' = q) ∧
      q'.heap = q.heap ∧ q'.next_uid = q.next_uid ∧ q'.running = q.running ∧
      q'.handles = q.handles ∧ q'.in_queue uid = false := by
  unfold TimerQueue.cancel TimerQueue.in_queue
  unfold TimerQueue.in_queue at hne
  cases hfind : jobs_find q.jobs uid with
  | none =>
    have hc : jobs_contains q.jobs uid = false := by
      rw [← jobs_find_isSome, hfind]; rfl
    have herase : q.jobs = jobs_erase q.jobs uid := by
      unfold jobs_erase
      rw [List.filter_eq_self.2]
      intro p hp
      simp only [bne_iff_ne, ne_eq]
      intro hpu
      apply jobs_find_none hfind
      rw [← hpu]
      exact List.mem_map_of_mem _ hp
    refine ⟨q, by rw [hc], herase, ?_, ?_, fun _ => rfl, rfl, rfl, rfl, rfl, hc⟩
    · intro p
      constructor
      · intro hp
        refine ⟨hp, ?_⟩
        intro hpu
        apply jobs_find_none hfind
        rw [← hpu]
        exact List.mem_map_of_mem _ hp
      · exact fun h => h.1
    · intro h; rw [hc] at h; cases h
  | some i =>
    have hc : jobs_contains q.jobs uid = true := by
      rw [← jobs_find_isSome, hfind]; rfl
    cases hheap : q.heap with
    | nil => exact absurd hheap (hne hc)
    | cons root t =>
      simp only [hc]
      refine ⟨_, rfl, rfl, ?_, ?_, ?_, rfl, rfl, rfl, rfl, jobs_erase_contains _ _⟩
      · intro p; exact mem_jobs_erase
      · intro _
        refine ⟨i.2, decide (root.uid = uid), ?_, rfl⟩
        rw [← jobs_find_fst hfind]
      · intro h; cases h

theorem Inv.heap_ne_nil {q : TimerQueue} (inv : Inv q) {uid : Nat}
    (h : q.in_queue uid = true) : q.heap ≠ [] := by
  unfold TimerQueue.in_queue at h
  rw [jobs_contains_iff] at h
  obtain ⟨p, hp, _⟩ := List.mem_map.1 h
  have := inv.keys_heap p hp
  intro hnil
  rw [hnil] at this
  simp at this

/-- The function `std::push_heap` rearranges a non-empty array. -/
theorem push_heap_perm (h : List HeapEntry) (e : HeapEntry) :
    List.Perm (push_heap (h ++ [e])) (h ++ [e]) := by
  have hlen : (h ++ [e]).length = h.length + 1 := by simp
  simp only [push_heap, push_heap_at, hlen, Nat.add_sub_cancel, nth_append_length]
  refine (push_heap_loop_perm 0 e _ _ _ (by omega)).trans ?_
  have : (h ++ [e]).set h.length e = h ++ [e] := by
    rw [List.set_append_right _ _ (Nat.le_refl _)]
    simp
  rw [this]

theorem enqueue_in_queue (q : TimerQueue) (d : Int) (job : Nat) :
    (q.enqueue d job).2.in_queue q.next_uid = true := by
  simp only [TimerQueue.enqueue, TimerQueue.in_queue, jobs_insert]
  split
  · rename_i h; exact h
  · rw [jobs_contains_iff]
    simp

theorem Inv.handles_uid_eq {q : TimerQueue} (inv : Inv q) :
    q.handles.map TimerHandle.uid =
      (List.range q.handles.length).map (fun k => k % UID_MOD) := by
  rw [← inv.handles_result, List.map_map]
  apply List.map_congr_left
  intro h hh
  exact inv.handles_uid h hh

/-- What `purge` does in a state of the invariant with at most `2 ^ 32`
handles. -/
theorem purge_spec (q : TimerQueue) (inv : Inv q) (hn : q.handles.length ≤ UID_MOD) :
    ∃ q', q.purge = some q' ∧
      q'.jobs = q.jobs ∧ q'.next_uid = q.next_uid ∧ q'.running = q.running ∧
      q'.handles = q.handles ∧ q'.log = q.log ∧
      List.Perm q'.heap (q.heap.filter (fun e => q.in_queue e.uid)) ∧
      (∀ e ∈ q'.heap, q'.in_queue e.uid = true) ∧
      q'.heap.length = q'.jobs.length ∧
      (q.jobs = [] → q'.heap = []) := by
  have hk := inv.kept_length_eq hn
  have hfin : ∀ q' : TimerQueue, q'.jobs = q.jobs →
      List.Perm q'.heap (q.heap.filter (fun e => q.in_queue e.uid)) →
      ((∀ e ∈ q'.heap, q'.in_queue e.uid = true) ∧ q'.heap.length = q'.jobs.length ∧
        (q.jobs = [] → q'.heap = [])) := by
    intro q' hj hp
    have hl : q'.heap.length = q'.jobs.length := by
      rw [hp.length_eq, hj]; exact hk
    refine ⟨?_, hl, ?_⟩
    · intro e he
      have := (List.mem_filter.1 (hp.subset he)).2
      unfold TimerQueue.in_queue at this ⊢
      rw [hj]
      exact this
    · intro hnil
      rw [hj, hnil] at hl
      exact List.length_eq_zero.1 hl
  unfold TimerQueue.purge
  simp only
  split
  · rename_i hgt
    have hle : ¬ (q.heap.filter (fun e => jobs_contains q.jobs e.uid)).length > q.jobs.length := by
      omega
    have hz : q.jobs.length - (q.heap.filter (fun e => jobs_contains q.jobs e.uid)).length = 0 := by
      omega
    simp only [hle, if_false, hz, List.replicate_zero, List.append_nil]
    have hp := (make_heap_spec (q.heap.filter (fun e => jobs_contains q.jobs e.uid))).2
    exact ⟨_, rfl, rfl, rfl, rfl, rfl, rfl, hp, hfin _ rfl hp⟩
  · rename_i hgt
    have hf : q.heap.filter (fun e => q.in_queue e.uid) = q.heap := by
      apply (List.filter_sublist _).eq_of_length_le
      show q.heap.length ≤ (q.heap.filter (fun e => jobs_contains q.jobs e.uid)).length
      omega
    have hp : List.Perm q.heap (q.heap.filter (fun e => q.in_queue e.uid)) := by
      rw [hf]
    exact ⟨q, rfl, rfl, rfl, rfl, rfl, rfl, hp, hfin q rfl hp⟩

/-- The root of a heap carries the smallest deadline. -/
theorem is_heap_root_le (h : List HeapEntry) (hh : is_heap h) :
    ∀ i, i < h.length → (nth h 0).deadline ≤ (nth h i).deadline := by
  intro i
  induction i using Nat.strong_induction_on with
  | _ i ih =>
    intro hi
    rcases Nat.eq_zero_or_pos i with h0 | hpos
    · subst h0; exact le_refl _
    · exact le_trans (ih ((i - 1) / 2) (by omega) (by omega)) (hh i hpos hi)

theorem mem_iff_nth (h : List HeapEntry) (e : HeapEntry) :
    e ∈ h → ∃ i, i < h.length ∧ nth h i = e := by
  intro he
  obtain ⟨i, hi, hie⟩ := List.getElem_of_mem he
  refine ⟨i, hi, ?_⟩
  unfold nth
  rw [List.getD_eq_getElem _ _ hi]
  exact hie

/-- Two members of a trace that let go of the same promise are the same event,
when no promise occurs twice. -/
theorem releases_inj : ∀ (l : List Event), (released_ids l).Nodup →
    ∀ a ∈ l, ∀ b ∈ l, ∀ x, a.releases = some x → b.releases = some x → a = b := by
  intro l
  induction l with
  | nil => intro _ a ha; simp at ha
  | cons c cs ih =>
    intro hnd a ha b hb x hax hbx
    have hmem : ∀ e ∈ cs, e.releases = some x → x ∈ released_ids cs := by
      intro e he hex
      unfold released_ids
      rw [List.mem_filterMap]
      exact ⟨e, he, hex⟩
    have hcs : (released_ids cs).Nodup := by
      unfold released_ids at hnd ⊢
      rw [List.filterMap_cons] at hnd
      split at hnd
      · exact hnd
      · exact (List.nodup_cons.1 hnd).2
    have hhead : c.releases = some x → x ∉ released_ids cs := by
      intro hcx
      unfold released_ids at hnd ⊢
      rw [List.filterMap_cons, hcx] at hnd
      exact (List.nodup_cons.1 hnd).1
    rcases List.mem_cons.1 ha with h1 | h1
    · rcases List.mem_cons.1 hb with h2 | h2
      · rw [h1, h2]
      · subst h1
        exact absurd (hmem b h2 hbx) (hhead hax)
    · rcases List.mem_cons.1 hb with h2 | h2
      · subst h2
        exact absurd (hmem a h1 hax) (hhead hbx)
      · exact ih hcs a h1 b h2 x hax hbx

/-! ## Runs that take the uid counter around

The counter `_next_uid` has `2 ^ 32` values. The runs below reach its
wrap-around with a queue that stays small: timers are enqueued, cancelled and
purged one after the other. -/

theorem enqueue_count_append (a b : List Op) :
    enqueue_count (a ++ b) = enqueue_count a + enqueue_count b := by
  unfold enqueue_count
  rw [List.filter_append, List.length_append]

theorem step_enqueue (w : World) (d : Int) (job : Nat) (hl : w.pc.holds_lock = false) :
    step w (Op.enqueue d job) = some { w with q := (w.q.enqueue d job).2 } := by
  simp [step, hl]

/-- In a state with fewer than `2 ^ 32` handles the next uid is not in the job
table. -/
theorem Inv.fresh_uid {q : TimerQueue} (inv : Inv q) (hn : q.handles.length < UID_MOD) :
    jobs_contains q.jobs q.next_uid = false := by
  rw [jobs_contains_false_iff, List.mem_map]
  rintro ⟨p, hp, hpu⟩
  have h3 := inv.jobs_promise p hp
  have h5 := inv.next_uid_eq
  rw [uid_mod_eq] at h3 h5 hn
  omega

theorem enqueue_heap_length (q : TimerQueue) (d : Int) (job : Nat) :
    (q.enqueue d job).2.heap.length = q.heap.length + 1 := by
  simp only [TimerQueue.enqueue, push_heap, push_heap_at]
  rw [push_heap_loop_length]
  simp

theorem Inv.jobs_length_le {q : TimerQueue} (inv : Inv q) :
    q.jobs.length + (released_ids q.log).length ≤ q.handles.length := by
  have hnd : (q.jobs.map (fun p => p.2.promise) ++ released_ids q.log).Nodup := by
    apply List.Nodup.append inv.promises_nodup inv.log_nodup
    intro x hx hx'
    rw [List.mem_map] at hx
    obtain ⟨p, hp, hpx⟩ := hx
    subst hpx
    exact inv.log_jobs p hp hx'
  have hsub : q.jobs.map (fun p => p.2.promise) ++ released_ids q.log ⊆
      List.range q.handles.length := by
    intro x hx
    rw [List.mem_range]
    rcases List.mem_append.1 hx with h | h
    · rw [List.mem_map] at h
      obtain ⟨p, hp, hpx⟩ := h
      subst hpx
      exact (inv.jobs_promise p hp).1
    · exact inv.log_lt x h
  have := (hnd.subperm hsub).length_le
  simpa using this

/-- One short-lived timer: in a state with fewer than `2 ^ 32` handles where the
dispatcher does not run, a timer can be enqueued, cancelled under the uid it
got, and purged; the job table is as before and the heap has its size. -/
theorem run_round (w : World) (hpc : w.pc = Pc.off) (inv : Inv w.q)
    (hn : w.q.handles.length < UID_MOD) :
    ∃ w', run [Op.enqueue 0 0, Op.cancel (w.q.handles.length % UID_MOD), Op.purge] w = some w' ∧
      w'.pc = Pc.off ∧ w'.q.jobs = w.q.jobs ∧
      w'.q.handles.length = w.q.handles.length + 1 ∧
      w'.q.heap.length = w'.q.jobs.length ∧
      (∀ e ∈ w'.q.heap, w'.q.in_queue e.uid = true) := by
  have hl : w.pc.holds_lock = false := by rw [hpc]; rfl
  have hfresh := inv.fresh_uid hn
  rw [← inv.next_uid_eq]
  -- enqueue
  have inv1 := inv_enqueue inv 0 0
  have hj1 : (w.q.enqueue 0 0).2.jobs =
      w.q.jobs ++ [(w.q.next_uid, { job := 0, promise := w.q.handles.length })] := by
    simp only [TimerQueue.enqueue, jobs_insert, hfresh]
    rfl
  have hlen1 : (w.q.enqueue 0 0).2.handles.length = w.q.handles.length + 1 := by
    simp [TimerQueue.enqueue]
  -- cancel
  obtain ⟨q2, hc, hj2, _, _, _, _, _, _, hh2, _⟩ :=
    cancel_spec (w.q.enqueue 0 0).2 w.q.next_uid (fun h => inv1.heap_ne_nil h)
  have inv2 : Inv q2 := inv_cancel inv1 _ _ hc
  have hj2' : q2.jobs = w.q.jobs := by
    rw [hj2, hj1]
    unfold jobs_erase
    rw [List.filter_append, List.filter_eq_self.2, List.filter_cons_of_neg (by simp)]
    · simp
    · intro p hp
      simp only [bne_iff_ne, ne_eq]
      intro hpu
      apply (jobs_contains_false_iff _ _).1 hfresh
      rw [← hpu]
      exact List.mem_map_of_mem _ hp
  -- purge
  obtain ⟨q3, hp, hj3, _, _, hh3, _, _, hlive, hlen3, _⟩ :=
    purge_spec q2 inv2 (by rw [hh2, hlen1]; omega)
  refine ⟨{ w with q := q3 }, ?_, hpc, by rw [hj3, hj2'], by rw [hh3, hh2, hlen1], hlen3, hlive⟩
  simp only [run, step, hl, Option.some_bind, Bool.false_eq_true, if_false, hc, Option.map_some',
    hp]

theorem churn_succ (a n : Nat) :
    churn a (n + 1) = [Op.enqueue 0 0, Op.cancel (a % UID_MOD), Op.purge] ++ churn (a + 1) n :=
  rfl

/-- A run of `n` short-lived timers, as long as the number of handles stays within
`2 ^ 32`: the job table is as before. -/
theorem run_churn : ∀ (n : Nat) (w : World), w.pc = Pc.off → Inv w.q →
    w.q.handles.length + n ≤ UID_MOD →
    ∃ w', run (churn w.q.handles.length n) w = some w' ∧
      w'.pc = Pc.off ∧ Inv w'.q ∧ w'.q.jobs = w.q.jobs ∧
      w'.q.handles.length = w.q.handles.length + n ∧
      (0 < n → w'.q.heap.length = w'.q.jobs.length ∧
        (∀ e ∈ w'.q.heap, w'.q.in_queue e.uid = true)) := by
  intro n
  induction n with
  | zero =>
    intro w hpc inv _
    exact ⟨w, rfl, hpc, inv, rfl, rfl, fun h => absurd h (Nat.lt_irrefl 0)⟩
  | succ n ih =>
    intro w hpc inv hn
    obtain ⟨w1, r1, r2, r3, r4, r5, r6⟩ := run_round w hpc inv (by omega)
    have inv1 : Inv w1.q := inv_run _ _ _ inv r1
    obtain ⟨w2, s1, s2, s3, s4, s5, s6⟩ := ih w1 r2 inv1 (by rw [r4]; omega)
    refine ⟨w2, ?_, s2, s3, by rw [s4, r3], by rw [s5, r4]; omega, ?_⟩
    · rw [churn_succ, run_append, r1, Option.some_bind, ← r4]
      exact s1
    · intro _
      rcases Nat.eq_zero_or_pos n with h0 | hpos
      · subst h0
        simp only [churn, run] at s1
        injection s1 with s1
        subst s1
        exact ⟨r5, r6⟩
      · exact s6 hpos

/-- The state after `n` short-lived timers on a fresh queue, `n` up to `2 ^ 32`. -/
theorem run_churn_init (n : Nat) (hn : n ≤ UID_MOD) :
    ∃ w, run (churn 0 n) init = some w ∧ w.pc = Pc.off ∧ Inv w.q ∧
      w.q.jobs = [] ∧ w.q.handles.length = n ∧ w.q.next_uid = n % UID_MOD := by
  obtain ⟨w, h1, h2, h3, h4, h5, _⟩ := run_churn n init rfl inv_create (by
    simp [init, TimerQueue.create]; exact hn)
  have hlen : w.q.handles.length = n := by
    rw [h5]; simp [init, TimerQueue.create]
  refine ⟨w, h1, h2, h3, h4, hlen, ?_⟩
  rw [h3.next_uid_eq, hlen]

/-- The state after `long_lived_ops`: the first timer is still in the job table,
alone, `2 ^ 32` handles have been returned and the next uid is `0` again. -/
theorem run_long_lived :
    ∃ w, run long_lived_ops init = some w ∧ w.pc = Pc.off ∧ Inv w.q ∧
      w.q.jobs = [(0, { job := 0, promise := 0 })] ∧ w.q.handles.length = UID_MOD ∧
      w.q.next_uid = 0 ∧ w.q.heap.length = 1 ∧
      (∀ e ∈ w.q.heap, w.q.in_queue e.uid = true) := by
  have hM := uid_mod_eq
  obtain ⟨w1, hw1, hpc1, hj1, hlen1⟩ : ∃ w1 : World,
      run [Op.enqueue 0 0] init = some w1 ∧ w1.pc = Pc.off ∧
      w1.q.jobs = [(0, { job := 0, promise := 0 })] ∧ w1.q.handles.length = 1 :=
    ⟨pending_world, by decide, rfl, rfl, rfl⟩
  have inv1 := inv_run _ _ _ inv_create hw1
  obtain ⟨w, h1, h2, h3, h4, h5, h6⟩ := run_churn (UID_MOD - 1) w1 hpc1 inv1 (by
    rw [hlen1]; omega)
  have hlen : w.q.handles.length = UID_MOD := by rw [h5, hlen1]; omega
  obtain ⟨h7, h8⟩ := h6 (by omega)
  refine ⟨w, ?_, h2, h3, by rw [h4, hj1], hlen, ?_, ?_, h8⟩
  · unfold long_lived_ops
    have hc : churn 1 (UID_MOD - 1) = churn w1.q.handles.length (UID_MOD - 1) := by rw [hlen1]
    rw [run_append, hw1, Option.some_bind, hc]
    exact h1
  · rw [h3.next_uid_eq, hlen]; exact Nat.mod_self _
  · rw [h7, h4, hj1]; rfl

/-- With at most `2 ^ 32` handles, a uid is in the job table exactly when the
promise with that number is. -/
theorem Inv.in_queue_iff {q : TimerQueue} (inv : Inv q) (hn : q.handles.length ≤ UID_MOD)
    (k : Nat) (hk : k < q.handles.length) :
    q.in_queue k = true ↔ k ∈ q.jobs.map (fun p => p.2.promise) := by
  have hM := uid_mod_eq
  unfold TimerQueue.in_queue
  rw [jobs_contains_iff, List.mem_map, List.mem_map]
  constructor
  · rintro ⟨p, hp, hpk⟩
    refine ⟨p, hp, ?_⟩
    have := inv.jobs_promise p hp
    rw [hM] at this hn
    omega
  · rintro ⟨p, hp, hpk⟩
    refine ⟨p, hp, ?_⟩
    have := inv.jobs_promise p hp
    rw [hM] at this hn
    omega

/-- The state after `long_lived_ops` and one more `enqueue`: the call got uid `0`,
found it in the job table and dropped its job and promise; the heap has two
entries with uid `0` for the one job. -/
theorem run_wrapped :
    ∃ w, run (long_lived_ops ++ [Op.enqueue 0 0]) init = some w ∧ Inv w.q ∧
      w.q.in_queue 0 = true ∧
      ({ uid := 0, deadline := 0, result := UID_MOD } : TimerHandle) ∈ w.q.handles ∧
      Event.dropped 0 UID_MOD ∈ w.q.log ∧
      w.q.jobs = [(0, { job := 0, promise := 0 })] ∧ w.q.heap.length = 2 ∧
      (∀ e ∈ w.q.heap, w.q.in_queue e.uid = true) := by
  obtain ⟨w, h1, h2, inv, hj, hlen, hnext, hheap, hlive⟩ := run_long_lived
  have hc : jobs_contains w.q.jobs 0 = true := by rw [hj]; rfl
  have hjobs : (w.q.enqueue 0 0).2.jobs = w.q.jobs := by
    simp only [TimerQueue.enqueue, jobs_insert, hnext, hc, if_true]
  have hrun : run (long_lived_ops ++ [Op.enqueue 0 0]) init =
      some { w with q := (w.q.enqueue 0 0).2 } := by
    rw [run_append, h1]
    simp only [Option.some_bind, run]
    rw [step_enqueue w 0 0 (by rw [h2]; rfl)]
    rfl
  have inv' : Inv (w.q.enqueue 0 0).2 := inv_enqueue inv 0 0
  refine ⟨_, hrun, inv', ?_, ?_, ?_, by rw [← hj]; exact hjobs, ?_, ?_⟩
  · have := enqueue_in_queue w.q 0 0
    rw [hnext] at this
    exact this
  · simp only [TimerQueue.enqueue, hnext, hlen]
    simp
  · simp only [TimerQueue.enqueue, hnext, hlen, hc, if_true]
    simp
  · show (w.q.enqueue 0 0).2.heap.length = 2
    rw [enqueue_heap_length, hheap]
  · intro e he
    show jobs_contains (w.q.enqueue 0 0).2.jobs e.uid = true
    rw [hjobs]
    have hp : List.Perm (w.q.enqueue 0 0).2.heap
        (w.q.heap ++ [{ uid := w.q.next_uid, deadline := 0 }]) := push_heap_perm _ _
    rcases List.mem_append.1 (hp.subset he) with h | h
    · exact hlive e h
    · rw [List.mem_singleton] at h
      rw [h]
      show jobs_contains w.q.jobs w.q.next_uid = true
      rw [hnext]; exact hc

/-! ## The root after `push_heap` -/

/-- The loop of `std::__push_heap` up to the top of the array, started in an array
whose entries other than the hole carry at least the deadline of the first:
the value pushed ends at the front exactly when the hole is the front or its
deadline is strictly smaller than the one of the front. -/
theorem push_heap_loop_root (v : HeapEntry) :
    ∀ (n : Nat) (a : List HeapEntry) (k : Nat), k ≤ n → k < a.length →
      (∀ j, j < a.length → j ≠ k → (nth a 0).deadline ≤ (nth a j).deadline) →
      nth (push_heap_loop n a k 0 v) 0 =
        if k = 0 ∨ v.deadline < (nth a 0).deadline then v else nth a 0 := by
  intro n
  induction n with
  | zero =>
    intro a k hk hlen _
    have hk0 : k = 0 := by omega
    subst hk0
    simp only [push_heap_loop, true_or, if_true]
    exact nth_set_eq a 0 v hlen
  | succ n ih =>
    intro a k hk hlen hroot
    unfold push_heap_loop
    simp only
    split
    · rename_i hc
      obtain ⟨hk0, hcmp⟩ := hc
      rw [heap_cmp_iff] at hcmp
      have hp : (k - 1) / 2 < k := by omega
      have hne : k ≠ 0 := by omega
      rw [ih (a.set k (nth a ((k - 1) / 2))) ((k - 1) / 2) (by omega)
        (by rw [List.length_set]; omega) ?_]
      · rw [nth_set_ne a k 0 _ hne]
        by_cases hp0 : (k - 1) / 2 = 0
        · rw [hp0] at hcmp
          simp [hp0, hne, hcmp]
        · simp [hp0, hne]
      · intro j hj hjp
        rw [List.length_set] at hj
        rw [nth_set_ne a k 0 _ hne, nth_set]
        split
        · exact hroot _ (by omega) (by omega)
        · rename_i hkj
          apply hroot j hj
          intro hjk
          exact hkj ⟨hjk.symm, hlen⟩
    · rename_i hc
      by_cases hk0 : k = 0
      · subst hk0
        simp only [true_or, if_true]
        exact nth_set_eq a 0 v hlen
      · have hcmp : ¬ v.deadline < (nth a ((k - 1) / 2)).deadline := by
          intro hlt
          exact hc ⟨by omega, (heap_cmp_iff _ _).2 hlt⟩
        have hr := hroot ((k - 1) / 2) (by omega) (by omega)
        have hnlt : ¬ v.deadline < (nth a 0).deadline := by omega
        simp only [hk0, hnlt, or_self, if_false]
        exact nth_set_ne a k 0 v hk0

/-- The front of the heap after `push_back` and `std::push_heap` on a heap. -/
theorem push_heap_root (h : List HeapEntry) (e : HeapEntry) (hh : is_heap h) :
    nth (push_heap (h ++ [e])) 0 =
      if h = [] ∨ e.deadline < (nth h 0).deadline then e else nth h 0 := by
  have hlen : (h ++ [e]).length = h.length + 1 := by simp
  simp only [push_heap, push_heap_at, hlen, Nat.add_sub_cancel, nth_append_length]
  rw [push_heap_loop_root e h.length (h ++ [e]) h.length (Nat.le_refl _) (by omega) ?_]
  · cases h with
    | nil => simp
    | cons x xs =>
      have h0 : nth (x :: xs ++ [e]) 0 = nth (x :: xs) 0 := rfl
      rw [h0]
      simp
  · intro j hj hjk
    rw [hlen] at hj
    have hj' : j < h.length := by omega
    rw [nth_append_left _ _ _ hj', nth_append_left _ _ _ (by omega)]
    exact is_heap_root_le h hh j hj'

/-! ## The flag `_running` and the place of the dispatcher along a run -/

/-- Only `start()` and `stop()` write `_running`. -/
theorem step_running {w w' : World} {op : Op} (h : step w op = some w')
    (hop : is_flag op = false) : w'.q.running = w.q.running := by
  cases op with
  | start => cases hop
  | stop => cases hop
  | enqueue d job =>
    simp only [step] at h
    split at h
    · simp at h
    · injection h with h
      subst h
      rfl
  | cancel u =>
    simp only [step] at h
    split at h
    · simp at h
    · rw [Option.map_eq_some'] at h
      obtain ⟨r, hr, h⟩ := h
      subst h
      unfold TimerQueue.cancel at hr
      split at hr
      · split at hr
        · simp at hr
        · injection hr with hr
          subst hr
          rfl
      · injection hr with hr
        subst hr
        rfl
  | clear =>
    simp only [step] at h
    split at h
    · simp at h
    · injection h with h
      subst h
      rfl
  | purge =>
    simp only [step] at h
    split at h
    · simp at h
    · rw [Option.map_eq_some'] at h
      obtain ⟨r, hr, h⟩ := h
      subst h
      exact (purge_frame hr).2.2.2.2
  | in_queue u =>
    simp only [step] at h
    split at h
    · simp at h
    · injection h with h
      subst h
      rfl
  | demux now =>
    rcases demux_step_cases h with h1 | ⟨root, t, _, _, h1⟩ | ⟨root, t, i, _, _, h1⟩
    · rw [h1]
    · rw [h1]
    · rw [h1]
  | wake t =>
    rw [demux_wake_q h]

theorem run_running : ∀ (ops : List Op) (w w' : World), run ops w = some w' →
    (∀ op ∈ ops, is_flag op = false) → w'.q.running = w.q.running := by
  intro ops
  induction ops with
  | nil =>
    intro w w' h _
    simp only [run] at h
    injection h with h
    subst h
    rfl
  | cons op ops ih =>
    intro w w' h hops
    simp only [run] at h
    rw [Option.bind_eq_some] at h
    obtain ⟨w1, h1, h2⟩ := h
    rw [ih w1 w' h2 (fun o ho => hops o (List.mem_cons_of_mem _ ho)),
      step_running h1 (hops op (List.mem_cons_self _ _))]

theorem churn_no_flag : ∀ (n a : Nat), ∀ op ∈ churn a n, is_flag op = false := by
  intro n
  induction n with
  | zero => intro a op hop; simp [churn] at hop
  | succ n ih =>
    intro a op hop
    rw [churn_succ, List.mem_append] at hop
    rcases hop with h | h
    · simp only [List.mem_cons, List.mem_singleton, List.not_mem_nil, or_false] at h
      rcases h with h | h | h <;> (subst h; rfl)
    · exact ih (a + 1) op h

/-- The state after `long_lived_at d`: the first timer is still in the job table
and in the heap, alone; `2 ^ 32` handles have been returned, and the next uid is
`0` again. -/
theorem run_long_lived_at (d : Int) :
    ∃ w, run (long_lived_at d) init = some w ∧ w.pc = Pc.off ∧ Inv w.q ∧
      w.q.running = false ∧
      w.q.jobs = [(0, { job := 0, promise := 0 })] ∧ w.q.handles.length = UID_MOD ∧
      w.q.next_uid = 0 ∧ w.q.heap = [{ uid := 0, deadline := d }] ∧
      ({ uid := 0, deadline := d, result := 0 } : TimerHandle) ∈ w.q.handles := by
  have hM := uid_mod_eq
  obtain ⟨w1, hw1, hpc1, hj1, hlen1, hr1, hh1⟩ : ∃ w1 : World,
      run [Op.enqueue d 0] init = some w1 ∧ w1.pc = Pc.off ∧
      w1.q.jobs = [(0, { job := 0, promise := 0 })] ∧ w1.q.handles.length = 1 ∧
      w1.q.running = false ∧
      w1.q.handles = [{ uid := 0, deadline := d, result := 0 }] :=
    ⟨{ init with q := (init.q.enqueue d 0).2 }, rfl, rfl, rfl, rfl, rfl, rfl⟩
  have inv1 := inv_run _ _ _ inv_create hw1
  obtain ⟨w, h1, h2, h3, h4, h5, h6⟩ := run_churn (UID_MOD - 1) w1 hpc1 inv1 (by
    rw [hlen1]; omega)
  have hlen : w.q.handles.length = UID_MOD := by rw [h5, hlen1]; omega
  obtain ⟨h7, h8⟩ := h6 (by omega)
  have hmem : ({ uid := 0, deadline := d, result := 0 } : TimerHandle) ∈ w.q.handles := by
    obtain ⟨l, hl⟩ := (run_history _ _ _ h1).2.1
    rw [hl, hh1]
    simp
  have hrun : w.q.running = false := by
    rw [run_running _ _ _ h1 (churn_no_flag _ _), hr1]
  have hjobs : w.q.jobs = [(0, { job := 0, promise := 0 })] := by rw [h4, hj1]
  refine ⟨w, ?_, h2, h3, hrun, hjobs, hlen, ?_, ?_, hmem⟩
  · unfold long_lived_at
    have hc : churn 1 (UID_MOD - 1) = churn w1.q.handles.length (UID_MOD - 1) := by rw [hlen1]
    rw [run_append, hw1, Option.some_bind, hc]
    exact h1
  · rw [h3.next_uid_eq, hlen]; exact Nat.mod_self _
  · rw [hjobs] at h7
    cases hheap : w.q.heap with
    | nil => rw [hheap] at h7; cases h7
    | cons e t =>
      rw [hheap] at h7
      have ht : t = [] := by
        cases t with
        | nil => rfl
        | cons x xs => simp at h7
      subst ht
      have he : e ∈ w.q.heap := by rw [hheap]; exact List.mem_singleton.2 rfl
      have hlive := h8 e he
      unfold TimerQueue.in_queue at hlive
      rw [hjobs] at hlive
      have hu : e.uid = 0 := by
        simp [jobs_contains] at hlive
        exact hlive.symm
      obtain ⟨hd, hhd, hdu, hdd⟩ := h3.heap_handles e he
      have := h3.handle_unique (Nat.le_of_eq hlen) hhd hmem (by rw [hdu, hu])
      rw [this] at hdd
      cases e
      simp only at hu hdd
      rw [hu, ← hdd]

/-- Where the dispatcher is after line 348. -/
theorem after_wait_until_pc (q : TimerQueue) (b : Bool) :
    (after_wait_until q b).pc = Pc.off ∨
    ((after_wait_until q b).pc = Pc.inner (!b) ∧ q.running = true) := by
  unfold after_wait_until
  split
  · exact Or.inl rfl
  · rename_i hr
    have hr' : q.running = true := by simpa using hr
    cases b
    · exact Or.inr ⟨rfl, hr'⟩
    · exact Or.inr ⟨rfl, hr'⟩

/-- What the predicate of the timed wait says when it is false. -/
theorem wait_until_pred_false {q : TimerQueue} {u : Nat} (h : wait_until_pred q u = some false) :
    jobs_contains q.jobs u = true ∧ q.running = true ∧
    ∃ root t, q.heap = root :: t ∧ root.uid = u := by
  unfold wait_until_pred at h
  split at h
  · cases h
  · rename_i hc
    have hc' : jobs_contains q.jobs u = true := by simpa using hc
    split at h
    · cases h
    · rename_i root t hheap
      injection h with h
      rw [Bool.or_eq_false_iff] at h
      obtain ⟨h1, h2⟩ := h
      refine ⟨hc', by simpa using h2, root, t, hheap, ?_⟩
      simpa using h1

/-- A step of the dispatcher blocks in the timed wait only on the deadline of the
heap root, with the uid of the root in the job table. -/
theorem demux_step_timed_wait {w w' : World} {now : Int} {u : Nat} {d : Int}
    (h : demux_step w now = some w') (hpc : w'.pc = Pc.timed_wait u d) :
    w'.q = w.q ∧ w.pc = Pc.inner false ∧ now < d ∧ wait_until_pred w.q u = some false ∧
    ∃ root t, w.q.heap = root :: t ∧ root.uid = u ∧ root.deadline = d := by
  unfold demux_step at h
  simp only at h
  split at h
  · split at h <;> (injection h with h; subst h; cases hpc)
  · rename_i de hpc0
    split at h
    · split at h <;> (injection h with h; subst h; cases hpc)
    · rename_i root t hheap
      split at h
      · injection h with h
        subst h
        cases hpc
      · rename_i i hfind
        cases de
        · simp only [Bool.not_false, if_true] at h
          by_cases hd : root.deadline ≤ now
          · simp only [hd, decide_True, if_true] at h
            injection h with h
            subst h
            cases hpc
          · simp only [hd, decide_False, Bool.false_eq_true, if_false] at h
            split at h
            · cases h
            · injection h with h
              subst h
              rcases after_wait_until_pc w.q true with h1 | ⟨h1, _⟩
              · rw [h1] at hpc; cases hpc
              · rw [h1] at hpc; cases hpc
            · rename_i hpred
              injection h with h
              subst h
              injection hpc with hu hdl
              subst hu
              subst hdl
              exact ⟨rfl, hpc0, by omega, hpred, root, t, hheap, rfl, rfl⟩
        · simp only [Bool.not_true, Bool.false_eq_true, if_false, if_true] at h
          injection h with h
          subst h
          cases hpc
  · injection h with h
    subst h
    cases hpc
  · simp at h

/-- A step of the dispatcher that hands a job to the executor: the job is the one
stored under the uid of the heap root, and either the clock sampled in the step
has reached the deadline of the root, or `deadline_expired` was set. -/
theorem demux_step_fire {w w' : World} {now : Int} {u job p : Nat}
    (h : demux_step w now = some w') (hlog : w'.q.log = w.q.log ++ [Event.executed u job p]) :
    ∃ root t de, w.q.heap = root :: t ∧ root.uid = u ∧
      jobs_find w.q.jobs u = some (u, { job := job, promise := p }) ∧
      w'.q.jobs = jobs_erase w.q.jobs u ∧
      w.pc = Pc.inner de ∧ (de = true ∨ root.deadline ≤ now) := by
  have hne : ¬ w.q.log = w.q.log ++ [Event.executed u job p] := by
    intro hcon
    have := congrArg List.length hcon
    simp at this
  unfold demux_step at h
  simp only at h
  split at h
  · split at h <;> (injection h with h; subst h; exact absurd hlog hne)
  · rename_i de hpc0
    split at h
    · split at h <;> (injection h with h; subst h; exact absurd hlog hne)
    · rename_i root t hheap
      split at h
      · injection h with h
        subst h
        exact absurd hlog hne
      · rename_i i hfind
        generalize hb : (if (!de) = true then decide (root.deadline ≤ now) else de) = b at h
        cases b
        · simp only [Bool.false_eq_true, if_false] at h
          split at h
          · cases h
          · injection h with h
            subst h
            rw [after_wait_until_q] at hlog
            exact absurd hlog hne
          · injection h with h
            subst h
            exact absurd hlog hne
        · simp only [if_true] at h
          injection h with h
          subst h
          simp only [List.append_cancel_left_eq, List.cons.injEq, Event.executed.injEq,
            and_true] at hlog
          obtain ⟨hu, hjob, hp⟩ := hlog
          subst hu
          refine ⟨root, t, de, hheap, rfl, ?_, rfl, hpc0, ?_⟩
          · rw [hfind, jobs_find_fst hfind]
            cases i with
            | mk a e =>
              cases e
              simp only at hjob hp
              rw [hjob, hp]
          · cases de
            · right
              simpa using hb
            · left; rfl
  · injection h with h
    subst h
    exact absurd hlog hne
  · simp at h

/-- The state after `alias_ops`: the job enqueued for time `5` got uid `0` and
was dropped; its heap entry is the root, and the job stored under uid `0` is
the one of the first timer, whose handle carries the deadline `1000`. -/
theorem run_alias :
    ∃ w, run alias_ops init = some w ∧ Inv w.q ∧ w.pc = Pc.inner false ∧
      w.q.jobs = [(0, { job := 0, promise := 0 }), (1, { job := 2, promise := UID_MOD + 1 })] ∧
      w.q.heap = [{ uid := 0, deadline := 5 }, { uid := 0, deadline := 1000 },
                  { uid := 1, deadline := 500 }] ∧
      ({ uid := 0, deadline := 1000, result := 0 } : TimerHandle) ∈ w.q.handles ∧
      ({ uid := 1, deadline := 500, result := UID_MOD + 1 } : TimerHandle) ∈ w.q.handles := by
  obtain ⟨w0, h1, hpc, _, hrun, hj, hlen, hnext, hheap, hmem⟩ := run_long_lived_at 1000
  obtain ⟨⟨running, next_uid, jobs, heap, handles, log⟩, pc⟩ := w0
  simp only at hpc hrun hj hlen hnext hheap hmem
  subst hpc hrun hj hnext hheap
  have hr : run alias_ops init = some
      { q := { running := true, next_uid := 2,
               jobs := [(0, { job := 0, promise := 0 }),
                        (1, { job := 2, promise := handles.length + 1 })],
               heap := [{ uid := 0, deadline := 5 }, { uid := 0, deadline := 1000 },
                        { uid := 1, deadline := 500 }],
               handles := handles ++ [{ uid := 0, deadline := 5, result := handles.length }] ++
                 [{ uid := 1, deadline := 500, result := handles.length + 1 }],
               log := log ++ [Event.dropped 0 handles.length] ++ [Event.notified] },
        pc := Pc.inner false } := by
    have e1 : 1 % UID_MOD = 1 := by decide
    have e2 : 2 % UID_MOD = 2 := by decide
    have e3 : ¬ UID_MOD = 1 := by decide
    have p1 : push_heap [({ uid := 0, deadline := 1000 } : HeapEntry), { uid := 0, deadline := 5 }] =
        [{ uid := 0, deadline := 5 }, { uid := 0, deadline := 1000 }] := by decide
    have p2 : push_heap [({ uid := 0, deadline := 5 } : HeapEntry), { uid := 0, deadline := 1000 },
        { uid := 1, deadline := 500 }] =
        [{ uid := 0, deadline := 5 }, { uid := 0, deadline := 1000 },
         { uid := 1, deadline := 500 }] := by decide
    unfold alias_ops
    rw [run_append, h1]
    simp only [Option.some_bind, run, step, Pc.holds_lock, Bool.false_eq_true, if_false,
      TimerQueue.enqueue, demux_step]
    simp [jobs_contains, jobs_insert, TimerQueue.notify_if, e1, e2, e3, p1, p2, nth]
  have inv := inv_run _ _ _ inv_create hr
  refine ⟨_, hr, inv, rfl, ?_, rfl, ?_, ?_⟩
  · rw [hlen]
  · simp only [List.mem_append, List.mem_singleton]
    exact Or.inl (Or.inl hmem)
  · rw [hlen]
    simp

theorem run_snoc (ops : List Op) (op : Op) (w w' : World) :
    run (ops ++ [op]) w = some w' ↔ ∃ w1, run ops w = some w1 ∧ step w1 op = some w' := by
  rw [run_append, Option.bind_eq_some]
  constructor
  · rintro ⟨w1, h1, h2⟩
    refine ⟨w1, h1, ?_⟩
    simp only [run] at h2
    rw [Option.bind_eq_some] at h2
    obtain ⟨w2, h3, h4⟩ := h2
    injection h4 with h4
    rw [← h4]
    exact h3
  · rintro ⟨w1, h1, h2⟩
    refine ⟨w1, h1, ?_⟩
    simp only [run, h2, Option.some_bind]

/-- Where the dispatcher is after a wake-up: it goes on waiting, or it left the
wait; it comes to line 297 with `deadline_expired` set only from a timed wait
that timed out with the predicate false. -/
theorem demux_wake_cases {w w' : World} {timed_out : Bool}
    (h : demux_wake w timed_out = some w') :
    w' = w ∨ w'.pc = Pc.off ∨ w'.pc = Pc.loop_head ∨ w'.pc = Pc.inner false ∨
    (w'.pc = Pc.inner true ∧ timed_out = true ∧
      ∃ u d, w.pc = Pc.timed_wait u d ∧ wait_until_pred w.q u = some false) := by
  unfold demux_wake at h
  simp only at h
  split at h
  · rename_i u d hpc
    split at h
    · cases h
    · injection h with h
      subst h
      rcases after_wait_until_pc w.q true with h1 | ⟨h1, _⟩
      · exact Or.inr (Or.inl h1)
      · exact Or.inr (Or.inr (Or.inr (Or.inl h1)))
    · rename_i hpred
      split at h
      · rename_i ht
        injection h with h
        subst h
        rcases after_wait_until_pc w.q false with h1 | ⟨h1, _⟩
        · exact Or.inr (Or.inl h1)
        · exact Or.inr (Or.inr (Or.inr (Or.inr ⟨h1, ht, u, d, hpc, hpred⟩)))
      · injection h with h
        exact Or.inl h.symm
  · split at h
    · injection h with h
      subst h
      exact Or.inr (Or.inr (Or.inl rfl))
    · injection h with h
      exact Or.inl h.symm
  · cases h

/-- A step of the dispatcher does not come to line 297 with `deadline_expired`
set. -/
theorem demux_step_pc {w w' : World} {now : Int} (h : demux_step w now = some w') :
    w'.pc ≠ Pc.inner true := by
  intro hpc
  unfold demux_step at h
  simp only at h
  split at h
  · split at h <;> (injection h with h; subst h; cases hpc)
  · rename_i de hpc0
    split at h
    · split at h <;> (injection h with h; subst h; cases hpc)
    · rename_i root t hheap
      split at h
      · injection h with h
        subst h
        cases hpc
      · rename_i i hfind
        generalize (if (!de) = true then decide (root.deadline ≤ now) else de) = b at h
        cases b
        · simp only [Bool.false_eq_true, if_false] at h
          split at h
          · cases h
          · injection h with h
            subst h
            rcases after_wait_until_pc w.q true with h1 | ⟨h1, _⟩
            · rw [h1] at hpc; cases hpc
            · rw [h1] at hpc; cases hpc
          · injection h with h
            subst h
            cases hpc
        · simp only [if_true] at h
          injection h with h
          subst h
          cases hpc
  · injection h with h
    subst h
    cases hpc
  · cases h

/-- A call of a member function other than `start` leaves the dispatcher where it
is, and the calls that take the lock happen only while the dispatcher does not
hold it. -/
theorem step_call_pc {w w' : World} {op : Op} (h : step w op = some w')
    (hd : ∀ now, op ≠ Op.demux now) (hw : ∀ t, op ≠ Op.wake t) :
    (w'.pc = w.pc ∧ (is_flag op = true ∨ w.pc.holds_lock = false)) ∨
    (op = Op.start ∧ w.pc = Pc.off ∧ w'.pc = Pc.loop_head) := by
  cases op with
  | start =>
    simp only [step] at h
    split at h
    · injection h with h; subst h; exact Or.inl ⟨rfl, Or.inl rfl⟩
    · split at h
      · rename_i hpc
        injection h with h; subst h; exact Or.inr ⟨rfl, hpc, rfl⟩
      · cases h
  | stop =>
    simp only [step] at h
    split at h <;> (injection h with h; subst h; exact Or.inl ⟨rfl, Or.inl rfl⟩)
  | enqueue d job =>
    simp only [step] at h
    split at h
    · cases h
    · rename_i hl
      injection h with h; subst h; exact Or.inl ⟨rfl, Or.inr (by simpa using hl)⟩
  | cancel u =>
    simp only [step] at h
    split at h
    · cases h
    · rename_i hl
      rw [Option.map_eq_some'] at h
      obtain ⟨r, _, h⟩ := h
      subst h
      exact Or.inl ⟨rfl, Or.inr (by simpa using hl)⟩
  | clear =>
    simp only [step] at h
    split at h
    · cases h
    · rename_i hl
      injection h with h; subst h; exact Or.inl ⟨rfl, Or.inr (by simpa using hl)⟩
  | purge =>
    simp only [step] at h
    split at h
    · cases h
    · rename_i hl
      rw [Option.map_eq_some'] at h
      obtain ⟨r, _, h⟩ := h
      subst h
      exact Or.inl ⟨rfl, Or.inr (by simpa using hl)⟩
  | in_queue u =>
    simp only [step] at h
    split at h
    · cases h
    · rename_i hl
      injection h with h; subst h; exact Or.inl ⟨rfl, Or.inr (by simpa using hl)⟩
  | demux now => exact absurd rfl (hd now)
  | wake t => exact absurd rfl (hw t)

/-- While the dispatcher is blocked in the timed wait, the uid and the deadline
it waits on are those of a handle that `enqueue` returned. -/
theorem timed_wait_step {w w' : World} {op : Op} (inv : Inv w.q)
    (htw : ∀ u d, w.pc = Pc.timed_wait u d → ∃ h ∈ w.q.handles, h.uid = u ∧ h.deadline = d)
    (h : step w op = some w') :
    ∀ u d, w'.pc = Pc.timed_wait u d → ∃ h ∈ w'.q.handles, h.uid = u ∧ h.deadline = d := by
  intro u d hpc
  by_cases hd : ∃ now, op = Op.demux now
  · obtain ⟨now, rfl⟩ := hd
    obtain ⟨hq, _, _, _, root, t, hheap, hu, hdl⟩ := demux_step_timed_wait h hpc
    rw [hq]
    obtain ⟨hh, hmem, h1, h2⟩ := inv.heap_handles root (by rw [hheap]; exact List.mem_cons_self _ _)
    exact ⟨hh, hmem, by rw [h1, hu], by rw [h2, hdl]⟩
  · by_cases hw : ∃ t, op = Op.wake t
    · obtain ⟨t, rfl⟩ := hw
      rcases demux_wake_cases h with h1 | h1 | h1 | h1 | ⟨h1, _⟩
      · rw [h1] at hpc ⊢
        exact htw u d hpc
      · rw [h1] at hpc; cases hpc
      · rw [h1] at hpc; cases hpc
      · rw [h1] at hpc; cases hpc
      · rw [h1] at hpc; cases hpc
    · obtain ⟨_, ⟨l, hl⟩, _⟩ := step_history h
      rcases step_call_pc h (fun now hn => hd ⟨now, hn⟩) (fun t ht => hw ⟨t, ht⟩) with
        ⟨h1, _⟩ | ⟨_, _, h1⟩
      · rw [h1] at hpc
        obtain ⟨hh, hmem, h2⟩ := htw u d hpc
        exact ⟨hh, by rw [hl]; exact List.mem_append_left _ hmem, h2⟩
      · rw [h1] at hpc; cases hpc

theorem timed_wait_run : ∀ (ops : List Op) (w w' : World), Inv w.q →
    (∀ u d, w.pc = Pc.timed_wait u d → ∃ h ∈ w.q.handles, h.uid = u ∧ h.deadline = d) →
    run ops w = some w' →
    ∀ u d, w'.pc = Pc.timed_wait u d → ∃ h ∈ w'.q.handles, h.uid = u ∧ h.deadline = d := by
  intro ops
  induction ops with
  | nil =>
    intro w w' _ htw h
    simp only [run] at h
    injection h with h
    subst h
    exact htw
  | cons op ops ih =>
    intro w w' inv htw h
    simp only [run] at h
    rw [Option.bind_eq_some] at h
    obtain ⟨w1, h1, h2⟩ := h
    exact ih w1 w' (inv_step inv op h1) (timed_wait_step inv htw h1) h2

theorem timed_wait_handle {ops : List Op} {w : World} (h : run ops init = some w) {u : Nat}
    {d : Int} (hpc : w.pc = Pc.timed_wait u d) :
    ∃ hd ∈ w.q.handles, hd.uid = u ∧ hd.deadline = d :=
  timed_wait_run ops init w inv_create (fun _ _ hp => by cases hp) h u d hpc

/-- The dispatcher is at line 297 with `deadline_expired` set only after a timed
wait that timed out with its predicate false; since then only `start()` and
`stop()` were called. -/
theorem inner_true_origin : ∀ (ops : List Op) (w : World), run ops init = some w →
    w.pc = Pc.inner true →
    ∃ ops0 flags w0 u d, ops = ops0 ++ [Op.wake true] ++ flags ∧
      (∀ op ∈ flags, is_flag op = true) ∧
      run ops0 init = some w0 ∧ w0.pc = Pc.timed_wait u d ∧
      wait_until_pred w0.q u = some false ∧ w.q.handles = w0.q.handles ∧
      w.q.heap = w0.q.heap ∧ w.q.jobs = w0.q.jobs := by
  intro ops
  induction ops using List.reverseRecOn with
  | nil =>
    intro w h hpc
    simp only [run] at h
    injection h with h
    subst h
    cases hpc
  | append_singleton ops op ih =>
    intro w h hpc
    rw [run_snoc] at h
    obtain ⟨w1, h1, h2⟩ := h
    by_cases hd : ∃ now, op = Op.demux now
    · obtain ⟨now, rfl⟩ := hd
      exact absurd hpc (demux_step_pc h2)
    · by_cases hw : ∃ t, op = Op.wake t
      · obtain ⟨t, rfl⟩ := hw
        have hq := demux_wake_q h2
        rcases demux_wake_cases h2 with h3 | h3 | h3 | h3 | ⟨_, ht, u, d, h4, h5⟩
        · rw [h3] at hpc
          have hx : demux_wake w1 t = none := by
            unfold demux_wake
            simp only [hpc]
          have h2' : demux_wake w1 t = some w := h2
          rw [hx] at h2'
          cases h2'
        · rw [h3] at hpc; cases hpc
        · rw [h3] at hpc; cases hpc
        · rw [h3] at hpc; cases hpc
        · subst ht
          refine ⟨ops, [], w1, u, d, by simp, by simp, h1, h4, h5, ?_, ?_, ?_⟩ <;> rw [hq]
      · rcases step_call_pc h2 (fun now hn => hd ⟨now, hn⟩) (fun t ht => hw ⟨t, ht⟩) with
          ⟨h3, h4⟩ | ⟨_, _, h3⟩
        · rw [h3] at hpc
          rcases h4 with h4 | h4
          · obtain ⟨ops0, flags, w0, u, d, e1, e2, e3, e4, e5, e6, e7, e8⟩ := ih w1 h1 hpc
            have hq : w.q.handles = w1.q.handles ∧ w.q.heap = w1.q.heap ∧
                w.q.jobs = w1.q.jobs := by
              cases op with
              | start =>
                simp only [step] at h2
                split at h2
                · injection h2 with h2; subst h2; exact ⟨rfl, rfl, rfl⟩
                · split at h2
                  · injection h2 with h2; subst h2; exact ⟨rfl, rfl, rfl⟩
                  · cases h2
              | stop =>
                simp only [step] at h2
                split at h2 <;> (injection h2 with h2; subst h2; exact ⟨rfl, rfl, rfl⟩)
              | enqueue _ _ => cases h4
              | cancel _ => cases h4
              | clear => cases h4
              | purge => cases h4
              | in_queue _ => cases h4
              | demux _ => cases h4
              | wake _ => cases h4
            refine ⟨ops0, flags ++ [op], w0, u, d, ?_, ?_, e3, e4, e5, ?_, ?_, ?_⟩
            · rw [e1]; simp
            · intro o ho
              rcases List.mem_append.1 ho with ho | ho
              · exact e2 o ho
              · rw [List.mem_singleton.1 ho]; exact h4
            · rw [hq.1, e6]
            · rw [hq.2.1, e7]
            · rw [hq.2.2, e8]
          · rw [hpc] at h4
            cases h4
        · rw [h3] at hpc; cases hpc

/-- Every promise created so far has a handle. -/
theorem Inv.promise_handle {q : TimerQueue} (inv : Inv q) {p : Nat}
    (hp : p < q.handles.length) : ∃ h ∈ q.handles, h.result = p := by
  have : p ∈ q.handles.map TimerHandle.result := by
    rw [inv.handles_result, List.mem_range]
    exact hp
  obtain ⟨h, hh, hr⟩ := List.mem_map.1 this
  exact ⟨h, hh, hr⟩

/-- With at most `2 ^ 32` handles, the handle of a job in the job table carries
the deadline of the heap entry with the uid of the job. -/
theorem Inv.job_deadline {q : TimerQueue} (inv : Inv q) (hn : q.handles.length ≤ UID_MOD)
    {e : Nat × MapEntry} (he : e ∈ q.jobs) {x : HeapEntry} (hx : x ∈ q.heap)
    (hxu : x.uid = e.1) {h : TimerHandle} (hh : h ∈ q.handles) (hr : h.result = e.2.promise) :
    h.uid = e.1 ∧ h.deadline = x.deadline := by
  obtain ⟨h0, hh0, hu0, hd0⟩ := inv.heap_handles x hx
  have hu : h.uid = e.1 := by
    rw [inv.handles_uid h hh, hr]
    exact (inv.jobs_promise e he).2
  have := inv.handle_unique hn hh hh0 (by rw [hu, hu0, hxu])
  rw [this]
  exact ⟨by rw [hu0, hxu], hd0⟩

/-- The step of the dispatcher at time `5` after `alias_ops`: the job of the
first timer is handed to the executor. -/
theorem alias_fire {w : World} (hpc : w.pc = Pc.inner false)
    (hj : w.q.jobs =
      [(0, { job := 0, promise := 0 }), (1, { job := 2, promise := UID_MOD + 1 })])
    (hheap : w.q.heap = [{ uid := 0, deadline := 5 }, { uid := 0, deadline := 1000 },
                         { uid := 1, deadline := 500 }]) :
    ∃ w', demux_step w 5 = some w' ∧ w'.q.log = w.q.log ++ [Event.executed 0 0 0] ∧
      w'.q.jobs = [(1, { job := 2, promise := UID_MOD + 1 })] := by
  obtain ⟨⟨running, next_uid, jobs, heap, handles, log⟩, pc⟩ := w
  simp only at hpc hj hheap
  subst hpc hj hheap
  exact ⟨_, rfl, rfl, rfl⟩

/-- The state after `alias_wait_ops`: the dispatcher is blocked in the wait for
uid `0` until time `1000`; the heap root has uid `0` and deadline `5`. -/
theorem run_alias_wait :
    ∃ w, run alias_wait_ops init = some w ∧ Inv w.q ∧ w.pc = Pc.timed_wait 0 1000 ∧
      w.q.running = true ∧
      w.q.jobs = [(0, { job := 0, promise := 0 })] ∧
      w.q.heap = [{ uid := 0, deadline := 5 }, { uid := 0, deadline := 1000 }] ∧
      ({ uid := 0, deadline := 1000, result := 0 } : TimerHandle) ∈ w.q.handles := by
  obtain ⟨w0, h1, hpc, _, hrun, hj, hlen, hnext, hheap, hmem⟩ := run_long_lived_at 1000
  obtain ⟨⟨running, next_uid, jobs, heap, handles, log⟩, pc⟩ := w0
  simp only at hpc hrun hj hlen hnext hheap hmem
  subst hpc hrun hj hnext hheap
  have hr : run alias_wait_ops init = some
      { q := { running := true, next_uid := 1,
               jobs := [(0, { job := 0, promise := 0 })],
               heap := [{ uid := 0, deadline := 5 }, { uid := 0, deadline := 1000 }],
               handles := handles ++ [{ uid := 0, deadline := 5, result := handles.length }],
               log := log ++ [Event.dropped 0 handles.length] ++ [Event.notified] },
        pc := Pc.timed_wait 0 1000 } := by
    have e1 : 1 % UID_MOD = 1 := by decide
    have p1 : push_heap [({ uid := 0, deadline := 1000 } : HeapEntry), { uid := 0, deadline := 5 }] =
        [{ uid := 0, deadline := 5 }, { uid := 0, deadline := 1000 }] := by decide
    unfold alias_wait_ops
    rw [run_append, h1]
    simp only [Option.some_bind, run, step, Pc.holds_lock, Bool.false_eq_true, if_false,
      TimerQueue.enqueue, demux_step]
    simp [jobs_contains, jobs_insert, jobs_find, TimerQueue.notify_if, e1, p1, nth,
      wait_until_pred, Pc.holds_lock]
  have inv := inv_run _ _ _ inv_create hr
  refine ⟨_, hr, inv, rfl, rfl, rfl, rfl, ?_⟩
  simp only [List.mem_append, List.mem_singleton]
  exact Or.inl hmem

/-- The time-out of the wait after `alias_wait_ops` and the step that follows: the
job of the first timer is handed to the executor without a look at the
clock. -/
theorem alias_wait_fire {w : World} (hpc : w.pc = Pc.timed_wait 0 1000)
    (hrun : w.q.running = true)
    (hj : w.q.jobs = [(0, { job := 0, promise := 0 })])
    (hheap : w.q.heap = [{ uid := 0, deadline := 5 }, { uid := 0, deadline := 1000 }]) :
    wait_until_pred w.q 0 = some false ∧
    demux_wake w true = some { w with pc := Pc.inner true } ∧
    ∀ now, ∃ w', demux_step { w with pc := Pc.inner true } now = some w' ∧
      w'.q.log = w.q.log ++ [Event.executed 0 0 0] := by
  obtain ⟨⟨running, next_uid, jobs, heap, handles, log⟩, pc⟩ := w
  simp only at hpc hrun hj hheap
  subst hpc hrun hj hheap
  exact ⟨rfl, rfl, fun now => ⟨_, rfl, rfl⟩⟩

/-- The handle of a promise is determined by the promise. -/
theorem Inv.result_unique {q : TimerQueue} (inv : Inv q) {h h' : TimerHandle}
    (hh : h ∈ q.handles) (hh' : h' ∈ q.handles) (hr : h.result = h'.result) : h = h' := by
  have hnd : (q.handles.map TimerHandle.result).Nodup := by
    rw [inv.handles_result]; exact List.nodup_range _
  exact List.inj_on_of_nodup_map hnd hh hh' hr

/-! ## The job of a promise and the state of its channel -/

/-- C1: in every state reached from a fresh queue by a sequence of operations
with fewer than `2 ^ 32` calls of `enqueue`, every uid in the job table has
exactly one heap entry, that entry carries the deadline of the handle that
`enqueue` returned for the uid (and no other handle has the uid), and the heap
is at least as long as the job table. -/
theorem C1_job_table_heap_agree (ops : List Op) (w : World)
    (hrun : run ops init = some w) (hn : enqueue_count ops < UID_MOD) :
    (∀ uid, w.q.in_queue uid = true →
      ∃ d, w.q.heap.filter (fun e => decide (e.uid = uid)) = [{ uid := uid, deadline := d }] ∧
        (∃ h ∈ w.q.handles, h.uid = uid ∧ h.deadline = d) ∧
        (∀ h ∈ w.q.handles, h.uid = uid → h.deadline = d)) ∧
    w.q.jobs.length ≤ w.q.heap.length := by
  have inv := inv_run ops init w inv_create hrun
  have hlen : w.q.handles.length ≤ UID_MOD := by
    rw [run_handles_length hrun]; omega
  refine ⟨?_, inv.jobs_le_heap⟩
  intro uid hin
  unfold TimerQueue.in_queue at hin
  rw [jobs_contains_iff] at hin
  obtain ⟨p, hp, hpu⟩ := List.mem_map.1 hin
  obtain ⟨e, he, heu⟩ := List.mem_map.1 (inv.keys_heap p hp)
  have hu : e.uid = uid := by rw [heu, hpu]
  obtain ⟨h, hh, h1, h2⟩ := inv.heap_handles e he
  refine ⟨e.deadline, ?_, ⟨h, hh, by rw [h1, hu], h2⟩, ?_⟩
  · have := filter_uid_eq_singleton w.q.heap (inv.uids_nodup hlen) e he
    rw [hu] at this
    rw [this]
    cases e
    simp only at hu
    subst hu
    rfl
  · intro h' hh' hu'
    have : h' = h := inv.handle_unique hlen hh' hh (by rw [hu', h1, hu])
    rw [this, h2]

/-- C1 at the state after two `enqueue` calls, a `cancel` and a `purge`. -/
theorem C1_job_table_heap_agree_witness :
    run demo_ops init = some demo_world ∧ enqueue_count demo_ops < UID_MOD ∧
      ((∀ uid, demo_world.q.in_queue uid = true →
        ∃ d, demo_world.q.heap.filter (fun e => decide (e.uid = uid))
              = [{ uid := uid, deadline := d }] ∧
          (∃ h ∈ demo_world.q.handles, h.uid = uid ∧ h.deadline = d) ∧
          (∀ h ∈ demo_world.q.handles, h.uid = uid → h.deadline = d)) ∧
        demo_world.q.jobs.length ≤ demo_world.q.heap.length) :=
  ⟨by decide, by decide,
   C1_job_table_heap_agree demo_ops demo_world (by decide) (by decide)⟩

/-- C4 fails as stated in two reachable states. After `2 ^ 32 - 1` short-lived
timers the next `enqueue` leaves `next_uid` at `0`, not one larger. After a
timer that stays in the queue and `2 ^ 32 - 1` short-lived ones, the next
`enqueue` returns uid `0`, which is in the job table, and the job table stays as
it was: it does not gain a mapping for the new job. -/
theorem C4_enqueue_counterexample :
    (∃ w, run (churn 0 (UID_MOD - 1)) init = some w ∧
      (w.q.enqueue 0 7).2.next_uid ≠ w.q.next_uid + 1) ∧
    (∃ w, run long_lived_ops init = some w ∧
      (w.q.enqueue 0 7).1.uid = 0 ∧
      w.q.jobs = [(0, { job := 0, promise := 0 })] ∧
      (w.q.enqueue 0 7).2.jobs = [(0, { job := 0, promise := 0 })]) := by
  have hM := uid_mod_eq
  constructor
  · obtain ⟨w, h1, _, _, _, _, h6⟩ := run_churn_init (UID_MOD - 1) (by omega)
    refine ⟨w, h1, ?_⟩
    simp only [TimerQueue.enqueue]
    rw [h6, hM]
    omega
  · obtain ⟨w, h1, _, _, hj, _, hnext, _, _⟩ := run_long_lived
    have hc : jobs_contains w.q.jobs 0 = true := by rw [hj]; rfl
    refine ⟨w, h1, hnext, hj, ?_⟩
    simp only [TimerQueue.enqueue, jobs_insert, hnext, hc, if_true]
    exact hj

/-- C4 as amended: for every queue state, deadline and job, `enqueue` returns a
handle with the uid `next_uid` had and the deadline given; afterwards
`next_uid` is one larger modulo `2 ^ 32`; the job table is the old table plus
the mapping from the uid to the job when the uid was not in it, and is the old
table when it was; the heap holds the old entries and one new entry with the uid
and the deadline; `in_queue(uid)` is true. -/
theorem C4_enqueue (q : TimerQueue) (deadline : Int) (job : Nat) :
    (q.enqueue deadline job).1.uid = q.next_uid ∧
    (q.enqueue deadline job).1.deadline = deadline ∧
    (q.enqueue deadline job).2.next_uid = (q.next_uid + 1) % UID_MOD ∧
    (q.enqueue deadline job).2.jobs =
      (if q.in_queue q.next_uid then q.jobs
       else q.jobs ++ [(q.next_uid, { job := job, promise := (q.enqueue deadline job).1.result })]) ∧
    List.Perm (q.enqueue deadline job).2.heap
      (q.heap ++ [{ uid := q.next_uid, deadline := deadline }]) ∧
    (q.enqueue deadline job).2.in_queue q.next_uid = true ∧
    (q.enqueue deadline job).2.handles = q.handles ++ [(q.enqueue deadline job).1] ∧
    (q.enqueue deadline job).2.running = q.running := by
  refine ⟨rfl, rfl, rfl, ?_, push_heap_perm _ _, enqueue_in_queue q deadline job, rfl, rfl⟩
  simp only [TimerQueue.enqueue, TimerQueue.in_queue, jobs_insert]

/-- C5 fails as stated: after `2 ^ 32` short-lived timers and one more
`enqueue` on the same queue, two of the handles returned have the same uid. -/
theorem C5_uid_reuse_counterexample :
    ∃ w, run (churn 0 UID_MOD ++ [Op.enqueue 0 0]) init = some w ∧
      ¬ (w.q.handles.map TimerHandle.uid).Nodup := by
  have hM := uid_mod_eq
  obtain ⟨w0, g1, g2, _, _, g5, _⟩ := run_churn_init UID_MOD (Nat.le_refl _)
  have h1 : run (churn 0 UID_MOD ++ [Op.enqueue 0 0]) init =
      some { w0 with q := (w0.q.enqueue 0 0).2 } := by
    rw [run_append, g1]
    simp only [Option.some_bind, run]
    rw [step_enqueue w0 0 0 (by rw [g2]; rfl)]
    rfl
  have inv := inv_run _ _ _ inv_create h1
  refine ⟨_, h1, ?_⟩
  generalize ({ w0 with q := (w0.q.enqueue 0 0).2 } : World) = w at h1 inv
  have hlen : w.q.handles.length = UID_MOD + 1 := by
    rw [run_handles_length h1, enqueue_count_append, ← run_handles_length g1, g5]
    rfl
  intro hnd
  have mem : ∀ k, k < UID_MOD + 1 → ∃ h ∈ w.q.handles, h.result = k := by
    intro k hk
    have : k ∈ w.q.handles.map TimerHandle.result := by
      rw [inv.handles_result, List.mem_range, hlen]; exact hk
    obtain ⟨h, hh, hr⟩ := List.mem_map.1 this
    exact ⟨h, hh, hr⟩
  obtain ⟨a, ha, har⟩ := mem 0 (by omega)
  obtain ⟨b, hb, hbr⟩ := mem UID_MOD (by omega)
  have hab : a = b := by
    apply List.inj_on_of_nodup_map hnd ha hb
    rw [inv.handles_uid a ha, inv.handles_uid b hb, har, hbr, Nat.mod_self]
    rfl
  rw [hab, hbr, hM] at har
  omega

/-- C5 as amended: in every sequence of operations with at most `2 ^ 32` calls
of `enqueue`, the `k`-th call (counted from `0`) returns the uid `k`, so any two
calls return distinct uids. -/
theorem C5_uid_distinct (ops : List Op) (w : World) (hrun : run ops init = some w)
    (hn : enqueue_count ops ≤ UID_MOD) :
    w.q.handles.map TimerHandle.uid = List.range (enqueue_count ops) ∧
    (w.q.handles.map TimerHandle.uid).Nodup := by
  have inv := inv_run ops init w inv_create hrun
  have hlen := run_handles_length hrun
  have : w.q.handles.map TimerHandle.uid = List.range (enqueue_count ops) := by
    rw [inv.handles_uid_eq, hlen]
    conv_rhs => rw [← List.map_id (List.range (enqueue_count ops))]
    apply List.map_congr_left
    intro k hk
    rw [List.mem_range] at hk
    exact Nat.mod_eq_of_lt (by omega)
  refine ⟨this, ?_⟩
  rw [this]
  exact List.nodup_range _

/-- C5 as amended, at the run of two `enqueue` calls, a `cancel` and a `purge`. -/
theorem C5_uid_distinct_witness :
    run demo_ops init = some demo_world ∧ enqueue_count demo_ops ≤ UID_MOD ∧
    (demo_world.q.handles.map TimerHandle.uid = List.range (enqueue_count demo_ops) ∧
     (demo_world.q.handles.map TimerHandle.uid).Nodup) :=
  ⟨by decide, by decide, C5_uid_distinct demo_ops demo_world (by decide) (by decide)⟩

/-- C6 fails as stated in two ways: after `enqueue` and `clear` the uid was
returned by an `enqueue`, was not executed and was not cancelled by `cancel`,
yet `in_queue` is false; and after `2 ^ 32` short-lived timers (the first had
uid `0` and was cancelled by `cancel(0)`) and one more `enqueue`, uid `0` has
been cancelled by `cancel(0)`, yet `in_queue(0)` is true. -/
theorem C6_in_queue_counterexample :
    (run clear_ops init = some clear_world ∧
      clear_world.q.in_queue 0 = false ∧
      (∃ h ∈ clear_world.q.handles, h.uid = 0) ∧
      (∀ job p, Event.executed 0 job p ∉ clear_world.q.log) ∧
      (∀ p, Event.cancelled 0 p ∉ clear_world.q.log)) ∧
    (∃ w, run (churn 0 1 ++ churn 1 (UID_MOD - 1) ++ [Op.enqueue 0 0]) init = some w ∧
      w.q.in_queue 0 = true ∧ Event.cancelled 0 0 ∈ w.q.log) := by
  constructor
  · refine ⟨by decide, by decide, ⟨_, List.mem_singleton.2 rfl, rfl⟩, ?_, ?_⟩
    · intro job p h
      simp [clear_world] at h
    · intro p h
      simp [clear_world] at h
  · have hM := uid_mod_eq
    -- the state after the first short-lived timer
    obtain ⟨w2, hw2, hpc2, hlog2, hlen2⟩ : ∃ w2 : World,
        run (churn 0 1) init = some w2 ∧ w2.pc = Pc.off ∧
        Event.cancelled 0 0 ∈ w2.q.log ∧ w2.q.handles.length = 1 :=
      ⟨{ q := { running := false, next_uid := 1, jobs := [], heap := [],
                handles := [{ uid := 0, deadline := 0, result := 0 }],
                log := [Event.notified, Event.cancelled 0 0, Event.notified] },
         pc := Pc.off }, by decide, rfl, by decide, rfl⟩
    have inv2 := inv_run _ _ _ inv_create hw2
    -- the other short-lived timers
    obtain ⟨w3, hw3, hpc3, inv3, _, hlen3, _⟩ :=
      run_churn (UID_MOD - 1) w2 hpc2 inv2 (by rw [hlen2]; omega)
    have hlen3' : w3.q.handles.length = UID_MOD := by rw [hlen3, hlen2]; omega
    have hnext3 : w3.q.next_uid = 0 := by
      rw [inv3.next_uid_eq, hlen3']; exact Nat.mod_self _
    have hc : churn 1 (UID_MOD - 1) = churn w2.q.handles.length (UID_MOD - 1) := by rw [hlen2]
    have hrun : run (churn 0 1 ++ churn 1 (UID_MOD - 1) ++ [Op.enqueue 0 0]) init =
        some { w3 with q := (w3.q.enqueue 0 0).2 } := by
      rw [run_append, run_append, hw2, Option.some_bind, hc, hw3, Option.some_bind]
      simp only [run]
      rw [step_enqueue w3 0 0 (by rw [hpc3]; rfl)]
      rfl
    refine ⟨_, hrun, ?_, ?_⟩
    · have := enqueue_in_queue w3.q 0 0
      rw [hnext3] at this
      exact this
    · obtain ⟨l, hl⟩ := (run_history _ _ _ hw3).2.2
      show Event.cancelled 0 0 ∈ (w3.q.enqueue 0 0).2.log
      simp only [TimerQueue.enqueue]
      rw [hl]
      apply List.mem_append_left
      apply List.mem_append_left
      exact List.mem_append_left _ hlog2

/-- C6 as amended: after every sequence of operations with at most `2 ^ 32`
calls of `enqueue`, `in_queue(uid)` is true exactly when the uid has been
returned by an `enqueue`, its job has not been handed to the executor, it has
not been cancelled by `cancel(uid)` and it has not been removed by `clear()`. -/
theorem C6_in_queue (ops : List Op) (w : World) (hrun : run ops init = some w)
    (hn : enqueue_count ops ≤ UID_MOD) (uid : Nat) :
    w.q.in_queue uid = true ↔
      ((∃ h ∈ w.q.handles, h.uid = uid) ∧
       (∀ job p, Event.executed uid job p ∉ w.q.log) ∧
       (∀ p, Event.cancelled uid p ∉ w.q.log) ∧
       (∀ p, Event.cleared uid p ∉ w.q.log)) := by
  have hM := uid_mod_eq
  have inv := inv_run ops init w inv_create hrun
  have hlen : w.q.handles.length ≤ UID_MOD := by
    rw [run_handles_length hrun]; exact hn
  -- an event of the trace about `uid` is about the promise `uid`
  have hev : ∀ ev ∈ w.q.log, ∀ p, ev.releases = some p → ev.uid_ok → p < w.q.handles.length := by
    intro ev hev p hp _
    apply inv.log_lt
    unfold released_ids
    rw [List.mem_filterMap]
    exact ⟨ev, hev, hp⟩
  constructor
  · intro hin
    have hin' := hin
    unfold TimerQueue.in_queue at hin'
    rw [jobs_contains_iff, List.mem_map] at hin'
    obtain ⟨e, he, heu⟩ := hin'
    have hj := inv.jobs_promise e he
    have hpe : e.2.promise = uid := by rw [hM] at hj hlen; omega
    have hnot : uid ∉ released_ids w.q.log := by
      rw [← hpe]; exact inv.log_jobs e he
    have hno : ∀ ev ∈ w.q.log, ∀ p, ev.releases = some p → p % UID_MOD = uid → False := by
      intro ev hev' p hp hpu
      have hlt := hev ev hev' p hp (inv.log_uid ev hev')
      have : p = uid := by rw [hM] at hpu hlen; omega
      subst this
      apply hnot
      unfold released_ids
      rw [List.mem_filterMap]
      exact ⟨ev, hev', hp⟩
    refine ⟨?_, ?_, ?_, ?_⟩
    · have : e.2.promise ∈ w.q.handles.map TimerHandle.result := by
        rw [inv.handles_result, List.mem_range]; exact hj.1
      obtain ⟨h, hh, hr⟩ := List.mem_map.1 this
      refine ⟨h, hh, ?_⟩
      rw [inv.handles_uid h hh, hr, hj.2, heu]
    · intro job p hmem
      exact hno _ hmem p rfl (inv.log_uid _ hmem).symm
    · intro p hmem
      exact hno _ hmem p rfl (inv.log_uid _ hmem).symm
    · intro p hmem
      exact hno _ hmem p rfl (inv.log_uid _ hmem).symm
  · rintro ⟨⟨h, hh, hu⟩, hex, hca, hcl⟩
    have hlt := inv.handle_result_lt hh
    have hr : h.result = uid := by
      have := inv.handles_uid h hh
      rw [hM] at this hlen
      omega
    rw [hr] at hlt
    rw [inv.in_queue_iff hlen uid hlt]
    rcases inv.complete uid hlt with hc | hc
    · exact hc
    · exfalso
      unfold released_ids at hc
      rw [List.mem_filterMap] at hc
      obtain ⟨ev, hev', hres⟩ := hc
      have hok := inv.log_uid ev hev'
      have hnd := inv.no_dropped hlen ev hev'
      have hmod : uid % UID_MOD = uid := Nat.mod_eq_of_lt (by omega)
      cases ev with
      | dropped u p => cases hnd
      | cancelled u p =>
        simp only [Event.releases, Option.some.injEq] at hres
        subst hres
        have : u = p := by rw [← hmod]; exact hok
        subst this
        exact hca _ hev'
      | cleared u p =>
        simp only [Event.releases, Option.some.injEq] at hres
        subst hres
        have : u = p := by rw [← hmod]; exact hok
        subst this
        exact hcl _ hev'
      | executed u j p =>
        simp only [Event.releases, Option.some.injEq] at hres
        subst hres
        have : u = p := by rw [← hmod]; exact hok
        subst this
        exact hex _ _ hev'
      | notified => cases hres

/-- C6 as amended, at the run of an `enqueue` and a `clear`, for the uid of the
cleared timer. -/
theorem C6_in_queue_witness :
    run clear_ops init = some clear_world ∧ enqueue_count clear_ops ≤ UID_MOD ∧
    (clear_world.q.in_queue 0 = true ↔
      ((∃ h ∈ clear_world.q.handles, h.uid = 0) ∧
       (∀ job p, Event.executed 0 job p ∉ clear_world.q.log) ∧
       (∀ p, Event.cancelled 0 p ∉ clear_world.q.log) ∧
       (∀ p, Event.cleared 0 p ∉ clear_world.q.log))) :=
  ⟨by decide, by decide, C6_in_queue clear_ops clear_world (by decide) (by decide) 0⟩

/-- C7 fails as stated: after a timer that stays in the queue, `2 ^ 32 - 1`
short-lived timers and one more `enqueue`, the heap has two entries whose uid
is in the job table and the job table has one job; no heap can hold exactly
those entries and have the size of the job table, and `purge` writes past the
end of its new vector. -/
theorem C7_purge_counterexample :
    ∃ w, run (long_lived_ops ++ [Op.enqueue 0 0]) init = some w ∧
      (w.q.heap.filter (fun e => w.q.in_queue e.uid)).length = 2 ∧
      w.q.jobs.length = 1 ∧
      w.q.purge = none := by
  obtain ⟨w, h1, _, _, _, _, h6, h7, h8⟩ := run_wrapped
  have hf : w.q.heap.filter (fun e => w.q.in_queue e.uid) = w.q.heap := by
    rw [List.filter_eq_self]
    exact h8
  have hj : w.q.jobs.length = 1 := by rw [h6]; rfl
  refine ⟨w, h1, by rw [hf]; exact h7, hj, ?_⟩
  unfold TimerQueue.purge
  unfold TimerQueue.in_queue at hf
  simp only [hf, h7, hj]
  rfl

/-- C7 as amended: in every state reached by a sequence of operations with at most
`2 ^ 32` calls of `enqueue`, `purge` leaves the job table, `next_uid` and the
rest of the object unchanged and makes the heap hold exactly the entries of the
previous heap whose uid is in the job table (as a multiset), so that the heap
has the size of the job table afterwards; with an empty job table the heap is
empty afterwards. -/
theorem C7_purge (ops : List Op) (w : World) (hrun : run ops init = some w)
    (hn : enqueue_count ops ≤ UID_MOD) :
    ∃ q', w.q.purge = some q' ∧
      q'.jobs = w.q.jobs ∧ q'.next_uid = w.q.next_uid ∧ q'.running = w.q.running ∧
      q'.handles = w.q.handles ∧ q'.log = w.q.log ∧
      List.Perm q'.heap (w.q.heap.filter (fun e => w.q.in_queue e.uid)) ∧
      (∀ e ∈ q'.heap, q'.in_queue e.uid = true) ∧
      q'.heap.length = q'.jobs.length ∧
      (w.q.jobs = [] → q'.heap = []) :=
  purge_spec w.q (inv_run ops init w inv_create hrun)
    (by rw [run_handles_length hrun]; exact hn)

/-- C7 as amended, at the state after two timers were enqueued and both were
cancelled: `purge` leaves an empty heap. -/
theorem C7_purge_witness :
    run cancel_all_ops init = some cancel_all_world ∧
    enqueue_count cancel_all_ops ≤ UID_MOD ∧
    ∃ q', cancel_all_world.q.purge = some q' ∧
      q'.jobs = cancel_all_world.q.jobs ∧ q'.next_uid = cancel_all_world.q.next_uid ∧
      q'.running = cancel_all_world.q.running ∧
      q'.handles = cancel_all_world.q.handles ∧ q'.log = cancel_all_world.q.log ∧
      List.Perm q'.heap
        (cancel_all_world.q.heap.filter (fun e => cancel_all_world.q.in_queue e.uid)) ∧
      (∀ e ∈ q'.heap, q'.in_queue e.uid = true) ∧
      q'.heap.length = q'.jobs.length ∧
      (cancel_all_world.q.jobs = [] → q'.heap = []) :=
  ⟨by decide, by decide, C7_purge cancel_all_ops cancel_all_world (by decide) (by decide)⟩

/-- C8: in every reachable state the heap array has the binary min-heap property
under `heap_cmp`, so its root carries the smallest deadline; `enqueue`
(`push_heap`), `purge` (`make_heap`) and the pops of the dispatcher (`pop_heap`)
lead to arrays with the property again. -/
theorem C8_heap_property (w : World) (hw : Reachable w) :
    is_heap w.q.heap ∧
    (∀ e ∈ w.q.heap, (nth w.q.heap 0).deadline ≤ e.deadline) ∧
    (∀ d job, is_heap (w.q.enqueue d job).2.heap) ∧
    (∀ q', w.q.purge = some q' → is_heap q'.heap) ∧
    is_heap (pop_root w.q.heap) := by
  have inv := inv_reachable hw
  refine ⟨inv.heap_ok, ?_, ?_, ?_, ?_⟩
  · intro e he
    obtain ⟨i, hi, hie⟩ := mem_iff_nth _ _ he
    rw [← hie]
    exact is_heap_root_le _ inv.heap_ok i hi
  · intro d job
    exact (inv_enqueue inv d job).heap_ok
  · intro q' hq'
    exact (inv_purge inv hq').heap_ok
  · cases hheap : w.q.heap with
    | nil =>
      intro i hi0 hil
      simp [pop_root, pop_heap] at hil
    | cons root t =>
      have hh : is_heap (root :: t) := by rw [← hheap]; exact inv.heap_ok
      exact (pop_root_spec root t hh).1

/-- C8 at the state after six `enqueue` calls and two `cancel` calls: the heap has
six entries, two of them tombstones. There `purge` rebuilds the heap with
`make_heap` in another order than the one of the entries kept, the pop of the
dispatcher moves entries, and an `enqueue` with the earliest deadline moves the
new entry to the root. -/
theorem C8_heap_property_witness :
    Reachable rich_world ∧
    rich_world.q.heap.filter (fun e => rich_world.q.in_queue e.uid) =
      [{ uid := 0, deadline := 1 }, { uid := 1, deadline := 50 }, { uid := 4, deadline := 70 },
       { uid := 5, deadline := 3 }] ∧
    rich_world.q.purge = some { rich_world.q with heap := rich_purged } ∧
    pop_root rich_world.q.heap =
      [{ uid := 2, deadline := 2 }, { uid := 1, deadline := 50 }, { uid := 5, deadline := 3 },
       { uid := 3, deadline := 60 }, { uid := 4, deadline := 70 }] ∧
    (rich_world.q.enqueue 0 16).2.heap =
      [{ uid := 6, deadline := 0 }, { uid := 1, deadline := 50 }, { uid := 0, deadline := 1 },
       { uid := 3, deadline := 60 }, { uid := 4, deadline := 70 }, { uid := 5, deadline := 3 },
       { uid := 2, deadline := 2 }] ∧
    (is_heap rich_world.q.heap ∧
     (∀ e ∈ rich_world.q.heap, (nth rich_world.q.heap 0).deadline ≤ e.deadline) ∧
     (∀ d job, is_heap (rich_world.q.enqueue d job).2.heap) ∧
     (∀ q', rich_world.q.purge = some q' → is_heap q'.heap) ∧
     is_heap (pop_root rich_world.q.heap)) :=
  ⟨⟨rich_ops, by decide⟩, by decide, by decide, by decide, by decide,
   C8_heap_property rich_world ⟨rich_ops, by decide⟩⟩

/-- C10: a step of the dispatcher at a root whose uid is not in the job table
pops the root, calls no executor and leaves the job table unchanged; a step
that calls the executor passes the job stored under the uid of the root,
removes that uid from the job table and the root from the heap; and in no
reachable trace is the promise of a cancelled entry also the promise of an
executed job. -/
theorem C10_dispatch_only_live (w : World) (hw : Reachable w) (now : Int) (w' : World)
    (hstep : demux_step w now = some w') :
    (∀ root t de, w.pc = Pc.inner de → w.q.heap = root :: t →
        w.q.in_queue root.uid = false →
        w'.q.jobs = w.q.jobs ∧ w'.q.log = w.q.log ∧ w'.q.heap = pop_root w.q.heap ∧
        List.Perm w'.q.heap t) ∧
    (w'.q.log = w.q.log ∨
      ∃ root t entry, w.q.heap = root :: t ∧
        jobs_find w.q.jobs root.uid = some (root.uid, entry) ∧
        w'.q.log = w.q.log ++ [Event.executed root.uid entry.job entry.promise] ∧
        (∀ p, p ∈ w'.q.jobs ↔ (p ∈ w.q.jobs ∧ p.1 ≠ root.uid)) ∧
        w'.q.in_queue root.uid = false ∧
        w'.q.heap = pop_root w.q.heap ∧ List.Perm w'.q.heap t) ∧
    (∀ u p, Event.cancelled u p ∈ w'.q.log → ∀ u' job, Event.executed u' job p ∉ w'.q.log) := by
  have inv := inv_reachable hw
  have inv' := inv_demux_step inv now hstep
  refine ⟨?_, ?_, ?_⟩
  · intro root t de hpc hheap hin
    have hfind : jobs_find w.q.jobs root.uid = none := by
      have := jobs_find_isSome w.q.jobs root.uid
      unfold TimerQueue.in_queue at hin
      rw [hin] at this
      cases hf : jobs_find w.q.jobs root.uid with
      | none => rfl
      | some i => rw [hf] at this; cases this
    have hh : is_heap (root :: t) := by rw [← hheap]; exact inv.heap_ok
    unfold demux_step at hstep
    simp only [hpc, hheap, hfind] at hstep
    injection hstep with hstep
    subst hstep
    refine ⟨rfl, rfl, by rw [hheap], ?_⟩
    exact (pop_root_spec root t hh).2
  · rcases demux_step_cases hstep with h1 | ⟨root, t, _, _, h1⟩ | ⟨root, t, i, hheap, hfind, h1⟩
    · left; rw [h1]
    · left; rw [h1]
    · right
      have hh : is_heap (root :: t) := by rw [← hheap]; exact inv.heap_ok
      refine ⟨root, t, i.2, hheap, ?_, by rw [h1], ?_, ?_, by rw [h1], ?_⟩
      · rw [hfind]; exact congrArg some (jobs_find_fst hfind)
      · intro p; rw [h1]; exact mem_jobs_erase
      · rw [h1]; exact jobs_erase_contains _ _
      · rw [h1]
        show List.Perm (pop_root w.q.heap) t
        rw [hheap]
        exact (pop_root_spec root t hh).2
  · intro u p hc u' job he
    have := releases_inj w'.q.log inv'.log_nodup _ hc _ he p rfl rfl
    cases this

/-- C10 at a dispatcher step that finds a cancelled timer at the root. -/
theorem C10_dispatch_only_live_witness :
    Reachable tombstone_world ∧
    demux_step tombstone_world 0 = some tombstone_next ∧
    ((∀ root t de, tombstone_world.pc = Pc.inner de → tombstone_world.q.heap = root :: t →
        tombstone_world.q.in_queue root.uid = false →
        tombstone_next.q.jobs = tombstone_world.q.jobs ∧
        tombstone_next.q.log = tombstone_world.q.log ∧
        tombstone_next.q.heap = pop_root tombstone_world.q.heap ∧
        List.Perm tombstone_next.q.heap t) ∧
     (tombstone_next.q.log = tombstone_world.q.log ∨
      ∃ root t entry, tombstone_world.q.heap = root :: t ∧
        jobs_find tombstone_world.q.jobs root.uid = some (root.uid, entry) ∧
        tombstone_next.q.log =
          tombstone_world.q.log ++ [Event.executed root.uid entry.job entry.promise] ∧
        (∀ p, p ∈ tombstone_next.q.jobs ↔ (p ∈ tombstone_world.q.jobs ∧ p.1 ≠ root.uid)) ∧
        tombstone_next.q.in_queue root.uid = false ∧
        tombstone_next.q.heap = pop_root tombstone_world.q.heap ∧
        List.Perm tombstone_next.q.heap t) ∧
     (∀ u p, Event.cancelled u p ∈ tombstone_next.q.log →
        ∀ u' job, Event.executed u' job p ∉ tombstone_next.q.log)) :=
  ⟨⟨tombstone_ops, by decide⟩, by decide,
   C10_dispatch_only_live tombstone_world ⟨tombstone_ops, by decide⟩ 0 tombstone_next
     (by decide)⟩

/-- C11 fails as stated: a timer with deadline `1000` stays in the queue while
`2 ^ 32 - 1` short-lived timers come and go; then a job is enqueued for time
`5`, which gets uid `0` again and is dropped, and a job for time `500`. Both
the timer with deadline `1000` (promise `0`) and the one with deadline `500`
are in the job table, and the step of the dispatcher at time `5` hands the job
of the first to the executor while the second stays in the job table. -/
theorem C11_earliest_first_counterexample :
    ∃ w w', run alias_ops init = some w ∧
      w.q.jobs = [(0, { job := 0, promise := 0 }), (1, { job := 2, promise := UID_MOD + 1 })] ∧
      ({ uid := 0, deadline := 1000, result := 0 } : TimerHandle) ∈ w.q.handles ∧
      (∀ h ∈ w.q.handles, h.result = 0 → h.deadline = 1000) ∧
      ({ uid := 1, deadline := 500, result := UID_MOD + 1 } : TimerHandle) ∈ w.q.handles ∧
      demux_step w 5 = some w' ∧
      w'.q.log = w.q.log ++ [Event.executed 0 0 0] ∧
      w'.q.jobs = [(1, { job := 2, promise := UID_MOD + 1 })] := by
  obtain ⟨w, h1, inv, hpc, hj, hheap, hm0, hm1⟩ := run_alias
  obtain ⟨w', s1, s2, s3⟩ := alias_fire hpc hj hheap
  refine ⟨w, w', h1, hj, hm0, ?_, hm1, s1, s2, s3⟩
  intro h hh hr
  rw [inv.result_unique hh hm0 hr]

/-- C11 as amended: in every state reached by a sequence of operations with at
most `2 ^ 32` calls of `enqueue`, whenever a step of the dispatcher hands a job
to the executor, the deadline of its timer (the one in the handle of the
promise) is at most the deadline of every entry of the heap and at most the
deadline of every timer that is still in the job table after the step; so a
timer is not dispatched while one with an earlier deadline is pending, whatever
the order of the `enqueue` calls. -/
theorem C11_earliest_first (ops : List Op) (w : World) (hrun : run ops init = some w)
    (hn : enqueue_count ops ≤ UID_MOD) (now : Int) (w' : World) (u job p : Nat)
    (hstep : demux_step w now = some w')
    (hfire : w'.q.log = w.q.log ++ [Event.executed u job p]) :
    ∃ h ∈ w.q.handles, h.result = p ∧ h.uid = u ∧
      (∀ x ∈ w.q.heap, h.deadline ≤ x.deadline) ∧
      (∀ e ∈ w'.q.jobs, ∀ h' ∈ w.q.handles, h'.result = e.2.promise →
        h.deadline ≤ h'.deadline) := by
  have inv := inv_run ops init w inv_create hrun
  have hlen : w.q.handles.length ≤ UID_MOD := by rw [run_handles_length hrun]; exact hn
  obtain ⟨root, t, de, hheap, hu, hfind, hjobs, _, _⟩ := demux_step_fire hstep hfire
  obtain ⟨hi, _⟩ := jobs_find_some hfind
  have hroot : root ∈ w.q.heap := by rw [hheap]; exact List.mem_cons_self _ _
  obtain ⟨h, hh, hr⟩ := inv.promise_handle (inv.jobs_promise _ hi).1
  obtain ⟨b1, b2⟩ := inv.job_deadline hlen hi hroot hu hh hr
  have hmin : ∀ x ∈ w.q.heap, root.deadline ≤ x.deadline := by
    intro x hx
    obtain ⟨k, hk, hkx⟩ := mem_iff_nth w.q.heap x hx
    have := is_heap_root_le w.q.heap inv.heap_ok k hk
    rw [hkx, hheap] at this
    exact this
  refine ⟨h, hh, hr, b1, ?_, ?_⟩
  · intro x hx
    rw [b2]
    exact hmin x hx
  · intro e he h' hh' hr'
    rw [hjobs] at he
    have hej := (mem_jobs_erase.1 he).1
    obtain ⟨x, hx, hxu⟩ := List.mem_map.1 (inv.keys_heap e hej)
    obtain ⟨_, c2⟩ := inv.job_deadline hlen hej hx hxu hh' hr'
    rw [b2, c2]
    exact hmin x hx

/-- C11 as amended, at the run where a timer for time `500` is enqueued before
one for time `50`: the step of the dispatcher at time `50` hands over the job
of the second. -/
theorem C11_earliest_first_witness :
    run edf_ops init = some edf_world ∧ enqueue_count edf_ops ≤ UID_MOD ∧
    demux_step edf_world 50 = some edf_next ∧
    edf_next.q.log = edf_world.q.log ++ [Event.executed 1 2 1] ∧
    ∃ h ∈ edf_world.q.handles, h.result = 1 ∧ h.uid = 1 ∧
      (∀ x ∈ edf_world.q.heap, h.deadline ≤ x.deadline) ∧
      (∀ e ∈ edf_next.q.jobs, ∀ h' ∈ edf_world.q.handles, h'.result = e.2.promise →
        h.deadline ≤ h'.deadline) :=
  ⟨by decide, by decide, by decide, by decide,
   C11_earliest_first edf_ops edf_world (by decide) (by decide) 50 edf_next 1 2 1 (by decide)
     (by decide)⟩

/-- C12 fails as stated: a timer with deadline `1000` stays in the queue while
`2 ^ 32 - 1` short-lived timers come and go; then a job is enqueued for time
`5`, which gets uid `0` again and is dropped. First run: the dispatcher samples
the clock at time `5`, finds the deadline `5` of the heap root reached and
hands the job stored under uid `0` to the executor, which is the job of the
first timer, `995` units of time before the deadline in its handle. Second
run: the dispatcher was blocked in the wait for uid `0` until time `1000` when
the job was enqueued; the wait times out with its predicate false and the next
step fires the heap root, whose deadline `5` is not the one waited on, without
a look at the clock. -/
theorem C12_not_before_deadline_counterexample :
    (∃ w w', run alias_ops init = some w ∧ w.pc = Pc.inner false ∧
      demux_step w 5 = some w' ∧
      w'.q.log = w.q.log ++ [Event.executed 0 0 0] ∧
      (∃ h ∈ w.q.handles, h.result = 0) ∧
      (∀ h ∈ w.q.handles, h.result = 0 → h.uid = 0 ∧ (5 : Int) < h.deadline)) ∧
    (∃ w, run alias_wait_ops init = some w ∧ w.pc = Pc.timed_wait 0 1000 ∧
      wait_until_pred w.q 0 = some false ∧
      demux_wake w true = some { w with pc := Pc.inner true } ∧
      w.q.heap = [{ uid := 0, deadline := 5 }, { uid := 0, deadline := 1000 }] ∧
      ∀ now, ∃ w', demux_step { w with pc := Pc.inner true } now = some w' ∧
        w'.q.log = w.q.log ++ [Event.executed 0 0 0]) := by
  constructor
  · obtain ⟨w, h1, inv, hpc, hj, hheap, hm0, _⟩ := run_alias
    obtain ⟨w', s1, s2, _⟩ := alias_fire hpc hj hheap
    refine ⟨w, w', h1, hpc, s1, s2, ⟨_, hm0, rfl⟩, ?_⟩
    intro h hh hr
    rw [inv.result_unique hh hm0 hr]
    exact ⟨rfl, by decide⟩
  · obtain ⟨w, h1, _, hpc, hrun, hj, hheap, _⟩ := run_alias_wait
    obtain ⟨s1, s2, s3⟩ := alias_wait_fire hpc hrun hj hheap
    exact ⟨w, h1, hpc, s1, s2, hheap, s3⟩

/-- C12 as amended: in every state reached by a sequence of operations with at
most `2 ^ 32` calls of `enqueue`, for every step of the dispatcher that hands a
job to the executor, the timer of the job (the handle of its promise) has the
uid of the heap root, and either the step sampled the clock and the deadline of
the timer is at most the value sampled, or `deadline_expired` was set: the last
dispatcher transition before the step was the time-out, with the predicate
false, of a timed wait on the uid and the deadline of this timer, and only
`start()` and `stop()` were called since. -/
theorem C12_not_before_deadline (ops : List Op) (w : World) (hrun : run ops init = some w)
    (hn : enqueue_count ops ≤ UID_MOD) (now : Int) (w' : World) (u job p : Nat)
    (hstep : demux_step w now = some w')
    (hfire : w'.q.log = w.q.log ++ [Event.executed u job p]) :
    ∃ h ∈ w.q.handles, h.result = p ∧ h.uid = u ∧
      (∃ root t, w.q.heap = root :: t ∧ root.uid = u ∧ root.deadline = h.deadline) ∧
      ((w.pc = Pc.inner false ∧ h.deadline ≤ now) ∨
       (w.pc = Pc.inner true ∧
         ∃ ops0 flags w0, ops = ops0 ++ [Op.wake true] ++ flags ∧
           (∀ op ∈ flags, is_flag op = true) ∧ run ops0 init = some w0 ∧
           w0.pc = Pc.timed_wait u h.deadline ∧ wait_until_pred w0.q u = some false)) := by
  have inv := inv_run ops init w inv_create hrun
  have hlen : w.q.handles.length ≤ UID_MOD := by rw [run_handles_length hrun]; exact hn
  obtain ⟨root, t, de, hheap, hu, hfind, _, hpc, hdue⟩ := demux_step_fire hstep hfire
  obtain ⟨hi, _⟩ := jobs_find_some hfind
  have hroot : root ∈ w.q.heap := by rw [hheap]; exact List.mem_cons_self _ _
  obtain ⟨h, hh, hr⟩ := inv.promise_handle (inv.jobs_promise _ hi).1
  obtain ⟨b1, b2⟩ := inv.job_deadline hlen hi hroot hu hh hr
  refine ⟨h, hh, hr, b1, ⟨root, t, hheap, hu, b2.symm⟩, ?_⟩
  cases de with
  | false =>
    left
    rcases hdue with hd | hd
    · cases hd
    · exact ⟨hpc, by rw [b2]; exact hd⟩
  | true =>
    right
    obtain ⟨ops0, flags, w0, u0, d, e1, e2, e3, e4, e5, e6, e7, _⟩ :=
      inner_true_origin ops w hrun hpc
    obtain ⟨_, _, root0, t0, hheap0, hu0⟩ := wait_until_pred_false e5
    have hroot0 : root0 = root := by
      rw [hheap, hheap0] at e7
      injection e7 with e7
      exact e7.symm
    have huu : u0 = u := by rw [← hu0, hroot0, hu]
    subst huu
    obtain ⟨hd, hhd, hdu, hdd⟩ := timed_wait_handle e3 e4
    rw [← e6] at hhd
    have := inv.handle_unique hlen hhd hh (by rw [hdu, b1])
    rw [this] at hdd
    rw [← hdd] at e4
    exact ⟨hpc, ops0, flags, w0, e1, e2, e3, e4, e5⟩

/-- C12 as amended, at the run where the dispatcher waits for the timer with
deadline `1000`, the wait times out and the next step hands over the job. -/
theorem C12_not_before_deadline_witness :
    run (waiting_ops ++ [Op.wake true]) init = some timed_out_world ∧
    enqueue_count (waiting_ops ++ [Op.wake true]) ≤ UID_MOD ∧
    demux_step timed_out_world 1000 = some timed_out_next ∧
    timed_out_next.q.log = timed_out_world.q.log ++ [Event.executed 0 7 0] ∧
    ∃ h ∈ timed_out_world.q.handles, h.result = 0 ∧ h.uid = 0 ∧
      (∃ root t, timed_out_world.q.heap = root :: t ∧ root.uid = 0 ∧
        root.deadline = h.deadline) ∧
      ((timed_out_world.pc = Pc.inner false ∧ h.deadline ≤ 1000) ∨
       (timed_out_world.pc = Pc.inner true ∧
         ∃ ops0 flags w0, waiting_ops ++ [Op.wake true] = ops0 ++ [Op.wake true] ++ flags ∧
           (∀ op ∈ flags, is_flag op = true) ∧ run ops0 init = some w0 ∧
           w0.pc = Pc.timed_wait 0 h.deadline ∧ wait_until_pred w0.q 0 = some false)) :=
  ⟨by decide, by decide, by decide, by decide,
   C12_not_before_deadline (waiting_ops ++ [Op.wake true]) timed_out_world (by decide)
     (by decide) 1000 timed_out_next 0 7 0 (by decide) (by decide)⟩

/-- One transition of a `stop()`: the trace gains only notifications and
hand-overs to the executor, and an entry leaves the job table only by such a
hand-over. -/
theorem stop_phase_step {w w1 : World} (inv : Inv w.q) (op : Op) (hop : stop_phase op = true)
    (h : step w op = some w1) :
    ∃ l, w1.q.log = w.q.log ++ l ∧
      (∀ ev ∈ l, ev = Event.notified ∨ ∃ u job p, ev = Event.executed u job p) ∧
      (∀ p ∈ w.q.jobs, p ∈ w1.q.jobs ∨ Event.executed p.1 p.2.job p.2.promise ∈ l) ∧
      (∀ p ∈ w1.q.jobs, p ∈ w.q.jobs) := by
  have same : ∀ {w2 : World}, w2.q = w.q →
      ∃ l, w2.q.log = w.q.log ++ l ∧
        (∀ ev ∈ l, ev = Event.notified ∨ ∃ u job p, ev = Event.executed u job p) ∧
        (∀ p ∈ w.q.jobs, p ∈ w2.q.jobs ∨ Event.executed p.1 p.2.job p.2.promise ∈ l) ∧
        (∀ p ∈ w2.q.jobs, p ∈ w.q.jobs) := by
    intro w2 h2
    rw [h2]
    exact ⟨[], by simp, by simp, fun p hp => Or.inl hp, fun p hp => hp⟩
  cases op with
  | stop =>
    simp only [step] at h
    split at h
    · injection h with h
      subst h
      refine ⟨[Event.notified], rfl, ?_, fun p hp => Or.inl hp, fun p hp => hp⟩
      intro ev hev
      exact Or.inl (List.mem_singleton.1 hev)
    · injection h with h
      subst h
      exact same rfl
  | demux now =>
    rcases demux_step_cases h with h1 | ⟨root, t, _, _, h1⟩ | ⟨root, t, i, hheap, hfind, h1⟩
    · exact same h1
    · rw [h1]
      exact ⟨[], by simp, by simp, fun p hp => Or.inl hp, fun p hp => hp⟩
    · rw [h1]
      obtain ⟨hi, hiu⟩ := jobs_find_some hfind
      refine ⟨[Event.executed root.uid i.2.job i.2.promise], rfl, ?_, ?_, ?_⟩
      · intro ev hev
        exact Or.inr ⟨_, _, _, List.mem_singleton.1 hev⟩
      · intro p hp
        by_cases hpu : p.1 = root.uid
        · right
          have : p = i := inv.entry_unique hp hi (by rw [hpu, hiu])
          subst this
          rw [hpu]
          exact List.mem_singleton.2 rfl
        · left
          exact mem_jobs_erase.2 ⟨hp, hpu⟩
      · intro p hp
        exact (mem_jobs_erase.1 hp).1
  | wake b => exact same (demux_wake_q h)
  | start => cases hop
  | enqueue d job => cases hop
  | cancel u => cases hop
  | clear => cases hop
  | purge => cases hop
  | in_queue u => cases hop

theorem stop_phase_run : ∀ (ops : List Op) (w w' : World), Inv w.q →
    (∀ op ∈ ops, stop_phase op = true) → run ops w = some w' →
    ∃ l, w'.q.log = w.q.log ++ l ∧
      (∀ ev ∈ l, ev = Event.notified ∨ ∃ u job p, ev = Event.executed u job p) ∧
      (∀ p ∈ w.q.jobs, p ∈ w'.q.jobs ∨ Event.executed p.1 p.2.job p.2.promise ∈ l) ∧
      (∀ p ∈ w'.q.jobs, p ∈ w.q.jobs) := by
  intro ops
  induction ops with
  | nil =>
    intro w w' _ _ h
    simp only [run] at h
    injection h with h
    subst h
    exact ⟨[], by simp, by simp, fun p hp => Or.inl hp, fun p hp => hp⟩
  | cons op ops ih =>
    intro w w' inv hops h
    simp only [run] at h
    rw [Option.bind_eq_some] at h
    obtain ⟨w1, h1, h2⟩ := h
    obtain ⟨l1, a1, a2, a3, a4⟩ :=
      stop_phase_step inv op (hops op (List.mem_cons_self _ _)) h1
    obtain ⟨l2, b1, b2, b3, b4⟩ := ih w1 w' (inv_step inv op h1)
      (fun o ho => hops o (List.mem_cons_of_mem _ ho)) h2
    refine ⟨l1 ++ l2, by rw [b1, a1, List.append_assoc], ?_, ?_, ?_⟩
    · intro ev hev
      rcases List.mem_append.1 hev with h | h
      · exact a2 ev h
      · exact b2 ev h
    · intro p hp
      rcases a3 p hp with h | h
      · rcases b3 p h with h' | h'
        · exact Or.inl h'
        · exact Or.inr (List.mem_append_right _ h')
      · exact Or.inr (List.mem_append_left _ h)
    · intro p hp
      exact a4 p (b4 p hp)

/-- C13 fails as stated: a timer far in the future is pending and the dispatcher
waits for it; after `stop()` (the flag is cleared, the dispatcher wakes up and
returns) the timer is still in the job table and its promise has not been
resolved. -/
theorem C13_stop_counterexample :
    run (waiting_ops ++ [Op.stop, Op.wake false]) init = some stopped_world ∧
    stopped_world.pc = Pc.off ∧
    stopped_world.q.in_queue 0 = true ∧
    ({ uid := 0, deadline := 1000, result := 0 } : TimerHandle) ∈ stopped_world.q.handles ∧
    0 ∉ released_ids stopped_world.q.log := by
  refine ⟨by decide, by decide, by decide, by decide, by decide⟩

/-- C13 as amended: in every reachable state, through a whole `stop()` (the write
of the flag, the notification and the dispatcher steps up to its return) no
promise is broken: the trace gains only notifications and hand-overs of jobs to
the executor; every timer that was in the job table is afterwards still in the
job table, with its promise unresolved, or was handed to the executor; no timer
is added. -/
theorem C13_stop (w : World) (hw : Reachable w) (ops : List Op) (w' : World)
    (hops : ∀ op ∈ ops, stop_phase op = true) (hrun : run ops w = some w') :
    ∃ l, w'.q.log = w.q.log ++ l ∧
      (∀ ev ∈ l, ev = Event.notified ∨ ∃ u job p, ev = Event.executed u job p) ∧
      (∀ p ∈ w.q.jobs, p ∈ w'.q.jobs ∨ Event.executed p.1 p.2.job p.2.promise ∈ l) ∧
      (∀ p ∈ w'.q.jobs, p ∈ w.q.jobs ∧ p.2.promise ∉ released_ids w'.q.log) := by
  have inv := inv_reachable hw
  obtain ⟨l, a1, a2, a3, a4⟩ := stop_phase_run ops w w' inv hops hrun
  have inv' := inv_run ops w w' inv hrun
  exact ⟨l, a1, a2, a3, fun p hp => ⟨a4 p hp, inv'.log_jobs p hp⟩⟩

/-- C13 as amended, at a `stop()` while the dispatcher waits for a timer far in
the future. -/
theorem C13_stop_witness :
    Reachable waiting_world ∧
    (∀ op ∈ [Op.stop, Op.wake false], stop_phase op = true) ∧
    run [Op.stop, Op.wake false] waiting_world = some stopped_world ∧
    ∃ l, stopped_world.q.log = waiting_world.q.log ++ l ∧
      (∀ ev ∈ l, ev = Event.notified ∨ ∃ u job p, ev = Event.executed u job p) ∧
      (∀ p ∈ waiting_world.q.jobs,
        p ∈ stopped_world.q.jobs ∨ Event.executed p.1 p.2.job p.2.promise ∈ l) ∧
      (∀ p ∈ stopped_world.q.jobs,
        p ∈ waiting_world.q.jobs ∧ p.2.promise ∉ released_ids stopped_world.q.log) :=
  ⟨⟨waiting_ops, by decide⟩, by decide, by decide,
   C13_stop waiting_world ⟨waiting_ops, by decide⟩ [Op.stop, Op.wake false] stopped_world
     (by decide) (by decide)⟩

/-- C14: for every job, `run_and_set_value` stores the outcome of the job in the
empty pool-side promise (the value if the job returns, the exception if it
raises) and no exception leaves it; `get_and_set_value` applied to that outcome
stores the same value or the same exception in the empty caller-side promise.
The same holds for the two functions for the result type `void`. -/
theorem C14_outcome_chained :
    (∀ (α : Type) (job : Unit → Outcome α),
      run_and_set_value job none = Except.ok (some (job ())) ∧
      get_and_set_value (job ()) none = Except.ok (some (job ()))) ∧
    (∀ (job : Unit → Outcome Unit),
      run_and_set_value_void job none = Except.ok (some (job ())) ∧
      get_and_set_value_void (job ()) none = Except.ok (some (job ()))) := by
  constructor
  · intro α job
    unfold run_and_set_value get_and_set_value
    cases job () with
    | value v => exact ⟨rfl, rfl⟩
    | error e => exact ⟨rfl, rfl⟩
  · intro job
    unfold run_and_set_value_void get_and_set_value_void
    cases job () with
    | value v => exact ⟨rfl, rfl⟩
    | error e => exact ⟨rfl, rfl⟩

/-- The entries submitted are the entries run followed by the entries waiting. -/
theorem pool_step_fifo {p p' : ThreadPool} (op : PoolOp) (h : pool_step p op = some p')
    (hp : p.submitted = p.ran ++ p.queue) : p'.submitted = p'.ran ++ p'.queue := by
  cases op with
  | start n =>
    simp only [pool_step] at h
    injection h with h
    subst h
    unfold ThreadPool.start
    split
    · exact hp
    · exact hp
  | stop =>
    simp only [pool_step] at h
    injection h with h
    subst h
    unfold ThreadPool.stop
    split
    · exact hp
    · exact hp
  | execute job =>
    simp only [pool_step] at h
    injection h with h
    subst h
    simp only [ThreadPool.execute]
    rw [hp, List.append_assoc]
  | worker =>
    simp only [pool_step, ThreadPool.worker_step] at h
    split at h
    · split at h
      · simp at h
      · rename_i e rest hq
        injection h with h
        subst h
        simp only
        rw [hp, hq, List.append_assoc]
        rfl
    · simp at h

theorem pool_run_fifo : ∀ (ops : List PoolOp) (p p' : ThreadPool),
    pool_run ops p = some p' → p.submitted = p.ran ++ p.queue →
    p'.submitted = p'.ran ++ p'.queue := by
  intro ops
  induction ops with
  | nil =>
    intro p p' h hp
    simp only [pool_run] at h
    injection h with h
    subst h
    exact hp
  | cons op ops ih =>
    intro p p' h hp
    simp only [pool_run] at h
    rw [Option.bind_eq_some] at h
    obtain ⟨p1, h1, h2⟩ := h
    exact ih p1 p' h2 (pool_step_fifo op h1 hp)

/-- C15: `execute` appends the entry at the tail of the queue and leaves the
earlier entries in place; a worker step takes the head; so after every sequence
of `start`, `stop`, `execute` and worker steps on a fresh pool, the entries
submitted are the entries run, in the same order, followed by the entries still
waiting: the `k`-th job run is the `k`-th job submitted. -/
theorem C15_pool_fifo (ops : List PoolOp) (p : ThreadPool)
    (hrun : pool_run ops ThreadPool.create = some p) :
    p.submitted = p.ran ++ p.queue ∧
    (∀ (k : Nat) (e : QueueEntry), p.ran[k]? = some e → p.submitted[k]? = some e) ∧
    (∀ job, (p.execute job).2.queue = p.queue ++ [{ job := job, promise := (p.execute job).1 }]) ∧
    (∀ p', p.worker_step = some p' →
      ∃ e, p.queue = e :: p'.queue ∧ p'.ran = p.ran ++ [e]) := by
  have hs := pool_run_fifo ops ThreadPool.create p hrun rfl
  refine ⟨hs, ?_, fun job => rfl, ?_⟩
  · intro k e hk
    rw [hs]
    have hlt : k < p.ran.length := by
      by_contra hcon
      rw [List.getElem?_eq_none (by omega)] at hk
      cases hk
    rw [List.getElem?_append_left hlt]
    exact hk
  · intro p' h
    unfold ThreadPool.worker_step at h
    split at h
    · split at h
      · simp at h
      · rename_i e rest hq
        injection h with h
        subst h
        exact ⟨e, hq, rfl⟩
    · simp at h

/-- C15 at the run where three jobs are submitted and two were taken. -/
theorem C15_pool_fifo_witness :
    pool_run pool_ops ThreadPool.create = some pool_world ∧
    (pool_world.submitted = pool_world.ran ++ pool_world.queue ∧
     (∀ (k : Nat) (e : QueueEntry), pool_world.ran[k]? = some e → pool_world.submitted[k]? = some e) ∧
     (∀ job, (pool_world.execute job).2.queue =
        pool_world.queue ++ [{ job := job, promise := (pool_world.execute job).1 }]) ∧
     (∀ p', pool_world.worker_step = some p' →
        ∃ e, pool_world.queue = e :: p'.queue ∧ p'.ran = pool_world.ran ++ [e])) :=
  ⟨by decide, C15_pool_fifo pool_ops pool_world (by decide)⟩

/-- C16 fails as stated: a job is submitted and the pool is stopped before a
worker takes it; after `stop()` the job is still in the queue, and after a
second `start` a worker step takes it and runs it. -/
theorem C16_pool_stop_counterexample :
    pool_run [PoolOp.start 1, PoolOp.execute 7, PoolOp.stop] ThreadPool.create =
      some { running := false, queue := [{ job := 7, promise := 0 }], pool := 0,
             submitted := [{ job := 7, promise := 0 }], ran := [] } ∧
    pool_run restart_ops ThreadPool.create =
      some { running := true, queue := [], pool := 1,
             submitted := [{ job := 7, promise := 0 }],
             ran := [{ job := 7, promise := 0 }] } := by
  exact ⟨by decide, by decide⟩

/-- C16 as amended: for every pool state, `stop()` leaves the queue as it is; the
jobs waiting in it are not run while the pool is stopped (no worker takes a
turn); after a subsequent `start(n)` with `n > 0` a worker step takes the entry
at the head of the queue, the one that was at the head when `stop()` was
called, and runs it. -/
theorem C16_pool_stop (p : ThreadPool) (n : Nat) :
    p.stop.queue = p.queue ∧ p.stop.running = false ∧
    p.stop.submitted = p.submitted ∧ p.stop.ran = p.ran ∧
    p.stop.worker_step = none ∧
    (p.stop.start (n + 1)).worker_step =
      (match p.queue with
       | [] => none
       | e :: rest =>
         some { (p.stop.start (n + 1)) with queue := rest, ran := p.ran ++ [e] }) := by
  have hq : p.stop.queue = p.queue := by
    unfold ThreadPool.stop; split <;> rfl
  have hr : p.stop.running = false := by
    unfold ThreadPool.stop
    split
    · rfl
    · rename_i h; simpa using h
  have hran : p.stop.ran = p.ran := by
    unfold ThreadPool.stop; split <;> rfl
  have hsub : p.stop.submitted = p.submitted := by
    unfold ThreadPool.stop; split <;> rfl
  refine ⟨hq, hr, hsub, hran, ?_, ?_⟩
  · unfold ThreadPool.worker_step
    simp [hr]
  · have hs : p.stop.start (n + 1) =
        { p.stop with running := true, pool := p.stop.pool + (n + 1) } := by
      unfold ThreadPool.start
      simp [hr]
    rw [hs]
    unfold ThreadPool.worker_step
    simp only [true_and, Nat.add_pos_iff_pos_or_pos, Nat.zero_lt_succ, or_true, if_true, hq,
      hran]

/-- C17 fails as stated: two timers whose deadline has passed are backed up, the
dispatcher fires the first, `stop()` sets the flag to false while the lock is
released around the executor call; the next iteration of the inner loop does
not test the flag and hands the second timer to the executor. -/
theorem C17_running_flag_counterexample :
    run backed_up_ops init = some backed_up_world ∧
    backed_up_world.q.running = false ∧
    demux_step backed_up_world 10 = some backed_up_next ∧
    backed_up_next.q.log = backed_up_world.q.log ++ [Event.executed 1 8 1] := by
  refine ⟨by decide, by decide, by decide, by decide⟩

/-- C17 as amended: the dispatcher tests the flag at the head of the outer loop,
on entering a wait and after a wait, not between two firings. In a state where
`running` is false: at the head of the outer loop the dispatcher returns; woken
from a wait it changes nothing in the queue and returns or goes to the head of
the outer loop; in the inner loop at a live root that is not due it returns
without a dispatch; in the inner loop at a live root that is due (the clock
value sampled is not before the deadline, or the timed wait before has timed
out) it still hands the job to the executor. -/
theorem C17_running_flag (w : World) (hrun : w.q.running = false) :
    (w.pc = Pc.loop_head → ∀ now, demux_step w now = some { q := w.q, pc := Pc.off }) ∧
    (∀ timed_out w', demux_wake w timed_out = some w' →
      w'.q = w.q ∧ (w'.pc = Pc.off ∨ w'.pc = Pc.loop_head)) ∧
    (∀ de root t now w', w.pc = Pc.inner de → w.q.heap = root :: t →
      w.q.in_queue root.uid = true → demux_step w now = some w' →
      ((de = false ∧ now < root.deadline) → w' = { q := w.q, pc := Pc.off }) ∧
      ((de = true ∨ root.deadline ≤ now) →
        ∃ entry, jobs_find w.q.jobs root.uid = some (root.uid, entry) ∧
          w'.q.log = w.q.log ++ [Event.executed root.uid entry.job entry.promise] ∧
          w'.pc = Pc.executing)) := by
  refine ⟨?_, ?_, ?_⟩
  · intro hpc now
    unfold demux_step
    simp only [hpc, hrun]
    rfl
  · intro timed_out w' h
    refine ⟨demux_wake_q h, ?_⟩
    unfold demux_wake at h
    simp only at h
    split at h
    · rename_i u d hpc
      have haw : ∀ b, (after_wait_until w.q b).pc = Pc.off := by
        intro b
        unfold after_wait_until
        simp [hrun]
      have hpred : wait_until_pred w.q u ≠ some false := by
        unfold wait_until_pred
        split
        · simp
        · split
          · simp
          · simp [hrun]
      split at h
      · simp at h
      · injection h with h
        subst h
        exact Or.inl (haw _)
      · rename_i hf
        exact absurd hf hpred
    · rename_i hpc
      have : wait_pred w.q = true := by
        unfold wait_pred
        simp [hrun]
      simp only [this, if_true] at h
      injection h with h
      subst h
      exact Or.inr rfl
    · simp at h
  · intro de root t now w' hpc hheap hin hstep
    have hfind : ∃ i, jobs_find w.q.jobs root.uid = some i := by
      have := jobs_find_isSome w.q.jobs root.uid
      unfold TimerQueue.in_queue at hin
      rw [hin] at this
      cases hf : jobs_find w.q.jobs root.uid with
      | none => rw [hf] at this; cases this
      | some i => exact ⟨i, rfl⟩
    obtain ⟨i, hfind⟩ := hfind
    have hpred : wait_until_pred w.q root.uid = some true := by
      unfold wait_until_pred
      unfold TimerQueue.in_queue at hin
      simp [hin, hheap, hrun]
    have haw : after_wait_until w.q true = { q := w.q, pc := Pc.off } := by
      unfold after_wait_until
      simp [hrun]
    unfold demux_step at hstep
    simp only [hpc, hheap, hfind] at hstep
    constructor
    · rintro ⟨hde, hnow⟩
      subst hde
      have hb : decide (root.deadline ≤ now) = false := by
        rw [decide_eq_false_iff_not]; omega
      simp only [Bool.not_false, if_true, hb, Bool.false_eq_true, if_false, hpred] at hstep
      injection hstep with hstep
      rw [← hstep, haw]
    · intro hdue
      have hb : (if (!de) = true then decide (root.deadline ≤ now) else de) = true := by
        rcases hdue with h | h
        · subst h; rfl
        · cases de
          · simp [h]
          · rfl
      simp only [hb, if_true] at hstep
      injection hstep with hstep
      subst hstep
      refine ⟨i.2, ?_, rfl, rfl⟩
      rw [hfind]
      exact congrArg some (jobs_find_fst hfind)

/-- C17 as amended, at the state where two expired timers were backed up and the
flag was cleared between the two firings. -/
theorem C17_running_flag_witness :
    backed_up_world.q.running = false ∧
    ((backed_up_world.pc = Pc.loop_head →
        ∀ now, demux_step backed_up_world now = some { q := backed_up_world.q, pc := Pc.off }) ∧
     (∀ timed_out w', demux_wake backed_up_world timed_out = some w' →
        w'.q = backed_up_world.q ∧ (w'.pc = Pc.off ∨ w'.pc = Pc.loop_head)) ∧
     (∀ de root t now w', backed_up_world.pc = Pc.inner de →
        backed_up_world.q.heap = root :: t →
        backed_up_world.q.in_queue root.uid = true →
        demux_step backed_up_world now = some w' →
        ((de = false ∧ now < root.deadline) → w' = { q := backed_up_world.q, pc := Pc.off }) ∧
        ((de = true ∨ root.deadline ≤ now) →
          ∃ entry, jobs_find backed_up_world.q.jobs root.uid = some (root.uid, entry) ∧
            w'.q.log = backed_up_world.q.log ++
              [Event.executed root.uid entry.job entry.promise] ∧
            w'.pc = Pc.executing))) :=
  ⟨by decide, C17_running_flag backed_up_world (by decide)⟩

/-- C18 fails as stated: after a timer that stays in the queue and `2 ^ 32 - 1`
short-lived timers, the heap is a heap with the one entry of uid `0` and
deadline `0`, and the next uid is `0` again. A call `enqueue(5, job)` then
signals the dispatcher, although the heap was not empty, the new deadline `5`
is not earlier than the deadline `0` of the root, and the entry pushed is at
position `1`, not at the root. -/
theorem C18_enqueue_signal_counterexample :
    ∃ w, run (long_lived_at 0) init = some w ∧ is_heap w.q.heap ∧
      w.q.heap = [{ uid := 0, deadline := 0 }] ∧
      (w.q.enqueue 5 1).2.heap = [{ uid := 0, deadline := 0 }, { uid := 0, deadline := 5 }] ∧
      (w.q.enqueue 5 1).2.log =
        w.q.log ++ [Event.dropped 0 UID_MOD] ++ TimerQueue.notify_if true := by
  obtain ⟨w, h1, _, inv, _, hj, hlen, hnext, hheap, _⟩ := run_long_lived_at 0
  refine ⟨w, h1, inv.heap_ok, hheap, ?_, ?_⟩
  · simp only [TimerQueue.enqueue, hnext, hheap]
    decide
  · simp only [TimerQueue.enqueue, hnext, hheap, hj, hlen]
    have : push_heap ([({ uid := 0, deadline := 0 } : HeapEntry)] ++
        [{ uid := 0, deadline := 5 }]) =
        [{ uid := 0, deadline := 0 }, { uid := 0, deadline := 5 }] := by decide
    rw [this]
    rfl

/-- C18 as amended: for every state whose heap satisfies the min-heap property and
holds no entry with the uid that the call assigns, `enqueue` signals the
dispatcher if and only if the entry pushed is the heap root after the push,
and this is exactly when the heap was empty before the call or the new deadline
is strictly earlier than the deadline of the previous root. -/
theorem C18_enqueue_signal (q : TimerQueue) (deadline : Int) (job : Nat)
    (hh : is_heap q.heap) (hfresh : ∀ e ∈ q.heap, e.uid ≠ q.next_uid) :
    ∃ b, (q.enqueue deadline job).2.log =
        q.log ++ (if jobs_contains q.jobs q.next_uid
                  then [Event.dropped q.next_uid q.handles.length] else []) ++
          TimerQueue.notify_if b ∧
      (b = true ↔
        nth (q.enqueue deadline job).2.heap 0 = { uid := q.next_uid, deadline := deadline }) ∧
      (b = true ↔ (q.heap = [] ∨ deadline < (nth q.heap 0).deadline)) := by
  have hroot := push_heap_root q.heap { uid := q.next_uid, deadline := deadline } hh
  refine ⟨decide ((nth (q.enqueue deadline job).2.heap 0).uid = q.next_uid), rfl, ?_, ?_⟩
  · rw [decide_eq_true_iff]
    show (nth (push_heap (q.heap ++ [{ uid := q.next_uid, deadline := deadline }])) 0).uid =
        q.next_uid ↔
      nth (push_heap (q.heap ++ [{ uid := q.next_uid, deadline := deadline }])) 0 =
        { uid := q.next_uid, deadline := deadline }
    rw [hroot]
    split
    · simp
    · rename_i hc
      have hne : q.heap ≠ [] := fun h => hc (Or.inl h)
      have hmem : nth q.heap 0 ∈ q.heap := by
        cases hq : q.heap with
        | nil => exact absurd hq hne
        | cons x xs => exact List.mem_cons_self _ _
      have hu := hfresh _ hmem
      constructor
      · intro h; exact absurd h hu
      · intro h; rw [h] at hu; exact absurd rfl hu
  · rw [decide_eq_true_iff]
    show (nth (push_heap (q.heap ++ [{ uid := q.next_uid, deadline := deadline }])) 0).uid =
        q.next_uid ↔ _
    rw [hroot]
    split
    · rename_i hc
      exact ⟨fun _ => hc, fun _ => rfl⟩
    · rename_i hc
      have hne : q.heap ≠ [] := fun h => hc (Or.inl h)
      have hmem : nth q.heap 0 ∈ q.heap := by
        cases hq : q.heap with
        | nil => exact absurd hq hne
        | cons x xs => exact List.mem_cons_self _ _
      have hu := hfresh _ hmem
      constructor
      · intro h; exact absurd h hu
      · intro h; exact absurd h hc

/-- C18 as amended, at the state after two timers were enqueued, the first was
cancelled and the heap was purged: the heap holds uid `1` with deadline `5`,
the next uid is `2`, and a timer enqueued for time `5` does not signal. -/
theorem C18_enqueue_signal_witness :
    is_heap demo_world.q.heap ∧ (∀ e ∈ demo_world.q.heap, e.uid ≠ demo_world.q.next_uid) ∧
    ∃ b, (demo_world.q.enqueue 5 9).2.log =
        demo_world.q.log ++ (if jobs_contains demo_world.q.jobs demo_world.q.next_uid
          then [Event.dropped demo_world.q.next_uid demo_world.q.handles.length] else []) ++
          TimerQueue.notify_if b ∧
      (b = true ↔
        nth (demo_world.q.enqueue 5 9).2.heap 0 =
          { uid := demo_world.q.next_uid, deadline := 5 }) ∧
      (b = true ↔ (demo_world.q.heap = [] ∨ 5 < (nth demo_world.q.heap 0).deadline)) :=
  ⟨(inv_reachable ⟨demo_ops, by decide⟩).heap_ok, by decide,
   C18_enqueue_signal demo_world.q 5 9 (inv_reachable ⟨demo_ops, by decide⟩).heap_ok
     (by decide)⟩

/-- C19: in every reachable state, if some uid is in the job table then the heap
is not empty; so `cancel`, which reads `_heap[0]` only after it found the uid in
the job table, and the predicate of the timed wait, which reads `_heap[0]` only
when `current_uid` is in the job table, are defined for every uid: no read of
`_heap[0]` is out of bounds. -/
theorem C19_heap_front_in_bounds (w : World) (hw : Reachable w) (uid : Nat) :
    (w.q.in_queue uid = true → w.q.heap ≠ []) ∧
    (∃ r, w.q.cancel uid = some r) ∧
    (∃ b, wait_until_pred w.q uid = some b) := by
  have inv := inv_reachable hw
  refine ⟨fun h => inv.heap_ne_nil h, ?_, ?_⟩
  · obtain ⟨q', hq', _⟩ := cancel_spec w.q uid (fun h => inv.heap_ne_nil h)
    exact ⟨_, hq'⟩
  · unfold wait_until_pred
    cases hc : jobs_contains w.q.jobs uid with
    | false => exact ⟨true, rfl⟩
    | true =>
      cases hheap : w.q.heap with
      | nil => exact absurd hheap (inv.heap_ne_nil hc)
      | cons root t => exact ⟨decide (root.uid ≠ uid) || !w.q.running, rfl⟩

/-- C19 at the state after two `enqueue` calls, a `cancel` and a `purge`, for the
uid that is still in the queue. -/
theorem C19_heap_front_in_bounds_witness :
    Reachable demo_world ∧
    ((demo_world.q.in_queue 1 = true → demo_world.q.heap ≠ []) ∧
     (∃ r, demo_world.q.cancel 1 = some r) ∧
     (∃ b, wait_until_pred demo_world.q 1 = some b)) :=
  ⟨⟨demo_ops, by decide⟩, C19_heap_front_in_bounds demo_world ⟨demo_ops, by decide⟩ 1⟩

/-- C20 fails as stated: after a timer that stays in the queue, `2 ^ 32 - 1`
short-lived timers and one more `enqueue`, the uid of the heap root is in the
job table, and `purge` writes past the end of its new vector: there is no heap
after `purge` whose root could be compared. -/
theorem C20_purge_wait_target_counterexample :
    ∃ w, run (long_lived_ops ++ [Op.enqueue 0 0]) init = some w ∧
      (∃ root t, w.q.heap = root :: t ∧ w.q.in_queue root.uid = true) ∧
      w.q.purge = none := by
  obtain ⟨w, h1, _, _, _, _, h6, h7, h8⟩ := run_wrapped
  have hf : w.q.heap.filter (fun e => jobs_contains w.q.jobs e.uid) = w.q.heap := by
    rw [List.filter_eq_self]
    exact h8
  have hj : w.q.jobs.length = 1 := by rw [h6]; rfl
  refine ⟨w, h1, ?_, ?_⟩
  · cases hheap : w.q.heap with
    | nil => rw [hheap] at h7; cases h7
    | cons root t =>
      exact ⟨root, t, rfl, h8 root (by rw [hheap]; exact List.mem_cons_self _ _)⟩
  · unfold TimerQueue.purge
    simp only [hf, h7, hj]
    rfl

/-- C20 as amended: in every state, whenever a step of the dispatcher decides to
wait until a deadline, the deadline and the uid are those of the heap root and
the uid is in the job table; and in every state reached by a sequence of
operations with at most `2 ^ 32` calls of `enqueue`, if the uid of the heap
root is in the job table, `purge` returns and the heap root afterwards has the
same deadline as the heap root before and a uid in the job table. -/
theorem C20_purge_wait_target (w : World) :
    (∀ now w' u d, demux_step w now = some w' → w'.pc = Pc.timed_wait u d →
      ∃ root t, w.q.heap = root :: t ∧ root.uid = u ∧ root.deadline = d ∧
        w.q.in_queue u = true) ∧
    (∀ ops, run ops init = some w → enqueue_count ops ≤ UID_MOD →
      ∀ root t, w.q.heap = root :: t → w.q.in_queue root.uid = true →
        ∃ q' root' t', w.q.purge = some q' ∧ q'.heap = root' :: t' ∧
          root'.deadline = root.deadline ∧ q'.in_queue root'.uid = true) := by
  constructor
  · intro now w' u d hstep hpc
    obtain ⟨_, _, _, hpred, root, t, hheap, hu, hd⟩ := demux_step_timed_wait hstep hpc
    exact ⟨root, t, hheap, hu, hd, (wait_until_pred_false hpred).1⟩
  · intro ops hrun hn root t hheap hlive
    have inv := inv_run ops init w inv_create hrun
    obtain ⟨q', hp, _, _, _, _, _, hperm, hall, _, _⟩ :=
      purge_spec w.q inv (by rw [run_handles_length hrun]; exact hn)
    have inv' := inv_purge inv hp
    have hroot : root ∈ q'.heap := by
      apply hperm.symm.subset
      rw [List.mem_filter]
      exact ⟨by rw [hheap]; exact List.mem_cons_self _ _, hlive⟩
    cases hq' : q'.heap with
    | nil => rw [hq'] at hroot; cases hroot
    | cons root' t' =>
      refine ⟨q', root', t', hp, hq', ?_, hall root' (by rw [hq']; exact List.mem_cons_self _ _)⟩
      apply le_antisymm
      · obtain ⟨i, hi, hie⟩ := mem_iff_nth q'.heap root hroot
        have := is_heap_root_le q'.heap inv'.heap_ok i hi
        rw [hie, hq'] at this
        exact this
      · have hmem : root' ∈ w.q.heap := by
          have : root' ∈ q'.heap := by rw [hq']; exact List.mem_cons_self _ _
          exact (List.mem_filter.1 (hperm.subset this)).1
        obtain ⟨i, hi, hie⟩ := mem_iff_nth w.q.heap root' hmem
        have := is_heap_root_le w.q.heap inv.heap_ok i hi
        rw [hie, hheap] at this
        exact this

/-- C20 as amended, at a heap of six entries with two tombstones below a live
root: the step of the dispatcher at time `0` decides to wait for the root
(uid `0`, deadline `1`); while it waits, `purge` drops the two tombstones and
rebuilds the heap with `make_heap` in another order than the one of the
entries kept, and the root has deadline `1` as before. -/
theorem C20_purge_wait_target_witness :
    run (rich_ops ++ [Op.start, Op.demux 0]) init = some rich_inner ∧
    demux_step rich_inner 0 = some rich_wait ∧
    rich_wait.pc = Pc.timed_wait 0 1 ∧
    (∃ root t, rich_inner.q.heap = root :: t ∧ root.uid = 0 ∧ root.deadline = 1 ∧
      rich_inner.q.in_queue 0 = true) ∧
    run (rich_ops ++ [Op.start, Op.demux 0, Op.demux 0]) init = some rich_wait ∧
    enqueue_count (rich_ops ++ [Op.start, Op.demux 0, Op.demux 0]) ≤ UID_MOD ∧
    rich_wait.q.heap = { uid := 0, deadline := 1 } ::
      [{ uid := 1, deadline := 50 }, { uid := 2, deadline := 2 }, { uid := 3, deadline := 60 },
       { uid := 4, deadline := 70 }, { uid := 5, deadline := 3 }] ∧
    rich_wait.q.in_queue 0 = true ∧
    rich_wait.q.heap.filter (fun e => rich_wait.q.in_queue e.uid) =
      [{ uid := 0, deadline := 1 }, { uid := 1, deadline := 50 }, { uid := 4, deadline := 70 },
       { uid := 5, deadline := 3 }] ∧
    rich_wait.q.purge = some { rich_wait.q with heap := rich_purged } ∧
    (∃ q' root' t', rich_wait.q.purge = some q' ∧ q'.heap = root' :: t' ∧
      root'.deadline = 1 ∧ q'.in_queue root'.uid = true) :=
  ⟨by decide, by decide, by decide,
   (C20_purge_wait_target rich_inner).1 0 rich_wait 0 1 (by decide) (by decide),
   by decide, by decide, by decide, by decide, by decide, by decide,
   (C20_purge_wait_target rich_wait).2 (rich_ops ++ [Op.start, Op.demux 0, Op.demux 0])
     (by decide) (by decide) { uid := 0, deadline := 1 }
     [{ uid := 1, deadline := 50 }, { uid := 2, deadline := 2 }, { uid := 3, deadline := 60 },
      { uid := 4, deadline := 70 }, { uid := 5, deadline := 3 }] (by decide) (by decide)⟩

end Yatq
